import Mathlib

/-!
# TLS handshake record decoding (`layers/tls_handshake.go`)

A shallow embedding of `TLSHandshakeRecord.decodeFromBytes` and
`clientHelloMsg.unmarshal`, together with the byte cursor they read through
(`cryptobyte.String`), followed by the properties proved about them.

Conventions of the embedding:

* a Go `[]byte` and a Go `string` are both a `List Byte`, `Byte = Fin 256`;
* a `uint16` is a `Nat` (every value built here is below `65536`);
* a method that mutates its receiver and returns a flag returns the new
  receiver together with the flag;
* the two `for` loops are `forLoop` applied to their body and take a fuel
  argument; `none` stands for "fuel ran out". `unmarshal` supplies the length
  of the view the loop reads from, which is always enough
  (`unmarshal_terminates`).
-/

namespace layers

/-- One octet of a Go byte slice. -/
abbrev Byte := Fin 256

/-! ## The cursor (`golang.org/x/crypto/cryptobyte`) -/

namespace cryptobyte

/-- Modelled from the spec: the cursor type `cryptobyte.String` lives in a
library outside the source file; it is a view over a byte buffer (Go:
`type String []byte`). -/
abbrev String := List Byte

/-- Modelled from the spec: `String.read(n)`: the cursor never reads past its
end; on success it hands out the first `n` bytes and advances past them. -/
def read (s : String) (n : Nat) : Option (List Byte × String) :=
  if s.length < n then none else some (s.take n, s.drop n)

/-- Modelled from the spec: `String.Skip(n)`: advance by `n` bytes, or fail. -/
def Skip (s : String) (n : Nat) : Option String :=
  match read s n with
  | none => none
  | some (_, rest) => some rest

/-- Modelled from the spec: `String.ReadUint8`: read an unsigned 8-bit scalar. -/
def ReadUint8 (s : String) : Option (Byte × String) :=
  match read s 1 with
  | some ([b], rest) => some (b, rest)
  | _ => none

/-- Modelled from the spec: `String.ReadUint16`: read a big-endian unsigned
16-bit scalar (`uint16(v[0])<<8 | uint16(v[1])`). -/
def ReadUint16 (s : String) : Option (Nat × String) :=
  match read s 2 with
  | some ([b0, b1], rest) => some ((b0.val <<< 8 ||| b1.val) % 2 ^ 16, rest)
  | _ => none

/-- Modelled from the spec: the big-endian value of a length prefix, folded
into a `uint32` as `length = length<<8 | uint32(b)`. -/
def lengthValue (lenBytes : List Byte) : Nat :=
  lenBytes.foldl (fun length b => ((length <<< 8) % 2 ^ 32) ||| b.val) 0

/-- Modelled from the spec: `String.readLengthPrefixed(lenLen, out)`: read a
`lenLen`-byte big-endian length, then a sub-view of exactly that length. -/
def readLengthPrefixed (s : String) (lenLen : Nat) : Option (String × String) :=
  match read s lenLen with
  | none => none
  | some (lenBytes, s1) =>
    match read s1 (lengthValue lenBytes) with
    | none => none
    | some (v, s2) => some (v, s2)

/-- Modelled from the spec: `String.ReadUint8LengthPrefixed`. -/
def ReadUint8LengthPrefixed (s : String) : Option (String × String) :=
  readLengthPrefixed s 1

/-- Modelled from the spec: `String.ReadUint16LengthPrefixed`. -/
def ReadUint16LengthPrefixed (s : String) : Option (String × String) :=
  readLengthPrefixed s 2

/-- Modelled from the spec: `String.Empty`: the view is fully consumed. -/
def Empty (s : String) : Bool :=
  s.length == 0

end cryptobyte

/-! ## Constants and data model -/

/-- TLS handshake message type of a ClientHello. -/
def typeClientHello : Byte := 1

/-- TLS extension number of `server_name`. -/
def extensionServerName : Nat := 0

/-- Modelled from the spec: the record header is declared outside the source
file; it carries a content type, a protocol version and the declared payload
length. -/
structure TLSRecordHeader where
  ContentType : Nat
  Version : Nat
  Length : Nat
deriving DecidableEq, Repr

/-- Summary of a decoded ClientHello. -/
structure TLSClientHello where
  ServerName : List Byte
  Extensions : List Nat
deriving DecidableEq, Repr

/-- A handshake record: the embedded header, the handshake type and the
optional ClientHello (`nil` is `none`). -/
structure TLSHandshakeRecord where
  ContentType : Nat
  Version : Nat
  Length : Nat
  HandshakeType : Byte
  ClientHello : Option TLSClientHello
deriving DecidableEq, Repr

/-- The zero value of `TLSHandshakeRecord`. -/
def TLSHandshakeRecord.fresh : TLSHandshakeRecord :=
  { ContentType := 0, Version := 0, Length := 0, HandshakeType := 0, ClientHello := none }

/-- The receiver of `unmarshal`. -/
structure clientHelloMsg where
  raw : List Byte
  serverName : List Byte
  extensions : List Nat
deriving DecidableEq, Repr

/-- The two errors `decodeFromBytes` builds with `fmt.Errorf`. -/
inductive DecodeError where
  /-- The message "tls: not enough bytes for handshake message". -/
  | notEnoughBytes
  /-- The message "tls: unable to unmarshal handshake message of type %d". -/
  | unableToUnmarshal (handshakeType : Byte)
deriving DecidableEq, Repr

/-! ## `clientHelloMsg.unmarshal` -/

/-- The test `strings.HasSuffix(m.serverName, ".")`. -/
def hasSuffixDot (name : List Byte) : Bool :=
  name.getLast? == some 46

/-- How one run of a loop body ends: with `return false`, or by reaching the
next test of the loop condition (at the end of the body or through `continue`)
with the view advanced to `rest`. In both cases `m` is the receiver so far. -/
inductive LoopStep where
  | returnFalse (m : clientHelloMsg)
  | next (m : clientHelloMsg) (rest : cryptobyte.String)
deriving DecidableEq, Repr

/-- A loop `for !view.Empty() { body }`. The result is the receiver and a
flag: `false` when the body executed `return false`, `true` when the loop ran
to its end; `none` when the fuel ran out first or the body did not finish. -/
def forLoop (body : clientHelloMsg → cryptobyte.String → Option LoopStep) :
    Nat → clientHelloMsg → cryptobyte.String → Option (clientHelloMsg × Bool)
  | fuel, m, view =>
    if cryptobyte.Empty view then some (m, true)
    else
      match fuel with
      | 0 => none
      | fuel + 1 =>
        match body m view with
        | none => none
        | some (.returnFalse m1) => some (m1, false)
        | some (.next m1 rest) => forLoop body fuel m1 rest

/-- The body of the loop `for !nameList.Empty() { ... }` of `unmarshal`. -/
def nameListBody (m : clientHelloMsg) (nameList : cryptobyte.String) : LoopStep :=
  match cryptobyte.ReadUint8 nameList with
  | none => .returnFalse m
  | some (nameType, nameList1) =>
    match cryptobyte.ReadUint16LengthPrefixed nameList1 with
    | none => .returnFalse m
    | some (serverName, nameList2) =>
      if cryptobyte.Empty serverName then .returnFalse m
      else if nameType ≠ 0 then .next m nameList2
      else if m.serverName.length ≠ 0 then .returnFalse m
      else
        let m1 := { m with serverName := serverName }
        if hasSuffixDot m1.serverName then .returnFalse m1
        else .next m1 nameList2

/-- The loop `for !nameList.Empty() { ... }` of `unmarshal`. -/
def nameListLoop (fuel : Nat) (m : clientHelloMsg) (nameList : cryptobyte.String) :
    Option (clientHelloMsg × Bool) :=
  forLoop (fun m nameList => some (nameListBody m nameList)) fuel m nameList

/-- The body of the loop `for !extensions.Empty() { ... }` of `unmarshal`. -/
def extensionsBody (m : clientHelloMsg) (extensions : cryptobyte.String) : Option LoopStep :=
  match cryptobyte.ReadUint16 extensions with
  | none => some (.returnFalse m)
  | some (extension, extensions1) =>
    match cryptobyte.ReadUint16LengthPrefixed extensions1 with
    | none => some (.returnFalse m)
    | some (extData, extensions2) =>
      let m1 := { m with extensions := m.extensions ++ [extension] }
      if extension = extensionServerName then
        match cryptobyte.ReadUint16LengthPrefixed extData with
        | none => some (.returnFalse m1)
        | some (nameList, extData1) =>
          if cryptobyte.Empty nameList then some (.returnFalse m1)
          else
            match nameListLoop nameList.length m1 nameList with
            | none => none
            | some (m2, false) => some (.returnFalse m2)
            | some (m2, true) =>
              if !cryptobyte.Empty extData1 then some (.returnFalse m2)
              else some (.next m2 extensions2)
      else some (.next m1 extensions2)

/-- The loop `for !extensions.Empty() { ... }` of `unmarshal`. -/
def extensionsLoop (fuel : Nat) (m : clientHelloMsg) (extensions : cryptobyte.String) :
    Option (clientHelloMsg × Bool) :=
  forLoop extensionsBody fuel m extensions

/-- The Go literal `clientHelloMsg{raw: data}`. -/
def clientHelloMsg.ofRaw (data : List Byte) : clientHelloMsg :=
  { raw := data, serverName := [], extensions := [] }

/-- The method `clientHelloMsg.unmarshal`: the receiver after the call and the
returned flag. -/
def unmarshal (data : List Byte) : Option (clientHelloMsg × Bool) :=
  let m : clientHelloMsg := clientHelloMsg.ofRaw data
  let s : cryptobyte.String := data
  match cryptobyte.Skip s 6 with
  | none => some (m, false)
  | some s1 =>
    match cryptobyte.Skip s1 32 with
    | none => some (m, false)
    | some s2 =>
      match cryptobyte.ReadUint8LengthPrefixed s2 with
      | none => some (m, false)
      | some (_, s3) =>
        match cryptobyte.ReadUint16LengthPrefixed s3 with
        | none => some (m, false)
        | some (_, s4) =>
          match cryptobyte.ReadUint8LengthPrefixed s4 with
          | none => some (m, false)
          | some (_, s5) =>
            if cryptobyte.Empty s5 then some (m, true)
            else
              match cryptobyte.ReadUint16LengthPrefixed s5 with
              | none => some (m, false)
              | some (extensions, s6) =>
                if !cryptobyte.Empty s6 then some (m, false)
                else extensionsLoop extensions.length m extensions

/-! ## `TLSHandshakeRecord.decodeFromBytes` -/

/-- The method `TLSHandshakeRecord.decodeFromBytes`: the receiver after the
call and the returned error (`nil` is `none`). The feedback argument `df` is
not used by the method. -/
def decodeFromBytes (t : TLSHandshakeRecord) (h : TLSRecordHeader) (data : List Byte) :
    Option (TLSHandshakeRecord × Option DecodeError) :=
  let t1 := { t with ContentType := h.ContentType, Version := h.Version, Length := h.Length }
  if t1.Length = 0 then some (t1, none)
  else if data.length < 4 then some (t1, some DecodeError.notEnoughBytes)
  else
    let t2 := { t1 with HandshakeType := data.getD 0 0 }
    let n := (data.getD 1 0).val <<< 16 ||| (data.getD 2 0).val <<< 8 ||| (data.getD 3 0).val
    if data.length ≠ 4 + n then some (t2, none)
    else if t2.HandshakeType = typeClientHello then
      match unmarshal data with
      | none => none
      | some (_, false) => some (t2, some (DecodeError.unableToUnmarshal t2.HandshakeType))
      | some (clientHello, true) =>
        some ({ t2 with ClientHello := some { ServerName := clientHello.serverName,
                                              Extensions := clientHello.extensions } }, none)
    else some (t2, none)

/-! ## The conformant encoder the properties are stated against -/

/-- The octet with value `n % 256`. -/
def byte (n : Nat) : Byte := ⟨n % 256, Nat.mod_lt n (by decide)⟩

/-- Big-endian 16-bit encoding. -/
def encodeUint16 (n : Nat) : List Byte := [byte (n / 256), byte n]

/-- Big-endian 24-bit encoding. -/
def encodeUint24 (n : Nat) : List Byte := [byte (n / 65536), byte (n / 256), byte n]

/-- A field preceded by its length on 8 bits. -/
def lengthPrefixed8 (b : List Byte) : List Byte := byte b.length :: b

/-- A field preceded by its big-endian length on 16 bits. -/
def lengthPrefixed16 (b : List Byte) : List Byte := encodeUint16 b.length ++ b

/-- An entry of a server-name list: name type, then the 16-bit-length-prefixed
value. -/
def encodeNameEntry (e : Byte × List Byte) : List Byte := e.1 :: lengthPrefixed16 e.2

/-- A server-name list: its entries back to back. -/
def encodeNameList : List (Byte × List Byte) → List Byte
  | [] => []
  | e :: es => encodeNameEntry e ++ encodeNameList es

/-- An extension as an encoder sees it: either `server_name` with the entries
of its name list, or any other type with its data. -/
inductive Extension where
  | serverName (entries : List (Byte × List Byte))
  | other (typeId : Nat) (data : List Byte)
deriving DecidableEq, Repr

/-- The type identifier of an extension. -/
def Extension.typeId : Extension → Nat
  | .serverName _ => extensionServerName
  | .other typeId _ => typeId

/-- The data bytes of an extension. -/
def Extension.data : Extension → List Byte
  | .serverName entries => lengthPrefixed16 (encodeNameList entries)
  | .other _ data => data

/-- An extension record: 16-bit type, then the 16-bit-length-prefixed data. -/
def encodeExtension (e : Extension) : List Byte :=
  encodeUint16 e.typeId ++ lengthPrefixed16 e.data

/-- The contents of an extension block: its records back to back. -/
def encodeExtensions : List Extension → List Byte
  | [] => []
  | e :: es => encodeExtension e ++ encodeExtensions es

/-- The values of the host_name (type 0) entries of a name list, in order. -/
def hostNamesOfEntries : List (Byte × List Byte) → List (List Byte)
  | [] => []
  | e :: es => if e.1 = 0 then e.2 :: hostNamesOfEntries es else hostNamesOfEntries es

/-- The host names carried by the `server_name` extensions of a list, in order. -/
def hostNames : List Extension → List (List Byte)
  | [] => []
  | .serverName entries :: es => hostNamesOfEntries entries ++ hostNames es
  | .other _ _ :: es => hostNames es

/-- The host name an extension list encodes; empty when it encodes none. -/
def encodedHostName (exts : List Extension) : List Byte :=
  (hostNames exts).headD []

/-- A handshake message: type octet, 24-bit body length, body. -/
def encodeHandshake (msgType : Byte) (body : List Byte) : List Byte :=
  msgType :: (encodeUint24 body.length ++ body)

/-- The body of a ClientHello up to and including the compression methods,
followed by `tail`. -/
def clientHelloBody (version random sessionId cipherSuites compressionMethods tail : List Byte) :
    List Byte :=
  version ++ (random ++ (lengthPrefixed8 sessionId ++ (lengthPrefixed16 cipherSuites ++
    (lengthPrefixed8 compressionMethods ++ tail))))

/-- Well-formedness of a name list for an encoder: every value is non-empty and
its length fits its 16-bit prefix. -/
def NameListOk (entries : List (Byte × List Byte)) : Prop :=
  ∀ e ∈ entries, e.2 ≠ [] ∧ e.2.length ≤ 65535

/-- What an encoder may put in an extension record: the type fits 16 bits and
the data length fits its 16-bit prefix, only `server_name` has type 0, and a
`server_name` extension holds a non-empty well-formed name list. -/
def ExtensionOk : Extension → Prop
  | .serverName entries =>
      entries ≠ [] ∧ NameListOk entries ∧ (encodeNameList entries).length ≤ 65533
  | .other typeId data => typeId ≠ 0 ∧ typeId < 65536 ∧ data.length ≤ 65535

/-- Every value of the name list has a length that fits its 16-bit prefix. -/
def NameListFits (entries : List (Byte × List Byte)) : Prop :=
  ∀ e ∈ entries, e.2.length ≤ 65535

/-- The receiver a run of a loop body leaves. -/
def LoopStep.msg : LoopStep → clientHelloMsg
  | .returnFalse m => m
  | .next m _ => m

/-- An extension record as it lies on the wire, for any type identifier and
any data: 16-bit type, then the 16-bit-length-prefixed data. -/
def encodeRecord (r : Nat × List Byte) : List Byte :=
  encodeUint16 r.1 ++ lengthPrefixed16 r.2

/-- Extension records back to back. -/
def encodeRecords : List (Nat × List Byte) → List Byte
  | [] => []
  | r :: rs => encodeRecord r ++ encodeRecords rs

/-- The type identifier of every record fits 16 bits and the length of its
data fits the 16-bit prefix. -/
def RecordsFit (recs : List (Nat × List Byte)) : Prop :=
  ∀ r ∈ recs, r.1 < 65536 ∧ r.2.length ≤ 65535

/-- The same outcome of a loop body, with the view of `next` replaced. -/
def LoopStep.withRest (rest : cryptobyte.String) : LoopStep → LoopStep
  | .returnFalse m => .returnFalse m
  | .next m _ => .next m rest

/-- The receiver with its `raw` field replaced. -/
def clientHelloMsg.withRaw (m : clientHelloMsg) (raw : List Byte) : clientHelloMsg :=
  { m with raw := raw }

/-- The outcome of a loop body with the `raw` field of its receiver replaced. -/
def LoopStep.withRaw (raw : List Byte) : LoopStep → LoopStep
  | .returnFalse m => .returnFalse (m.withRaw raw)
  | .next m rest => .next (m.withRaw raw) rest

/-- The name list that holds only the host_name entries of `entries`. -/
def hostEntries (entries : List (Byte × List Byte)) : List (Byte × List Byte) :=
  (hostNamesOfEntries entries).map (fun value => ((0 : Byte), value))

/-- A body that always finishes and shortens the view. -/
def BodyOk (body : clientHelloMsg → cryptobyte.String → Option LoopStep) : Prop :=
  ∀ m view, view ≠ [] →
    (∃ m1, body m view = some (.returnFalse m1)) ∨
    (∃ m1 rest, body m view = some (.next m1 rest) ∧ rest.length < view.length)

/-! ## Facts about the cursor -/

namespace cryptobyte

theorem read_eq_some {s : String} {n : Nat} {v : List Byte} {r : String} :
    read s n = some (v, r) ↔ n ≤ s.length ∧ v = s.take n ∧ r = s.drop n := by
  unfold read
  split
  · constructor
    · intro h; cases h
    · rintro ⟨h, -, -⟩; omega
  · constructor
    · intro h
      simp only [Option.some.injEq, Prod.mk.injEq] at h
      exact ⟨by omega, h.1.symm, h.2.symm⟩
    · rintro ⟨-, rfl, rfl⟩; rfl

theorem read_eq_none {s : String} {n : Nat} : read s n = none ↔ s.length < n := by
  unfold read
  split <;> simp_all

theorem read_append (a : List Byte) (b : String) : read (a ++ b) a.length = some (a, b) := by
  rw [read_eq_some]
  simp

theorem Skip_append (a : List Byte) (b : String) (n : Nat) (h : a.length = n) :
    Skip (a ++ b) n = some b := by
  subst h
  simp [Skip, read_append]

theorem ReadUint8_cons (b : Byte) (r : String) : ReadUint8 (b :: r) = some (b, r) := by
  simp [ReadUint8, read]

theorem ReadUint8_eq_some {s : String} {b : Byte} {r : String}
    (h : ReadUint8 s = some (b, r)) : s = b :: r := by
  cases s with
  | nil => simp [ReadUint8, read] at h
  | cons a t =>
    rw [ReadUint8_cons] at h
    simp only [Option.some.injEq, Prod.mk.injEq] at h
    rw [h.1, h.2]

theorem ReadUint16_cons (b0 b1 : Byte) (r : String) :
    ReadUint16 (b0 :: b1 :: r) = some ((b0.val <<< 8 ||| b1.val) % 2 ^ 16, r) := by
  have h : ¬ (r.length + 1 + 1 < 2) := by omega
  simp [ReadUint16, read, h]

theorem ReadUint16_eq_some {s : String} {x : Nat} {r : String}
    (h : ReadUint16 s = some (x, r)) : s.length = r.length + 2 := by
  match s with
  | [] => simp [ReadUint16, read] at h
  | [_] => simp [ReadUint16, read] at h
  | b0 :: b1 :: t =>
    rw [ReadUint16_cons] at h
    simp only [Option.some.injEq, Prod.mk.injEq] at h
    rw [← h.2]; rfl

theorem readLengthPrefixed_eq_some {s : String} {k : Nat} {v r : String}
    (h : readLengthPrefixed s k = some (v, r)) :
    s = s.take k ++ (v ++ r) ∧ k ≤ s.length ∧ v.length = lengthValue (s.take k) := by
  unfold readLengthPrefixed at h
  split at h
  · cases h
  · rename_i lenBytes s1 h1
    split at h
    · cases h
    · rename_i v1 s2 h2
      simp only [Option.some.injEq, Prod.mk.injEq] at h
      obtain ⟨rfl, rfl⟩ := h
      rw [read_eq_some] at h1 h2
      obtain ⟨hk, rfl, rfl⟩ := h1
      obtain ⟨hl, rfl, rfl⟩ := h2
      refine ⟨?_, hk, ?_⟩
      · rw [List.take_append_drop, List.take_append_drop]
      · rw [List.length_take]; omega

theorem readLengthPrefixed_length {s : String} {k : Nat} {v r : String}
    (h : readLengthPrefixed s k = some (v, r)) : s.length = k + (v.length + r.length) := by
  obtain ⟨h1, h2, -⟩ := readLengthPrefixed_eq_some h
  have h3 := congrArg List.length h1
  rw [List.length_append, List.length_append, List.length_take] at h3
  omega

theorem Empty_eq_true {s : String} : Empty s = true ↔ s = [] := by
  cases s <;> simp [Empty]

theorem Empty_eq_false {s : String} : Empty s = false ↔ s ≠ [] := by
  cases s <;> simp [Empty]

end cryptobyte

/-! ## The loops terminate and do not depend on the fuel -/

open cryptobyte (ReadUint8 ReadUint16 ReadUint16LengthPrefixed ReadUint8LengthPrefixed Skip)

theorem forLoop_nil (body : clientHelloMsg → cryptobyte.String → Option LoopStep) (fuel : Nat)
    (m : clientHelloMsg) : forLoop body fuel m [] = some (m, true) := by
  unfold forLoop
  simp [cryptobyte.Empty]

theorem forLoop_succ (body : clientHelloMsg → cryptobyte.String → Option LoopStep) (fuel : Nat)
    (m : clientHelloMsg) (view : cryptobyte.String) (h : view ≠ []) :
    forLoop body (fuel + 1) m view =
      match body m view with
      | none => none
      | some (.returnFalse m1) => some (m1, false)
      | some (.next m1 rest) => forLoop body fuel m1 rest := by
  rw [forLoop, if_neg (by simp [cryptobyte.Empty_eq_false.mpr h])]

theorem forLoop_fuel (body : clientHelloMsg → cryptobyte.String → Option LoopStep)
    (hb : BodyOk body) (n : Nat) :
    ∀ (view : cryptobyte.String) (m : clientHelloMsg) (f1 f2 : Nat),
      view.length ≤ n → view.length ≤ f1 → view.length ≤ f2 →
      forLoop body f1 m view = forLoop body f2 m view ∧ (forLoop body f1 m view).isSome = true := by
  induction n with
  | zero =>
    intro view m f1 f2 hn _ _
    have hs : view = [] := List.length_eq_zero.mp (by omega)
    subst hs
    simp [forLoop_nil]
  | succ n ih =>
    intro view m f1 f2 hn h1 h2
    by_cases hne : view = []
    · subst hne
      simp [forLoop_nil]
    · have hpos : 0 < view.length := List.length_pos.mpr hne
      obtain ⟨g1, rfl⟩ : ∃ g, f1 = g + 1 := ⟨f1 - 1, by omega⟩
      obtain ⟨g2, rfl⟩ : ∃ g, f2 = g + 1 := ⟨f2 - 1, by omega⟩
      rw [forLoop_succ body g1 m view hne, forLoop_succ body g2 m view hne]
      rcases hb m view hne with ⟨m1, hm⟩ | ⟨m1, rest, hm, hlt⟩
      · simp [hm]
      · simp only [hm]
        exact ih rest m1 g1 g2 (by omega) (by omega) (by omega)

theorem nameListBody_ok : BodyOk (fun m nameList => some (nameListBody m nameList)) := by
  intro m view _
  simp only [Option.some.injEq]
  unfold nameListBody
  split
  · exact Or.inl ⟨_, rfl⟩
  · rename_i nameType s1 hr
    have hs1 := cryptobyte.ReadUint8_eq_some hr
    have hlen : view.length = s1.length + 1 := by rw [hs1]; rfl
    split
    · exact Or.inl ⟨_, rfl⟩
    · rename_i serverName s2 hr2
      have hs2 := cryptobyte.readLengthPrefixed_length hr2
      split
      · exact Or.inl ⟨_, rfl⟩
      · split
        · exact Or.inr ⟨_, _, rfl, by omega⟩
        · split
          · exact Or.inl ⟨_, rfl⟩
          · simp only []
            split
            · exact Or.inl ⟨_, rfl⟩
            · exact Or.inr ⟨_, _, rfl, by omega⟩

theorem nameListLoop_fuel (m : clientHelloMsg) (nameList : cryptobyte.String) (f1 f2 : Nat)
    (h1 : nameList.length ≤ f1) (h2 : nameList.length ≤ f2) :
    nameListLoop f1 m nameList = nameListLoop f2 m nameList :=
  (forLoop_fuel _ nameListBody_ok nameList.length nameList m f1 f2 (Nat.le_refl _) h1 h2).1

theorem nameListLoop_isSome (m : clientHelloMsg) (nameList : cryptobyte.String) (f : Nat)
    (h : nameList.length ≤ f) : (nameListLoop f m nameList).isSome = true :=
  (forLoop_fuel _ nameListBody_ok nameList.length nameList m f f (Nat.le_refl _) h h).2

theorem extensionsBody_ok : BodyOk extensionsBody := by
  intro m view _
  unfold extensionsBody
  split
  · exact Or.inl ⟨_, rfl⟩
  · rename_i extension s1 hr
    have hs1 := cryptobyte.ReadUint16_eq_some hr
    split
    · exact Or.inl ⟨_, rfl⟩
    · rename_i extData s2 hr2
      have hs2 := cryptobyte.readLengthPrefixed_length hr2
      simp only []
      split
      · split
        · exact Or.inl ⟨_, rfl⟩
        · rename_i nameList extData1 hr3
          split
          · exact Or.inl ⟨_, rfl⟩
          · split
            · rename_i hl
              have hsome := nameListLoop_isSome { m with extensions := m.extensions ++ [extension] }
                nameList nameList.length (Nat.le_refl _)
              rw [hl] at hsome
              cases hsome
            · exact Or.inl ⟨_, rfl⟩
            · split
              · exact Or.inl ⟨_, rfl⟩
              · exact Or.inr ⟨_, _, rfl, by omega⟩
      · exact Or.inr ⟨_, _, rfl, by omega⟩

theorem extensionsLoop_fuel (m : clientHelloMsg) (extensions : cryptobyte.String) (f1 f2 : Nat)
    (h1 : extensions.length ≤ f1) (h2 : extensions.length ≤ f2) :
    extensionsLoop f1 m extensions = extensionsLoop f2 m extensions :=
  (forLoop_fuel _ extensionsBody_ok extensions.length extensions m f1 f2 (Nat.le_refl _) h1 h2).1

theorem extensionsLoop_isSome (m : clientHelloMsg) (extensions : cryptobyte.String) (f : Nat)
    (h : extensions.length ≤ f) : (extensionsLoop f m extensions).isSome = true :=
  (forLoop_fuel _ extensionsBody_ok extensions.length extensions m f f (Nat.le_refl _) h h).2

theorem unmarshal_terminates (data : List Byte) : ∃ m ok, unmarshal data = some (m, ok) := by
  have key : (unmarshal data).isSome = true := by
    unfold unmarshal
    simp only []
    repeat' split
    all_goals first
      | rfl
      | exact extensionsLoop_isSome _ _ _ (Nat.le_refl _)
  cases h : unmarshal data with
  | none => rw [h] at key; cases key
  | some p => exact ⟨p.1, p.2, rfl⟩

/-! ## Reading back what the encoder wrote -/

theorem byte_val (n : Nat) : (byte n).val = n % 256 := rfl

theorem shift_or_eq (a b : Nat) (hb : b < 256) : a <<< 8 ||| b = a * 256 + b := by
  rw [Nat.shiftLeft_eq, Nat.mul_comm]
  exact (Nat.mul_add_lt_is_or (by omega : b < 2 ^ 8) a).symm

theorem lengthValue_step (len b : Nat) (hl : len < 2 ^ 24) (hb : b < 256) :
    (len <<< 8) % 2 ^ 32 ||| b = len * 256 + b := by
  have h1 : (len <<< 8) % 2 ^ 32 = len <<< 8 := by
    rw [Nat.shiftLeft_eq]
    exact Nat.mod_eq_of_lt (by omega)
  rw [h1, shift_or_eq _ _ hb]

theorem lengthValue_byte (n : Nat) (h : n < 256) : cryptobyte.lengthValue [byte n] = n := by
  simp only [cryptobyte.lengthValue, List.foldl, byte_val]
  rw [lengthValue_step 0 _ (by decide) (Nat.mod_lt _ (by decide))]
  omega

theorem lengthValue_encodeUint16 (n : Nat) (h : n < 65536) :
    cryptobyte.lengthValue (encodeUint16 n) = n := by
  simp only [cryptobyte.lengthValue, encodeUint16, List.foldl, byte_val]
  rw [lengthValue_step 0 _ (by decide) (Nat.mod_lt _ (by decide)),
    lengthValue_step _ _ (by omega) (Nat.mod_lt _ (by decide))]
  omega

theorem ReadUint16_encodeUint16 (n : Nat) (rest : cryptobyte.String) (h : n < 65536) :
    ReadUint16 (encodeUint16 n ++ rest) = some (n, rest) := by
  simp only [encodeUint16, List.cons_append, List.nil_append, cryptobyte.ReadUint16_cons, byte_val]
  rw [shift_or_eq _ _ (Nat.mod_lt _ (by decide))]
  congr 2
  omega

theorem readLengthPrefixed_append (lenBytes b : List Byte) (rest : cryptobyte.String)
    (h : cryptobyte.lengthValue lenBytes = b.length) :
    cryptobyte.readLengthPrefixed (lenBytes ++ (b ++ rest)) lenBytes.length = some (b, rest) := by
  unfold cryptobyte.readLengthPrefixed
  rw [cryptobyte.read_append]
  simp only []
  rw [h, cryptobyte.read_append]

theorem ReadUint8LengthPrefixed_append (b : List Byte) (rest : cryptobyte.String)
    (h : b.length ≤ 255) :
    ReadUint8LengthPrefixed (lengthPrefixed8 b ++ rest) = some (b, rest) :=
  readLengthPrefixed_append [byte b.length] b rest (lengthValue_byte _ (by omega))

theorem ReadUint16LengthPrefixed_append (b : List Byte) (rest : cryptobyte.String)
    (h : b.length ≤ 65535) :
    ReadUint16LengthPrefixed (lengthPrefixed16 b ++ rest) = some (b, rest) := by
  have := readLengthPrefixed_append (encodeUint16 b.length) b rest
    (lengthValue_encodeUint16 _ (by omega))
  rw [← List.append_assoc] at this
  exact this

/-- The cursor of `unmarshal` after the fixed part and the three
length-prefixed fields of a ClientHello. -/
theorem unmarshal_prologue (msgType : Byte) (len version random sessionId cipherSuites
    compressionMethods tail : List Byte) (hlen : len.length = 3)
    (hv : version.length = 2) (hr : random.length = 32)
    (hs : sessionId.length ≤ 255) (hc : cipherSuites.length ≤ 65535)
    (hm : compressionMethods.length ≤ 255) :
    ∃ data, data = msgType :: (len ++ clientHelloBody version random sessionId cipherSuites
        compressionMethods tail) ∧
      Skip data 6 = some (random ++ (lengthPrefixed8 sessionId ++
        (lengthPrefixed16 cipherSuites ++ (lengthPrefixed8 compressionMethods ++ tail)))) ∧
      Skip (random ++ (lengthPrefixed8 sessionId ++
        (lengthPrefixed16 cipherSuites ++ (lengthPrefixed8 compressionMethods ++ tail)))) 32 =
        some (lengthPrefixed8 sessionId ++
          (lengthPrefixed16 cipherSuites ++ (lengthPrefixed8 compressionMethods ++ tail))) ∧
      ReadUint8LengthPrefixed (lengthPrefixed8 sessionId ++
          (lengthPrefixed16 cipherSuites ++ (lengthPrefixed8 compressionMethods ++ tail))) =
        some (sessionId, lengthPrefixed16 cipherSuites ++ (lengthPrefixed8 compressionMethods ++ tail)) ∧
      ReadUint16LengthPrefixed (lengthPrefixed16 cipherSuites ++
          (lengthPrefixed8 compressionMethods ++ tail)) =
        some (cipherSuites, lengthPrefixed8 compressionMethods ++ tail) ∧
      ReadUint8LengthPrefixed (lengthPrefixed8 compressionMethods ++ tail) =
        some (compressionMethods, tail) := by
  refine ⟨_, rfl, ?_, cryptobyte.Skip_append _ _ 32 hr, ReadUint8LengthPrefixed_append _ _ hs,
    ReadUint16LengthPrefixed_append _ _ hc, ReadUint8LengthPrefixed_append _ _ hm⟩
  have := cryptobyte.Skip_append (msgType :: (len ++ version)) (random ++ (lengthPrefixed8 sessionId ++
        (lengthPrefixed16 cipherSuites ++ (lengthPrefixed8 compressionMethods ++ tail)))) 6
        (by simp [hlen, hv])
  rw [← this]
  simp [clientHelloBody]

/-- `unmarshal` on a ClientHello with nothing after the compression methods. -/
theorem unmarshal_no_extensions (msgType : Byte) (len version random sessionId cipherSuites
    compressionMethods : List Byte) (hlen : len.length = 3)
    (hv : version.length = 2) (hr : random.length = 32)
    (hs : sessionId.length ≤ 255) (hc : cipherSuites.length ≤ 65535)
    (hm : compressionMethods.length ≤ 255) :
    unmarshal (msgType :: (len ++ clientHelloBody version random sessionId cipherSuites
        compressionMethods [])) =
      some (clientHelloMsg.ofRaw (msgType :: (len ++ clientHelloBody version random sessionId
        cipherSuites compressionMethods [])), true) := by
  obtain ⟨data, hd, h1, h2, h3, h4, h5⟩ := unmarshal_prologue msgType len version random
    sessionId cipherSuites compressionMethods [] hlen hv hr hs hc hm
  rw [← hd]
  unfold unmarshal
  simp only [h1, h2, h3, h4, h5]
  rfl

/-- `unmarshal` on a ClientHello whose compression methods are followed by a
16-bit-length-prefixed block and then by `extra`. -/
theorem unmarshal_block (msgType : Byte) (len version random sessionId cipherSuites
    compressionMethods block extra : List Byte) (hlen : len.length = 3)
    (hv : version.length = 2) (hr : random.length = 32)
    (hs : sessionId.length ≤ 255) (hc : cipherSuites.length ≤ 65535)
    (hm : compressionMethods.length ≤ 255) (hb : block.length ≤ 65535) :
    unmarshal (msgType :: (len ++ clientHelloBody version random sessionId cipherSuites
        compressionMethods (lengthPrefixed16 block ++ extra))) =
      if extra ≠ [] then
        some (clientHelloMsg.ofRaw (msgType :: (len ++ clientHelloBody version random sessionId
          cipherSuites compressionMethods (lengthPrefixed16 block ++ extra))), false)
      else
        extensionsLoop block.length
          (clientHelloMsg.ofRaw (msgType :: (len ++ clientHelloBody version random sessionId
            cipherSuites compressionMethods (lengthPrefixed16 block ++ extra)))) block := by
  obtain ⟨data, hd, h1, h2, h3, h4, h5⟩ := unmarshal_prologue msgType len version random
    sessionId cipherSuites compressionMethods (lengthPrefixed16 block ++ extra) hlen hv hr hs hc hm
  rw [← hd]
  unfold unmarshal
  have h6 : cryptobyte.Empty (lengthPrefixed16 block ++ extra) = false := by
    simp [cryptobyte.Empty, lengthPrefixed16, encodeUint16]
  simp only [h1, h2, h3, h4, h5, h6, ReadUint16LengthPrefixed_append _ _ hb]
  cases extra with
  | nil => simp [cryptobyte.Empty]
  | cons x xs => simp [cryptobyte.Empty]

/-! ## The name-list loop on an encoded name list -/

theorem nameListBody_entry (m : clientHelloMsg) (e : Byte × List Byte) (rest : cryptobyte.String)
    (he : e.2.length ≤ 65535) :
    nameListBody m (encodeNameEntry e ++ rest) =
      if e.2 = [] then .returnFalse m
      else if e.1 ≠ 0 then .next m rest
      else if m.serverName ≠ [] then .returnFalse m
      else if hasSuffixDot e.2 then .returnFalse { m with serverName := e.2 }
      else .next { m with serverName := e.2 } rest := by
  unfold nameListBody
  simp only [encodeNameEntry, List.cons_append, cryptobyte.ReadUint8_cons,
    ReadUint16LengthPrefixed_append _ _ he]
  by_cases h1 : e.2 = []
  · simp [h1, cryptobyte.Empty]
  · have h1e : cryptobyte.Empty e.2 = false := cryptobyte.Empty_eq_false.mpr h1
    by_cases h2 : e.1 = 0
    · by_cases h3 : m.serverName = []
      · simp [h1, h1e, h2, h3]
      · have h3l : m.serverName.length ≠ 0 := fun hh => h3 (List.length_eq_zero.mp hh)
        simp [h1, h1e, h2, h3, h3l]
    · simp [h1, h1e, h2]

theorem encodeNameEntry_ne_nil (e : Byte × List Byte) (rest : cryptobyte.String) :
    encodeNameEntry e ++ rest ≠ [] := by
  simp [encodeNameEntry]

theorem nameListLoop_entry (fuel : Nat) (m : clientHelloMsg) (e : Byte × List Byte)
    (rest : cryptobyte.String) (he : e.2.length ≤ 65535)
    (hf : (encodeNameEntry e ++ rest).length ≤ fuel) :
    nameListLoop fuel m (encodeNameEntry e ++ rest) =
      if e.2 = [] then some (m, false)
      else if e.1 ≠ 0 then nameListLoop rest.length m rest
      else if m.serverName ≠ [] then some (m, false)
      else if hasSuffixDot e.2 then some ({ m with serverName := e.2 }, false)
      else nameListLoop rest.length { m with serverName := e.2 } rest := by
  have hlen : rest.length < (encodeNameEntry e ++ rest).length := by
    simp only [encodeNameEntry, List.length_append, List.length_cons]
    omega
  obtain ⟨g, rfl⟩ : ∃ g, fuel = g + 1 := ⟨fuel - 1, by omega⟩
  unfold nameListLoop
  rw [forLoop_succ _ _ _ _ (encodeNameEntry_ne_nil e rest)]
  simp only [nameListBody_entry m e rest he]
  have hfuel : ∀ m1, forLoop (fun m nameList => some (nameListBody m nameList)) g m1 rest =
      forLoop (fun m nameList => some (nameListBody m nameList)) rest.length m1 rest :=
    fun m1 => nameListLoop_fuel m1 rest g rest.length (by omega) (Nat.le_refl _)
  by_cases h1 : e.2 = []
  · simp only [if_pos h1]
  · by_cases h2 : e.1 ≠ 0
    · simp only [if_neg h1, if_pos h2]
      exact hfuel _
    · by_cases h3 : m.serverName ≠ []
      · simp only [if_neg h1, if_neg h2, if_pos h3]
      · by_cases h4 : hasSuffixDot e.2 = true
        · simp only [if_neg h1, if_neg h2, if_neg h3, if_pos h4]
        · simp only [if_neg h1, if_neg h2, if_neg h3, if_neg h4]
          exact hfuel _

theorem nameListLoop_ok (entries : List (Byte × List Byte)) :
    ∀ (fuel : Nat) (m : clientHelloMsg), NameListOk entries →
      (∀ name ∈ hostNamesOfEntries entries, hasSuffixDot name = false) →
      (hostNamesOfEntries entries).length ≤ 1 →
      (m.serverName = [] ∨ hostNamesOfEntries entries = []) →
      (encodeNameList entries).length ≤ fuel →
      nameListLoop fuel m (encodeNameList entries) =
        some ({ m with serverName := (hostNamesOfEntries entries).headD m.serverName }, true) := by
  induction entries with
  | nil =>
    intro fuel m _ _ _ _ _
    exact forLoop_nil _ _ _
  | cons e es ih =>
    intro fuel m hok hdot hone hm hf
    have he := hok e (List.mem_cons_self _ _)
    have hes : NameListOk es := fun x hx => hok x (List.mem_cons_of_mem _ hx)
    simp only [encodeNameList] at hf ⊢
    rw [nameListLoop_entry fuel m e _ he.2 hf, if_neg he.1]
    by_cases h0 : e.1 = 0
    · simp only [hostNamesOfEntries, h0, if_true, List.length_cons] at hdot hone hm ⊢
      have hnil : hostNamesOfEntries es = [] := List.length_eq_zero.mp (by omega)
      have hm0 : m.serverName = [] := by
        rcases hm with hm | hm
        · exact hm
        · cases hm
      have hd := hdot e.2 (List.mem_cons_self _ _)
      simp only [ne_eq, not_true_eq_false, if_false, hm0, hd, Bool.false_eq_true, List.headD_cons]
      rw [ih _ _ hes (by simp [hnil]) (by simp [hnil]) (Or.inr hnil) (Nat.le_refl _), hnil]
      rfl
    · simp only [hostNamesOfEntries, h0, if_false] at hdot hone hm ⊢
      rw [if_pos h0]
      exact ih _ _ hes hdot hone hm (Nat.le_refl _)

theorem nameListLoop_duplicate (entries : List (Byte × List Byte)) :
    ∀ (fuel : Nat) (m : clientHelloMsg), NameListFits entries →
      (if m.serverName = [] then 2 else 1) ≤ (hostNamesOfEntries entries).length →
      (encodeNameList entries).length ≤ fuel →
      ∃ m1, nameListLoop fuel m (encodeNameList entries) = some (m1, false) := by
  induction entries with
  | nil =>
    intro fuel m _ h _
    simp only [hostNamesOfEntries, List.length_nil] at h
    split at h <;> omega
  | cons e es ih =>
    intro fuel m hfit h hf
    have he := hfit e (List.mem_cons_self _ _)
    have hes : NameListFits es := fun x hx => hfit x (List.mem_cons_of_mem _ hx)
    simp only [encodeNameList] at hf ⊢
    rw [nameListLoop_entry fuel m e _ he hf]
    split
    · exact ⟨_, rfl⟩
    · rename_i hne
      split
      · rename_i h0
        simp only [hostNamesOfEntries, h0, if_false] at h
        exact ih _ _ hes h (Nat.le_refl _)
      · rename_i h0
        simp only [ne_eq, not_not] at h0
        split
        · exact ⟨_, rfl⟩
        · rename_i hm
          simp only [ne_eq, not_not] at hm
          split
          · exact ⟨_, rfl⟩
          · simp only [hostNamesOfEntries, h0, if_true, hm, List.length_cons] at h
            refine ih _ { m with serverName := e.2 } hes ?_ (Nat.le_refl _)
            simp only [hne, if_false]
            omega

theorem nameListLoop_trailing_dot (entries : List (Byte × List Byte)) :
    ∀ (fuel : Nat) (m : clientHelloMsg), NameListFits entries →
      (∃ e ∈ entries, e.1 = 0 ∧ hasSuffixDot e.2 = true) →
      (encodeNameList entries).length ≤ fuel →
      ∃ m1, nameListLoop fuel m (encodeNameList entries) = some (m1, false) := by
  induction entries with
  | nil =>
    intro fuel m _ h _
    obtain ⟨e, he, _⟩ := h
    cases he
  | cons e es ih =>
    intro fuel m hfit h hf
    have he := hfit e (List.mem_cons_self _ _)
    have hes : NameListFits es := fun x hx => hfit x (List.mem_cons_of_mem _ hx)
    simp only [encodeNameList] at hf ⊢
    rw [nameListLoop_entry fuel m e _ he hf]
    obtain ⟨x, hx, hx0, hxdot⟩ := h
    split
    · exact ⟨_, rfl⟩
    · split
      · rename_i h0
        rcases List.mem_cons.mp hx with rfl | hx
        · exact absurd hx0 h0
        · exact ih _ _ hes ⟨x, hx, hx0, hxdot⟩ (Nat.le_refl _)
      · split
        · exact ⟨_, rfl⟩
        · split
          · exact ⟨_, rfl⟩
          · rename_i hnd
            rcases List.mem_cons.mp hx with rfl | hx
            · exact absurd hxdot hnd
            · exact ih _ _ hes ⟨x, hx, hx0, hxdot⟩ (Nat.le_refl _)

/-! ## The extension loop on an encoded extension block -/

theorem encodeNameList_eq_nil {entries : List (Byte × List Byte)} :
    encodeNameList entries = [] ↔ entries = [] := by
  cases entries with
  | nil => simp [encodeNameList]
  | cons e es => simp [encodeNameList, encodeNameEntry]

theorem encodeExtensions_append (a b : List Extension) :
    encodeExtensions (a ++ b) = encodeExtensions a ++ encodeExtensions b := by
  induction a with
  | nil => rfl
  | cons e es ih => simp [encodeExtensions, ih]

theorem encodeExtension_ne_nil (e : Extension) (rest : cryptobyte.String) :
    encodeExtension e ++ rest ≠ [] := by
  simp [encodeExtension, encodeUint16]

theorem encodeExtension_length (e : Extension) :
    (encodeExtension e).length = 4 + e.data.length := by
  simp [encodeExtension, encodeUint16, lengthPrefixed16]
  omega

theorem extensionsBody_other (m : clientHelloMsg) (typeId : Nat) (data : List Byte)
    (rest : cryptobyte.String) (h0 : typeId ≠ 0) (ht : typeId < 65536)
    (hd : data.length ≤ 65535) :
    extensionsBody m (encodeExtension (.other typeId data) ++ rest) =
      some (.next { m with extensions := m.extensions ++ [typeId] } rest) := by
  unfold extensionsBody
  simp only [encodeExtension, Extension.typeId, Extension.data, List.append_assoc,
    ReadUint16_encodeUint16 _ _ ht, ReadUint16LengthPrefixed_append _ _ hd]
  rw [if_neg (by simpa [extensionServerName] using h0)]

theorem extensionsBody_serverName (m : clientHelloMsg) (entries : List (Byte × List Byte))
    (rest : cryptobyte.String) (hn : (encodeNameList entries).length ≤ 65533)
    (m2 : clientHelloMsg) (ok : Bool) (hne : entries ≠ [])
    (hl : nameListLoop (encodeNameList entries).length
      { m with extensions := m.extensions ++ [extensionServerName] } (encodeNameList entries) =
        some (m2, ok)) :
    extensionsBody m (encodeExtension (.serverName entries) ++ rest) =
      some (if ok then .next m2 rest else .returnFalse m2) := by
  unfold extensionsBody
  have hd : (lengthPrefixed16 (encodeNameList entries)).length ≤ 65535 := by
    simp only [lengthPrefixed16, encodeUint16, List.length_append, List.length_cons,
      List.length_nil]
    omega
  have hnl := ReadUint16LengthPrefixed_append (encodeNameList entries) [] (by omega)
  rw [List.append_nil] at hnl
  have hne2 : cryptobyte.Empty (encodeNameList entries) = false :=
    cryptobyte.Empty_eq_false.mpr (fun hh => hne (encodeNameList_eq_nil.mp hh))
  simp only [encodeExtension, Extension.typeId, Extension.data, List.append_assoc,
    ReadUint16_encodeUint16 _ _ (by decide : extensionServerName < 65536),
    ReadUint16LengthPrefixed_append _ _ hd, if_true, hnl, hne2, hl]
  cases ok <;> simp [cryptobyte.Empty]

theorem extensionsLoop_other (fuel : Nat) (m : clientHelloMsg) (typeId : Nat) (data : List Byte)
    (rest : cryptobyte.String) (h0 : typeId ≠ 0) (ht : typeId < 65536)
    (hd : data.length ≤ 65535)
    (hf : (encodeExtension (.other typeId data) ++ rest).length ≤ fuel) :
    extensionsLoop fuel m (encodeExtension (.other typeId data) ++ rest) =
      extensionsLoop rest.length { m with extensions := m.extensions ++ [typeId] } rest := by
  rw [List.length_append, encodeExtension_length] at hf
  obtain ⟨g, rfl⟩ : ∃ g, fuel = g + 1 := ⟨fuel - 1, by omega⟩
  unfold extensionsLoop
  rw [forLoop_succ _ _ _ _ (encodeExtension_ne_nil _ rest)]
  simp only [extensionsBody_other m typeId data rest h0 ht hd]
  exact extensionsLoop_fuel _ rest g rest.length (by omega) (Nat.le_refl _)

theorem extensionsLoop_serverName (fuel : Nat) (m : clientHelloMsg)
    (entries : List (Byte × List Byte)) (rest : cryptobyte.String)
    (hn : (encodeNameList entries).length ≤ 65533)
    (m2 : clientHelloMsg) (ok : Bool) (hne : entries ≠ [])
    (hl : nameListLoop (encodeNameList entries).length
      { m with extensions := m.extensions ++ [extensionServerName] } (encodeNameList entries) =
        some (m2, ok))
    (hf : (encodeExtension (.serverName entries) ++ rest).length ≤ fuel) :
    extensionsLoop fuel m (encodeExtension (.serverName entries) ++ rest) =
      if ok then extensionsLoop rest.length m2 rest else some (m2, false) := by
  rw [List.length_append, encodeExtension_length] at hf
  obtain ⟨g, rfl⟩ : ∃ g, fuel = g + 1 := ⟨fuel - 1, by omega⟩
  unfold extensionsLoop
  rw [forLoop_succ _ _ _ _ (encodeExtension_ne_nil _ rest)]
  simp only [extensionsBody_serverName m entries rest hn m2 ok hne hl]
  cases ok
  · simp
  · simp only [if_true]
    exact extensionsLoop_fuel _ rest g rest.length (by omega) (Nat.le_refl _)


theorem extensionsLoop_others (pre : List Extension) :
    ∀ (fuel : Nat) (m : clientHelloMsg) (rest : cryptobyte.String),
      (∀ e ∈ pre, ExtensionOk e ∧ e.typeId ≠ 0) →
      (encodeExtensions pre ++ rest).length ≤ fuel →
      extensionsLoop fuel m (encodeExtensions pre ++ rest) =
        extensionsLoop rest.length
          { m with extensions := m.extensions ++ pre.map Extension.typeId } rest := by
  induction pre with
  | nil =>
    intro fuel m rest _ hf
    simp only [encodeExtensions, List.nil_append, List.map_nil, List.append_nil] at hf ⊢
    exact extensionsLoop_fuel m rest fuel rest.length hf (Nat.le_refl _)
  | cons e es ih =>
    intro fuel m rest hpre hf
    have he := hpre e (List.mem_cons_self _ _)
    have hes : ∀ x ∈ es, ExtensionOk x ∧ x.typeId ≠ 0 :=
      fun x hx => hpre x (List.mem_cons_of_mem _ hx)
    cases e with
    | serverName entries => exact absurd rfl he.2
    | other typeId data =>
      obtain ⟨⟨h0, ht, hd⟩, -⟩ := he
      simp only [encodeExtensions, List.append_assoc] at hf ⊢
      rw [extensionsLoop_other fuel m typeId data _ h0 ht hd hf,
        ih _ _ rest hes (Nat.le_refl _)]
      simp [Extension.typeId]

theorem extensionsLoop_ok (exts : List Extension) :
    ∀ (fuel : Nat) (m : clientHelloMsg), (∀ e ∈ exts, ExtensionOk e) →
      (∀ name ∈ hostNames exts, hasSuffixDot name = false) →
      (hostNames exts).length ≤ 1 →
      (m.serverName = [] ∨ hostNames exts = []) →
      (encodeExtensions exts).length ≤ fuel →
      extensionsLoop fuel m (encodeExtensions exts) =
        some ({ m with serverName := (hostNames exts).headD m.serverName,
                       extensions := m.extensions ++ exts.map Extension.typeId }, true) := by
  induction exts with
  | nil =>
    intro fuel m _ _ _ _ _
    simp only [encodeExtensions, hostNames, List.headD_nil, List.map_nil, List.append_nil]
    exact forLoop_nil _ _ _
  | cons e es ih =>
    intro fuel m hok hdot hone hm hf
    have he := hok e (List.mem_cons_self _ _)
    have hes : ∀ x ∈ es, ExtensionOk x := fun x hx => hok x (List.mem_cons_of_mem _ hx)
    cases e with
    | other typeId data =>
      obtain ⟨h0, ht, hd⟩ := he
      simp only [hostNames] at hdot hone hm ⊢
      simp only [encodeExtensions] at hf ⊢
      rw [extensionsLoop_other fuel m typeId data _ h0 ht hd hf,
        ih _ { m with extensions := m.extensions ++ [typeId] } hes hdot hone hm (Nat.le_refl _)]
      simp [Extension.typeId]
    | serverName entries =>
      obtain ⟨hne, hnl, hn⟩ := he
      simp only [hostNames, List.length_append, List.mem_append] at hdot hone hm
      simp only [encodeExtensions] at hf ⊢
      have hm1 : m.serverName = [] ∨ hostNamesOfEntries entries = [] := by
        rcases hm with hm | hm
        · exact Or.inl hm
        · exact Or.inr (List.append_eq_nil.mp hm).1
      have hl := nameListLoop_ok entries (encodeNameList entries).length
        { m with extensions := m.extensions ++ [extensionServerName] } hnl
        (fun name hname => hdot name (Or.inl hname)) (by omega) hm1 (Nat.le_refl _)
      rw [extensionsLoop_serverName fuel m entries _ hn _ true hne hl hf, if_pos rfl]
      have hm2 : (hostNamesOfEntries entries).headD m.serverName = [] ∨ hostNames es = [] := by
        cases hh : hostNamesOfEntries entries with
        | nil =>
          rcases hm with hm | hm
          · exact Or.inl hm
          · exact Or.inr (List.append_eq_nil.mp hm).2
        | cons x xs =>
          rw [hh] at hone
          simp only [List.length_cons] at hone
          exact Or.inr (List.length_eq_zero.mp (by omega))
      rw [ih _ _ hes (fun name hname => hdot name (Or.inr hname)) (by omega) hm2 (Nat.le_refl _)]
      simp only [hostNames, Extension.typeId, List.map_cons, List.append_assoc,
        List.singleton_append]
      cases hh : hostNamesOfEntries entries with
      | nil => simp
      | cons x xs =>
        rw [hh] at hone
        simp only [List.length_cons] at hone
        have : hostNames es = [] := List.length_eq_zero.mp (by omega)
        simp [this]

/-! ## The cases of `decodeFromBytes` -/

/-- The value Go computes with shifts and ors is the big-endian number. -/
theorem uint24_eq (a b c : Byte) :
    a.val <<< 16 ||| b.val <<< 8 ||| c.val = a.val * 65536 + b.val * 256 + c.val := by
  have ha := a.isLt
  have hb := b.isLt
  have hc := c.isLt
  rw [Nat.or_assoc, Nat.shiftLeft_eq, Nat.shiftLeft_eq]
  have h1 : b.val * 2 ^ 8 ||| c.val = 2 ^ 8 * b.val + c.val := by
    rw [Nat.mul_comm]; exact (Nat.mul_add_lt_is_or (by omega) _).symm
  rw [h1]
  have h2 : a.val * 2 ^ 16 ||| (2 ^ 8 * b.val + c.val) = 2 ^ 16 * a.val + (2 ^ 8 * b.val + c.val) := by
    rw [Nat.mul_comm]; exact (Nat.mul_add_lt_is_or (by omega) _).symm
  rw [h2]
  omega

/-- The header fields `decodeFromBytes` copies into the record first. -/
theorem decodeFromBytes_zero (t : TLSHandshakeRecord) (h : TLSRecordHeader) (data : List Byte)
    (h0 : h.Length = 0) :
    decodeFromBytes t h data =
      some ({ t with ContentType := h.ContentType, Version := h.Version, Length := h.Length },
        none) := by
  simp [decodeFromBytes, h0]

theorem decodeFromBytes_short (t : TLSHandshakeRecord) (h : TLSRecordHeader) (data : List Byte)
    (h0 : h.Length ≠ 0) (hlen : data.length < 4) :
    decodeFromBytes t h data =
      some ({ t with ContentType := h.ContentType, Version := h.Version, Length := h.Length },
        some DecodeError.notEnoughBytes) := by
  simp [decodeFromBytes, h0, hlen]

theorem decodeFromBytes_mismatch (t : TLSHandshakeRecord) (h : TLSRecordHeader) (data : List Byte)
    (h0 : h.Length ≠ 0) (hlen : 4 ≤ data.length)
    (hne : data.length ≠
      4 + ((data.getD 1 0).val * 65536 + (data.getD 2 0).val * 256 + (data.getD 3 0).val)) :
    decodeFromBytes t h data =
      some ({ t with ContentType := h.ContentType, Version := h.Version, Length := h.Length,
                     HandshakeType := data.getD 0 0 }, none) := by
  have h4 : ¬ data.length < 4 := by omega
  rw [← uint24_eq] at hne
  simp only [decodeFromBytes, h0, h4, if_false, ne_eq, hne, not_false_eq_true, if_true]

theorem decodeFromBytes_other (t : TLSHandshakeRecord) (h : TLSRecordHeader) (data : List Byte)
    (h0 : h.Length ≠ 0) (hlen : 4 ≤ data.length)
    (heq : data.length =
      4 + ((data.getD 1 0).val * 65536 + (data.getD 2 0).val * 256 + (data.getD 3 0).val))
    (hty : data.getD 0 0 ≠ typeClientHello) :
    decodeFromBytes t h data =
      some ({ t with ContentType := h.ContentType, Version := h.Version, Length := h.Length,
                     HandshakeType := data.getD 0 0 }, none) := by
  have h4 : ¬ data.length < 4 := by omega
  rw [← uint24_eq] at heq
  simp only [decodeFromBytes, h0, h4, if_false, ne_eq, heq.symm, not_true_eq_false, hty]

theorem decodeFromBytes_clientHello_ok (t : TLSHandshakeRecord) (h : TLSRecordHeader)
    (data : List Byte) (h0 : h.Length ≠ 0) (hlen : 4 ≤ data.length)
    (heq : data.length =
      4 + ((data.getD 1 0).val * 65536 + (data.getD 2 0).val * 256 + (data.getD 3 0).val))
    (hty : data.getD 0 0 = typeClientHello) (m : clientHelloMsg)
    (hu : unmarshal data = some (m, true)) :
    decodeFromBytes t h data =
      some ({ t with ContentType := h.ContentType, Version := h.Version, Length := h.Length,
                     HandshakeType := typeClientHello,
                     ClientHello := some { ServerName := m.serverName,
                                           Extensions := m.extensions } }, none) := by
  have h4 : ¬ data.length < 4 := by omega
  rw [← uint24_eq] at heq
  simp only [decodeFromBytes, h0, h4, if_false, ne_eq, heq.symm, not_true_eq_false, hty, hu,
    if_true]

theorem decodeFromBytes_clientHello_fail (t : TLSHandshakeRecord) (h : TLSRecordHeader)
    (data : List Byte) (h0 : h.Length ≠ 0) (hlen : 4 ≤ data.length)
    (heq : data.length =
      4 + ((data.getD 1 0).val * 65536 + (data.getD 2 0).val * 256 + (data.getD 3 0).val))
    (hty : data.getD 0 0 = typeClientHello) (m : clientHelloMsg)
    (hu : unmarshal data = some (m, false)) :
    decodeFromBytes t h data =
      some ({ t with ContentType := h.ContentType, Version := h.Version, Length := h.Length,
                     HandshakeType := typeClientHello },
        some (DecodeError.unableToUnmarshal typeClientHello)) := by
  have h4 : ¬ data.length < 4 := by omega
  rw [← uint24_eq] at heq
  simp only [decodeFromBytes, h0, h4, if_false, ne_eq, heq.symm, not_true_eq_false, hty, hu,
    if_true]

theorem error_cases_none (S1 S2 : Prop) (h1 : ¬ S1) (h2 : ¬ S2) :
    ((none : Option DecodeError) = some DecodeError.notEnoughBytes ↔ S1) ∧
    ((∃ ty, (none : Option DecodeError) = some (DecodeError.unableToUnmarshal ty)) ↔ S2) ∧
    ((none : Option DecodeError) = none ↔ (¬ S1 ∧ ¬ S2)) :=
  ⟨⟨(fun hh => nomatch hh), fun hh => absurd hh h1⟩,
   ⟨(fun ⟨_, hh⟩ => nomatch hh), fun hh => absurd hh h2⟩,
   ⟨fun _ => ⟨h1, h2⟩, fun _ => rfl⟩⟩

theorem error_cases_short (S1 S2 : Prop) (h1 : S1) (h2 : ¬ S2) :
    (some DecodeError.notEnoughBytes = some DecodeError.notEnoughBytes ↔ S1) ∧
    ((∃ ty, some DecodeError.notEnoughBytes = some (DecodeError.unableToUnmarshal ty)) ↔ S2) ∧
    (some DecodeError.notEnoughBytes = none ↔ (¬ S1 ∧ ¬ S2)) :=
  ⟨⟨fun _ => h1, fun _ => rfl⟩,
   ⟨(fun ⟨_, hh⟩ => nomatch hh), fun hh => absurd hh h2⟩,
   ⟨(fun hh => nomatch hh), fun hh => absurd h1 hh.1⟩⟩

theorem error_cases_unmarshal (S1 S2 : Prop) (ty : Byte) (h1 : ¬ S1) (h2 : S2) :
    (some (DecodeError.unableToUnmarshal ty) = some DecodeError.notEnoughBytes ↔ S1) ∧
    ((∃ ty1, some (DecodeError.unableToUnmarshal ty) =
        some (DecodeError.unableToUnmarshal ty1)) ↔ S2) ∧
    (some (DecodeError.unableToUnmarshal ty) = none ↔ (¬ S1 ∧ ¬ S2)) :=
  ⟨⟨(fun hh => nomatch hh), fun hh => absurd hh h1⟩,
   ⟨fun _ => h2, fun _ => ⟨ty, rfl⟩⟩,
   ⟨(fun hh => nomatch hh), fun hh => absurd h2 hh.2⟩⟩

/-! ## Properties of `decodeFromBytes` -/

/-- C2: with a non-zero declared length and a payload of at least 4 bytes
whose length is not 4 plus the big-endian value of bytes 1..3, decoding into a
fresh record succeeds and the result has no ClientHello, whatever byte 0 is. -/
theorem decodeFromBytes_length_mismatch (h : TLSRecordHeader) (data : List Byte)
    (h0 : h.Length ≠ 0) (hlen : 4 ≤ data.length)
    (hne : 4 + ((data.getD 1 0).val * 65536 + (data.getD 2 0).val * 256 + (data.getD 3 0).val)
      ≠ data.length) :
    ∃ t1, decodeFromBytes TLSHandshakeRecord.fresh h data = some (t1, none) ∧
      t1.ClientHello = none :=
  ⟨_, decodeFromBytes_mismatch _ h data h0 hlen (fun hh => hne hh.symm), rfl⟩

/-- Instance of C2: five bytes starting with the ClientHello tag and declaring
a body of 5 bytes. -/
theorem decodeFromBytes_length_mismatch_witness :
    ∃ t1, decodeFromBytes TLSHandshakeRecord.fresh ⟨22, 771, 5⟩ [1, 0, 0, 5, 9] = some (t1, none) ∧
      t1.ClientHello = none :=
  decodeFromBytes_length_mismatch ⟨22, 771, 5⟩ [1, 0, 0, 5, 9] (by decide) (by decide) (by decide)

/-- C3, as stated, fails: with a declared length of zero the empty payload is
accepted without error. -/
theorem decodeFromBytes_truncated_counterexample :
    ([] : List Byte).length < 4 ∧
    decodeFromBytes TLSHandshakeRecord.fresh ⟨22, 771, 0⟩ [] =
      some ({ ContentType := 22, Version := 771, Length := 0, HandshakeType := 0,
              ClientHello := none }, none) := by
  decide

/-- C3, amended: for every record, every header whose declared length is not
zero and every payload shorter than 4 bytes, `decodeFromBytes` returns the
"not enough bytes for handshake message" error; the record has the header
fields copied and is otherwise unchanged. -/
theorem decodeFromBytes_truncated (t : TLSHandshakeRecord) (h : TLSRecordHeader)
    (data : List Byte) (h0 : h.Length ≠ 0) (hlen : data.length < 4) :
    decodeFromBytes t h data =
      some ({ t with ContentType := h.ContentType, Version := h.Version, Length := h.Length },
        some DecodeError.notEnoughBytes) :=
  decodeFromBytes_short t h data h0 hlen

/-- Instance of the amended C3: three bytes under a header declaring 3. -/
theorem decodeFromBytes_truncated_witness :
    decodeFromBytes TLSHandshakeRecord.fresh ⟨22, 771, 3⟩ [1, 0, 0] =
      some ({ TLSHandshakeRecord.fresh with ContentType := 22, Version := 771, Length := 3 },
        some DecodeError.notEnoughBytes) :=
  decodeFromBytes_truncated TLSHandshakeRecord.fresh ⟨22, 771, 3⟩ [1, 0, 0] (by decide)
    (by decide)

/-- C4: with a declared length of zero, decoding any payload into a fresh
record succeeds, copies content type, version and length from the header and
leaves the record without a ClientHello. -/
theorem decodeFromBytes_zero_length (h : TLSRecordHeader) (data : List Byte)
    (h0 : h.Length = 0) :
    decodeFromBytes TLSHandshakeRecord.fresh h data =
      some ({ ContentType := h.ContentType, Version := h.Version, Length := h.Length,
              HandshakeType := 0, ClientHello := none }, none) :=
  decodeFromBytes_zero _ h data h0

/-- Instance of C4: a payload that would otherwise be rejected as truncated. -/
theorem decodeFromBytes_zero_length_witness :
    decodeFromBytes TLSHandshakeRecord.fresh ⟨22, 771, 0⟩ [1, 0] =
      some ({ ContentType := 22, Version := 771, Length := 0,
              HandshakeType := 0, ClientHello := none }, none) :=
  decodeFromBytes_zero_length ⟨22, 771, 0⟩ [1, 0] rfl

/-- C8: `decodeFromBytes` always returns, and it returns an error in exactly two
situations: the "not enough bytes" error when the declared length is non-zero
and the payload has fewer than 4 bytes; the "unable to unmarshal" error when
the declared length is non-zero, the payload has at least 4 bytes, is exactly
4 plus its 24-bit length field long, starts with the ClientHello tag and
`unmarshal` returns false on it. In every other case the error is nil. -/
theorem decodeFromBytes_error_iff (t : TLSHandshakeRecord) (h : TLSRecordHeader)
    (data : List Byte) :
    ∃ t1 e, decodeFromBytes t h data = some (t1, e) ∧
      (e = some DecodeError.notEnoughBytes ↔ (h.Length ≠ 0 ∧ data.length < 4)) ∧
      ((∃ ty, e = some (DecodeError.unableToUnmarshal ty)) ↔
        (h.Length ≠ 0 ∧ 4 ≤ data.length ∧
          data.length = 4 + ((data.getD 1 0).val * 65536 + (data.getD 2 0).val * 256 +
            (data.getD 3 0).val) ∧
          data.getD 0 0 = typeClientHello ∧ ∃ m, unmarshal data = some (m, false))) ∧
      (e = none ↔
        (¬ (h.Length ≠ 0 ∧ data.length < 4) ∧
         ¬ (h.Length ≠ 0 ∧ 4 ≤ data.length ∧
          data.length = 4 + ((data.getD 1 0).val * 65536 + (data.getD 2 0).val * 256 +
            (data.getD 3 0).val) ∧
          data.getD 0 0 = typeClientHello ∧ ∃ m, unmarshal data = some (m, false)))) := by
  by_cases h0 : h.Length = 0
  · exact ⟨_, _, decodeFromBytes_zero t h data h0,
      error_cases_none _ _ (fun hh => hh.1 h0) (fun hh => hh.1 h0)⟩
  by_cases hlen : data.length < 4
  · exact ⟨_, _, decodeFromBytes_short t h data h0 hlen,
      error_cases_short _ _ ⟨h0, hlen⟩ (fun hh => by have := hh.2.1; omega)⟩
  have h4 : 4 ≤ data.length := by omega
  by_cases heq : data.length =
      4 + ((data.getD 1 0).val * 65536 + (data.getD 2 0).val * 256 + (data.getD 3 0).val)
  · by_cases hty : data.getD 0 0 = typeClientHello
    · obtain ⟨m, ok, hu⟩ := unmarshal_terminates data
      cases ok
      · exact ⟨_, _, decodeFromBytes_clientHello_fail t h data h0 h4 heq hty m hu,
          error_cases_unmarshal _ _ _ (fun hh => hlen hh.2) ⟨h0, h4, heq, hty, m, hu⟩⟩
      · refine ⟨_, _, decodeFromBytes_clientHello_ok t h data h0 h4 heq hty m hu,
          error_cases_none _ _ (fun hh => hlen hh.2) ?_⟩
        rintro ⟨-, -, -, -, m1, hm1⟩
        rw [hu] at hm1
        cases hm1
    · exact ⟨_, _, decodeFromBytes_other t h data h0 h4 heq hty,
        error_cases_none _ _ (fun hh => hlen hh.2) (fun hh => hty hh.2.2.2.1)⟩
  · exact ⟨_, _, decodeFromBytes_mismatch t h data h0 h4 heq,
      error_cases_none _ _ (fun hh => hlen hh.2) (fun hh => heq hh.2.2.1)⟩


/-- C9: with a non-zero declared length and a payload of at least 4 bytes that
is exactly 4 plus its 24-bit length field long and does not start with the
ClientHello tag, decoding into a fresh record succeeds, stores byte 0 as
HandshakeType, keeps the header's length and produces no ClientHello. -/
theorem decodeFromBytes_other_type (h : TLSRecordHeader) (data : List Byte)
    (h0 : h.Length ≠ 0) (hlen : 4 ≤ data.length)
    (heq : data.length =
      4 + ((data.getD 1 0).val * 65536 + (data.getD 2 0).val * 256 + (data.getD 3 0).val))
    (hty : data.getD 0 0 ≠ typeClientHello) :
    decodeFromBytes TLSHandshakeRecord.fresh h data =
      some ({ ContentType := h.ContentType, Version := h.Version, Length := h.Length,
              HandshakeType := data.getD 0 0, ClientHello := none }, none) :=
  decodeFromBytes_other _ h data h0 hlen heq hty

/-- Instance of C9: a ServerHello tag (2) in front of a two-byte body. -/
theorem decodeFromBytes_other_type_witness :
    decodeFromBytes TLSHandshakeRecord.fresh ⟨22, 771, 6⟩ [2, 0, 0, 2, 7, 7] =
      some ({ ContentType := 22, Version := 771, Length := 6,
              HandshakeType := 2, ClientHello := none }, none) :=
  decodeFromBytes_other_type ⟨22, 771, 6⟩ [2, 0, 0, 2, 7, 7] (by decide) (by decide)
    (by decide) (by decide)

/-- C10, as stated, fails: with a declared length of zero the handshake type of
a fresh record stays 0 although the payload has 4 bytes and starts with 1. -/
theorem decodeFromBytes_handshakeType_counterexample :
    4 ≤ ([1, 0, 0, 0] : List Byte).length ∧
    ∃ t1 e, decodeFromBytes TLSHandshakeRecord.fresh ⟨22, 771, 0⟩ [1, 0, 0, 0] = some (t1, e) ∧
      t1.HandshakeType ≠ ([1, 0, 0, 0] : List Byte).getD 0 0 :=
  ⟨by decide, _, _, rfl, by decide⟩

/-- C10, amended: for every record, every header whose declared length is not
zero and every payload of at least 4 bytes, `decodeFromBytes` returns (with or
without an error) and leaves byte 0 of the payload in HandshakeType. -/
theorem decodeFromBytes_handshakeType (t : TLSHandshakeRecord) (h : TLSRecordHeader)
    (data : List Byte) (h0 : h.Length ≠ 0) (hlen : 4 ≤ data.length) :
    ∃ t1 e, decodeFromBytes t h data = some (t1, e) ∧ t1.HandshakeType = data.getD 0 0 := by
  by_cases heq : data.length =
      4 + ((data.getD 1 0).val * 65536 + (data.getD 2 0).val * 256 + (data.getD 3 0).val)
  · by_cases hty : data.getD 0 0 = typeClientHello
    · obtain ⟨m, ok, hu⟩ := unmarshal_terminates data
      cases ok
      · exact ⟨_, _, decodeFromBytes_clientHello_fail t h data h0 hlen heq hty m hu, hty.symm⟩
      · exact ⟨_, _, decodeFromBytes_clientHello_ok t h data h0 hlen heq hty m hu, hty.symm⟩
    · exact ⟨_, _, decodeFromBytes_other t h data h0 hlen heq hty, rfl⟩
  · exact ⟨_, _, decodeFromBytes_mismatch t h data h0 hlen heq, rfl⟩

/-- Instance of the amended C10: a truncated ClientHello that fails to
unmarshal still leaves its tag in the record. -/
theorem decodeFromBytes_handshakeType_witness :
    ∃ t1 e, decodeFromBytes TLSHandshakeRecord.fresh ⟨22, 771, 5⟩ [1, 0, 0, 1, 3] = some (t1, e) ∧
      t1.HandshakeType = ([1, 0, 0, 1, 3] : List Byte).getD 0 0 :=
  decodeFromBytes_handshakeType TLSHandshakeRecord.fresh ⟨22, 771, 5⟩ [1, 0, 0, 1, 3]
    (by decide) (by decide)

/-! ## Decoding an encoded ClientHello -/

theorem clientHelloBody_length (version random sessionId cipherSuites compressionMethods
    tail : List Byte) :
    (clientHelloBody version random sessionId cipherSuites compressionMethods tail).length =
      version.length + random.length + (1 + sessionId.length) + (2 + cipherSuites.length) +
        (1 + compressionMethods.length) + tail.length := by
  simp only [clientHelloBody, lengthPrefixed8, lengthPrefixed16, encodeUint16,
    List.length_append, List.length_cons, List.length_nil]
  omega

theorem encodeHandshake_length (msgType : Byte) (body : List Byte) :
    (encodeHandshake msgType body).length = 4 + body.length := by
  simp only [encodeHandshake, encodeUint24, List.length_append, List.length_cons,
    List.length_nil]
  omega

theorem encodeHandshake_declared (msgType : Byte) (body : List Byte)
    (hb : body.length < 16777216) :
    (encodeHandshake msgType body).length =
      4 + (((encodeHandshake msgType body).getD 1 0).val * 65536 +
        ((encodeHandshake msgType body).getD 2 0).val * 256 +
        ((encodeHandshake msgType body).getD 3 0).val) := by
  rw [encodeHandshake_length]
  simp only [encodeHandshake, encodeUint24, List.cons_append, List.nil_append,
    List.getD_cons_succ, List.getD_cons_zero, byte_val]
  omega

theorem encodeHandshake_type (msgType : Byte) (body : List Byte) :
    (encodeHandshake msgType body).getD 0 0 = msgType := rfl

theorem decodeFromBytes_encodeHandshake_ok (t : TLSHandshakeRecord) (h : TLSRecordHeader)
    (body : List Byte) (m : clientHelloMsg) (h0 : h.Length ≠ 0) (hb : body.length < 16777216)
    (hu : unmarshal (encodeHandshake typeClientHello body) = some (m, true)) :
    decodeFromBytes t h (encodeHandshake typeClientHello body) =
      some ({ t with ContentType := h.ContentType, Version := h.Version, Length := h.Length,
                     HandshakeType := typeClientHello,
                     ClientHello := some { ServerName := m.serverName,
                                           Extensions := m.extensions } }, none) :=
  decodeFromBytes_clientHello_ok t h _ h0 (by rw [encodeHandshake_length]; omega)
    (encodeHandshake_declared _ _ hb) (encodeHandshake_type _ _) m hu

theorem decodeFromBytes_encodeHandshake_fail (t : TLSHandshakeRecord) (h : TLSRecordHeader)
    (body : List Byte) (m : clientHelloMsg) (h0 : h.Length ≠ 0) (hb : body.length < 16777216)
    (hu : unmarshal (encodeHandshake typeClientHello body) = some (m, false)) :
    decodeFromBytes t h (encodeHandshake typeClientHello body) =
      some ({ t with ContentType := h.ContentType, Version := h.Version, Length := h.Length,
                     HandshakeType := typeClientHello },
        some (DecodeError.unableToUnmarshal typeClientHello)) :=
  decodeFromBytes_clientHello_fail t h _ h0 (by rw [encodeHandshake_length]; omega)
    (encodeHandshake_declared _ _ hb) (encodeHandshake_type _ _) m hu

theorem unmarshal_encoded_block (version random sessionId cipherSuites compressionMethods
    block : List Byte) (hv : version.length = 2) (hr : random.length = 32)
    (hs : sessionId.length ≤ 255) (hc : cipherSuites.length ≤ 65535)
    (hm : compressionMethods.length ≤ 255) (hb : block.length ≤ 65535) :
    unmarshal (encodeHandshake typeClientHello (clientHelloBody version random sessionId
        cipherSuites compressionMethods (lengthPrefixed16 block))) =
      extensionsLoop block.length
        (clientHelloMsg.ofRaw (encodeHandshake typeClientHello (clientHelloBody version random
          sessionId cipherSuites compressionMethods (lengthPrefixed16 block)))) block := by
  have := unmarshal_block typeClientHello (encodeUint24 (clientHelloBody version random sessionId
        cipherSuites compressionMethods (lengthPrefixed16 block)).length) version random
        sessionId cipherSuites compressionMethods block [] rfl hv hr hs hc hm hb
  simp only [List.append_nil, ne_eq, not_true_eq_false, if_false] at this
  exact this

theorem hasSuffixDot_eq_false {name : List Byte} :
    hasSuffixDot name = false ↔ name.getLast? ≠ some 46 := by
  simp [hasSuffixDot]

theorem hasSuffixDot_append_dot (value : List Byte) : hasSuffixDot (value ++ [46]) = true := by
  simp [hasSuffixDot]

theorem hostNamesOfEntries_length (entries : List (Byte × List Byte)) :
    (hostNamesOfEntries entries).length = (entries.filter (fun e => e.1 = 0)).length := by
  induction entries with
  | nil => rfl
  | cons e es ih =>
    by_cases h : e.1 = 0
    · simp [hostNamesOfEntries, h, ih]
    · simp [hostNamesOfEntries, h, ih]

theorem NameListOk.fits {entries : List (Byte × List Byte)} (h : NameListOk entries) :
    NameListFits entries :=
  fun e he => (h e he).2

theorem hostNames_length_le (exts : List Extension)
    (h : ∀ entries, Extension.serverName entries ∈ exts →
      (hostNamesOfEntries entries).length ≤ 1) :
    (hostNames exts).length ≤ (exts.filter (fun e => e.typeId = 0)).length := by
  induction exts with
  | nil => simp [hostNames]
  | cons e es ih =>
    have ih1 := ih (fun entries he => h entries (List.mem_cons_of_mem _ he))
    cases e with
    | serverName entries =>
      have h1 := h entries (List.mem_cons_self _ _)
      have hf : (Extension.serverName entries :: es).filter (fun e => e.typeId = 0) =
          Extension.serverName entries :: es.filter (fun e => e.typeId = 0) :=
        List.filter_cons_of_pos (by simp [Extension.typeId, extensionServerName])
      rw [hf]
      simp only [hostNames, List.length_append, List.length_cons]
      omega
    | other typeId data =>
      have hf : (es.filter (fun e => e.typeId = 0)).length ≤
          ((Extension.other typeId data :: es).filter (fun e => e.typeId = 0)).length := by
        rw [List.filter_cons]
        split
        · simp
        · exact Nat.le_refl _
      simp only [hostNames]
      omega

theorem mem_hostNames {exts : List Extension} {name : List Byte} (h : name ∈ hostNames exts) :
    ∃ entries, Extension.serverName entries ∈ exts ∧ name ∈ hostNamesOfEntries entries := by
  induction exts with
  | nil => simp [hostNames] at h
  | cons e es ih =>
    cases e with
    | serverName entries =>
      simp only [hostNames, List.mem_append] at h
      rcases h with h | h
      · exact ⟨entries, List.mem_cons_self _ _, h⟩
      · obtain ⟨en, he, hn⟩ := ih h
        exact ⟨en, List.mem_cons_of_mem _ he, hn⟩
    | other typeId data =>
      simp only [hostNames] at h
      obtain ⟨en, he, hn⟩ := ih h
      exact ⟨en, List.mem_cons_of_mem _ he, hn⟩

/-- `unmarshal` fails on an extension block that reaches, through extensions of
other types, a `server_name` extension on whose name list the inner loop
returns false. -/
theorem unmarshal_serverName_fail (version random sessionId cipherSuites compressionMethods :
    List Byte) (pre post : List Extension) (entries : List (Byte × List Byte))
    (hv : version.length = 2) (hr : random.length = 32)
    (hs : sessionId.length ≤ 255) (hc : cipherSuites.length ≤ 65535)
    (hm : compressionMethods.length ≤ 255)
    (hpre : ∀ e ∈ pre, ExtensionOk e ∧ e.typeId ≠ 0)
    (hn : (encodeNameList entries).length ≤ 65533)
    (hblock : (encodeExtensions (pre ++ Extension.serverName entries :: post)).length ≤ 65535)
    (hfail : ∀ m, ∃ m1, nameListLoop (encodeNameList entries).length m (encodeNameList entries) =
      some (m1, false)) :
    ∃ m1, unmarshal (encodeHandshake typeClientHello (clientHelloBody version random sessionId
        cipherSuites compressionMethods
        (lengthPrefixed16 (encodeExtensions (pre ++ Extension.serverName entries :: post))))) =
      some (m1, false) := by
  rw [unmarshal_encoded_block version random sessionId cipherSuites compressionMethods _
    hv hr hs hc hm hblock]
  generalize clientHelloMsg.ofRaw _ = m0
  rw [encodeExtensions_append, extensionsLoop_others pre _ m0 _ hpre
    (by rw [← encodeExtensions_append])]
  simp only [encodeExtensions]
  obtain ⟨m1, hl⟩ := hfail
    { raw := m0.raw, serverName := m0.serverName,
      extensions := (m0.extensions ++ pre.map Extension.typeId) ++ [extensionServerName] }
  have hne : entries ≠ [] := by
    rintro rfl
    simp only [encodeNameList, List.length_nil, nameListLoop] at hl
    rw [forLoop_nil] at hl
    cases hl
  refine ⟨m1, ?_⟩
  rw [extensionsLoop_serverName _ _ entries _ hn m1 false hne hl (Nat.le_refl _)]
  rfl

/-- C5: a ClientHello with nothing after the compression methods, under a
header with non-zero declared length, decodes without error into a record
whose ClientHello is present with an empty extension list and an empty server
name. -/
theorem decodeFromBytes_no_extensions (t : TLSHandshakeRecord) (h : TLSRecordHeader)
    (version random sessionId cipherSuites compressionMethods : List Byte)
    (h0 : h.Length ≠ 0) (hv : version.length = 2) (hr : random.length = 32)
    (hs : sessionId.length ≤ 255) (hc : cipherSuites.length ≤ 65535)
    (hm : compressionMethods.length ≤ 255) :
    decodeFromBytes t h (encodeHandshake typeClientHello
        (clientHelloBody version random sessionId cipherSuites compressionMethods [])) =
      some ({ t with ContentType := h.ContentType, Version := h.Version, Length := h.Length,
                     HandshakeType := typeClientHello,
                     ClientHello := some { ServerName := [], Extensions := [] } }, none) := by
  have hu := unmarshal_no_extensions typeClientHello (encodeUint24 (clientHelloBody version
    random sessionId cipherSuites compressionMethods []).length) version random sessionId
    cipherSuites compressionMethods rfl hv hr hs hc hm
  have hb := clientHelloBody_length version random sessionId cipherSuites compressionMethods []
  exact decodeFromBytes_encodeHandshake_ok t h _ _ h0
    (by rw [hb, List.length_nil]; omega) hu


/-- C1: round trip. For a session id, cipher suites and compression methods
whose lengths fit their prefixes and a list of extensions that an encoder can
write (types and data lengths fit 16 bits, the block fits its 16-bit prefix)
in which at most one extension has type 0, and that one carries a well-formed
name list with exactly one host_name entry whose value does not end in '.',
decoding the encoded ClientHello under a header with non-zero declared length
succeeds, and the ClientHello of the record has the encoded type identifiers in
order as Extensions and the encoded host name (empty if none) as ServerName. -/
theorem decodeFromBytes_round_trip (t : TLSHandshakeRecord) (h : TLSRecordHeader)
    (version random sessionId cipherSuites compressionMethods : List Byte)
    (exts : List Extension)
    (h0 : h.Length ≠ 0) (hv : version.length = 2) (hr : random.length = 32)
    (hs : sessionId.length ≤ 255) (hc : cipherSuites.length ≤ 65535)
    (hm : compressionMethods.length ≤ 255)
    (hexts : ∀ e ∈ exts, ExtensionOk e)
    (hblock : (encodeExtensions exts).length ≤ 65535)
    (hone : (exts.filter (fun e => e.typeId = 0)).length ≤ 1)
    (hhost : ∀ entries, Extension.serverName entries ∈ exts →
      ∃ name, hostNamesOfEntries entries = [name] ∧ name.getLast? ≠ some 46) :
    decodeFromBytes t h (encodeHandshake typeClientHello
        (clientHelloBody version random sessionId cipherSuites compressionMethods
          (lengthPrefixed16 (encodeExtensions exts)))) =
      some ({ t with ContentType := h.ContentType, Version := h.Version, Length := h.Length,
                     HandshakeType := typeClientHello,
                     ClientHello := some { ServerName := encodedHostName exts,
                                           Extensions := exts.map Extension.typeId } },
        none) := by
  have hle : (hostNames exts).length ≤ 1 :=
    Nat.le_trans (hostNames_length_le exts (fun entries he => by
      obtain ⟨name, hn, -⟩ := hhost entries he
      rw [hn]; exact Nat.le_refl _)) hone
  have hdot : ∀ name ∈ hostNames exts, hasSuffixDot name = false := by
    intro name hname
    obtain ⟨entries, he, hn⟩ := mem_hostNames hname
    obtain ⟨name1, hn1, hd⟩ := hhost entries he
    rw [hn1, List.mem_singleton] at hn
    rw [hn]
    exact hasSuffixDot_eq_false.mpr hd
  have hu := unmarshal_encoded_block version random sessionId cipherSuites compressionMethods
    (encodeExtensions exts) hv hr hs hc hm hblock
  rw [extensionsLoop_ok exts _ _ hexts hdot hle (Or.inl rfl) (Nat.le_refl _)] at hu
  have hb := clientHelloBody_length version random sessionId cipherSuites compressionMethods
    (lengthPrefixed16 (encodeExtensions exts))
  have hb2 : (lengthPrefixed16 (encodeExtensions exts)).length =
      2 + (encodeExtensions exts).length := by
    simp only [lengthPrefixed16, encodeUint16, List.length_append, List.length_cons,
      List.length_nil]
  have := decodeFromBytes_encodeHandshake_ok t h _ _ h0 (by rw [hb, hb2]; omega) hu
  rw [this]
  rfl

/-- Instance of C1: a single `server_name` extension with host "example.com"
gives ServerName "example.com" and Extensions [0]. -/
theorem decodeFromBytes_round_trip_witness :
    decodeFromBytes TLSHandshakeRecord.fresh ⟨22, 771, 63⟩
      (encodeHandshake typeClientHello
        (clientHelloBody [3, 3] (List.replicate 32 7) [] [0, 47] [0]
          (lengthPrefixed16 (encodeExtensions
            [Extension.serverName [(0, [101, 120, 97, 109, 112, 108, 101, 46, 99, 111, 109])]])))) =
      some ({ ContentType := 22, Version := 771, Length := 63, HandshakeType := 1,
              ClientHello := some
                { ServerName := [101, 120, 97, 109, 112, 108, 101, 46, 99, 111, 109],
                  Extensions := [0] } }, none) :=
  decodeFromBytes_round_trip TLSHandshakeRecord.fresh ⟨22, 771, 63⟩ [3, 3] (List.replicate 32 7)
    [] [0, 47] [0]
    [Extension.serverName [(0, [101, 120, 97, 109, 112, 108, 101, 46, 99, 111, 109])]]
    (by decide) (by decide) (by decide) (by decide) (by decide) (by decide)
    (by
      intro e he
      rw [List.mem_singleton] at he
      subst he
      refine ⟨by simp, ?_, by decide⟩
      intro x hx
      rw [List.mem_singleton] at hx
      subst hx
      exact ⟨by simp, by decide⟩)
    (by decide) (by decide)
    (by
      intro entries he
      rw [List.mem_singleton] at he
      cases he
      exact ⟨_, rfl, by decide⟩)

/-- C6, as stated, fails: under a header that declares length zero a
ClientHello whose name list has the host names "a" and "b" is accepted without
error, because the payload is never read. -/
theorem decodeFromBytes_duplicate_host_name_counterexample :
    2 ≤ (([(0, [97]), (1, [120]), (0, [98])] : List (Byte × List Byte)).filter
      (fun e => e.1 = 0)).length ∧
    decodeFromBytes TLSHandshakeRecord.fresh ⟨22, 771, 0⟩
      (encodeHandshake typeClientHello
        (clientHelloBody [3, 3] (List.replicate 32 7) [] [0, 47] [0]
          (lengthPrefixed16 (encodeExtensions
            [Extension.serverName [(0, [97]), (1, [120]), (0, [98])]])))) =
      some ({ ContentType := 22, Version := 771, Length := 0, HandshakeType := 0,
              ClientHello := none }, none) :=
  ⟨by decide, rfl⟩

/-- C6, amended: a ClientHello, under a header with non-zero declared length, whose
extension block reaches (after well-formed extensions of other types) a
`server_name` extension with two or more entries of name type 0 in its name
list, whatever the other entries are, fails with the "unable to unmarshal"
error. -/
theorem decodeFromBytes_duplicate_host_name (t : TLSHandshakeRecord) (h : TLSRecordHeader)
    (version random sessionId cipherSuites compressionMethods : List Byte)
    (pre post : List Extension) (entries : List (Byte × List Byte))
    (h0 : h.Length ≠ 0) (hv : version.length = 2) (hr : random.length = 32)
    (hs : sessionId.length ≤ 255) (hc : cipherSuites.length ≤ 65535)
    (hm : compressionMethods.length ≤ 255)
    (hpre : ∀ e ∈ pre, ExtensionOk e ∧ e.typeId ≠ 0)
    (hfit : NameListFits entries)
    (hn : (encodeNameList entries).length ≤ 65533)
    (hblock : (encodeExtensions (pre ++ Extension.serverName entries :: post)).length ≤ 65535)
    (hdup : 2 ≤ (entries.filter (fun e => e.1 = 0)).length) :
    decodeFromBytes t h (encodeHandshake typeClientHello
        (clientHelloBody version random sessionId cipherSuites compressionMethods
          (lengthPrefixed16
            (encodeExtensions (pre ++ Extension.serverName entries :: post))))) =
      some ({ t with ContentType := h.ContentType, Version := h.Version, Length := h.Length,
                     HandshakeType := typeClientHello },
        some (DecodeError.unableToUnmarshal typeClientHello)) := by
  obtain ⟨m1, hu⟩ := unmarshal_serverName_fail version random sessionId cipherSuites
    compressionMethods pre post entries hv hr hs hc hm hpre hn hblock (fun m =>
      nameListLoop_duplicate entries _ m hfit (by
        rw [hostNamesOfEntries_length]
        split <;> omega) (Nat.le_refl _))
  have hb := clientHelloBody_length version random sessionId cipherSuites compressionMethods
    (lengthPrefixed16 (encodeExtensions (pre ++ Extension.serverName entries :: post)))
  have hb2 : (lengthPrefixed16
      (encodeExtensions (pre ++ Extension.serverName entries :: post))).length =
      2 + (encodeExtensions (pre ++ Extension.serverName entries :: post)).length := by
    simp only [lengthPrefixed16, encodeUint16, List.length_append, List.length_cons,
      List.length_nil]
  exact decodeFromBytes_encodeHandshake_fail t h _ m1 h0 (by rw [hb, hb2]; omega) hu

/-- Instance of the amended C6: host names "a" and "b" with an entry of another
type between them. -/
theorem decodeFromBytes_duplicate_host_name_witness :
    decodeFromBytes TLSHandshakeRecord.fresh ⟨22, 771, 64⟩
      (encodeHandshake typeClientHello
        (clientHelloBody [3, 3] (List.replicate 32 7) [] [0, 47] [0]
          (lengthPrefixed16 (encodeExtensions
            ([Extension.other 10 [0, 23]] ++
              Extension.serverName [(0, [97]), (1, [120]), (0, [98])] :: []))))) =
      some ({ ContentType := 22, Version := 771, Length := 64, HandshakeType := 1,
              ClientHello := none },
        some (DecodeError.unableToUnmarshal 1)) :=
  decodeFromBytes_duplicate_host_name TLSHandshakeRecord.fresh ⟨22, 771, 64⟩ [3, 3]
    (List.replicate 32 7) [] [0, 47] [0] [Extension.other 10 [0, 23]] []
    [(0, [97]), (1, [120]), (0, [98])]
    (by decide) (by decide) (by decide) (by decide) (by decide) (by decide)
    (by
      intro e he
      rw [List.mem_singleton] at he
      subst he
      exact ⟨⟨by decide, by decide, by decide⟩, by decide⟩)
    (by
      intro e he
      simp only [List.mem_cons, List.mem_singleton, List.not_mem_nil, or_false] at he
      rcases he with rfl | rfl | rfl <;> decide)
    (by decide) (by decide) (by decide)

/-- C7, as stated, fails: under a header that declares length zero a
ClientHello whose host name is "example.com." is accepted without error,
because the payload is never read. -/
theorem decodeFromBytes_trailing_dot_counterexample :
    ([101, 120, 97, 109, 112, 108, 101, 46, 99, 111, 109, 46] : List Byte).getLast? = some 46 ∧
    decodeFromBytes TLSHandshakeRecord.fresh ⟨22, 771, 0⟩
      (encodeHandshake typeClientHello
        (clientHelloBody [3, 3] (List.replicate 32 7) [] [0, 47] [0]
          (lengthPrefixed16 (encodeExtensions
            [Extension.serverName
              [(0, [101, 120, 97, 109, 112, 108, 101, 46, 99, 111, 109, 46])]])))) =
      some ({ ContentType := 22, Version := 771, Length := 0, HandshakeType := 0,
              ClientHello := none }, none) :=
  ⟨by decide, rfl⟩

/-- C7, amended: a ClientHello, under a header with non-zero declared length, whose
extension block reaches (after well-formed extensions of other types) a
`server_name` extension containing a host_name entry whose value ends with the
byte '.', fails with the "unable to unmarshal" error. -/
theorem decodeFromBytes_trailing_dot (t : TLSHandshakeRecord) (h : TLSRecordHeader)
    (version random sessionId cipherSuites compressionMethods : List Byte)
    (pre post : List Extension) (entries : List (Byte × List Byte))
    (h0 : h.Length ≠ 0) (hv : version.length = 2) (hr : random.length = 32)
    (hs : sessionId.length ≤ 255) (hc : cipherSuites.length ≤ 65535)
    (hm : compressionMethods.length ≤ 255)
    (hpre : ∀ e ∈ pre, ExtensionOk e ∧ e.typeId ≠ 0)
    (hfit : NameListFits entries)
    (hn : (encodeNameList entries).length ≤ 65533)
    (hblock : (encodeExtensions (pre ++ Extension.serverName entries :: post)).length ≤ 65535)
    (hdot : ∃ e ∈ entries, e.1 = 0 ∧ ∃ value, e.2 = value ++ [46]) :
    decodeFromBytes t h (encodeHandshake typeClientHello
        (clientHelloBody version random sessionId cipherSuites compressionMethods
          (lengthPrefixed16
            (encodeExtensions (pre ++ Extension.serverName entries :: post))))) =
      some ({ t with ContentType := h.ContentType, Version := h.Version, Length := h.Length,
                     HandshakeType := typeClientHello },
        some (DecodeError.unableToUnmarshal typeClientHello)) := by
  obtain ⟨e, he, he0, value, hval⟩ := hdot
  obtain ⟨m1, hu⟩ := unmarshal_serverName_fail version random sessionId cipherSuites
    compressionMethods pre post entries hv hr hs hc hm hpre hn hblock (fun m =>
      nameListLoop_trailing_dot entries _ m hfit
        ⟨e, he, he0, by rw [hval]; exact hasSuffixDot_append_dot value⟩ (Nat.le_refl _))
  have hb := clientHelloBody_length version random sessionId cipherSuites compressionMethods
    (lengthPrefixed16 (encodeExtensions (pre ++ Extension.serverName entries :: post)))
  have hb2 : (lengthPrefixed16
      (encodeExtensions (pre ++ Extension.serverName entries :: post))).length =
      2 + (encodeExtensions (pre ++ Extension.serverName entries :: post)).length := by
    simp only [lengthPrefixed16, encodeUint16, List.length_append, List.length_cons,
      List.length_nil]
  exact decodeFromBytes_encodeHandshake_fail t h _ m1 h0 (by rw [hb, hb2]; omega) hu

/-- Instance of the amended C7: the host name "example.com." in the only
extension. -/
theorem decodeFromBytes_trailing_dot_witness :
    decodeFromBytes TLSHandshakeRecord.fresh ⟨22, 771, 64⟩
      (encodeHandshake typeClientHello
        (clientHelloBody [3, 3] (List.replicate 32 7) [] [0, 47] [0]
          (lengthPrefixed16 (encodeExtensions
            ([] ++ Extension.serverName
              [(0, [101, 120, 97, 109, 112, 108, 101, 46, 99, 111, 109, 46])] :: []))))) =
      some ({ ContentType := 22, Version := 771, Length := 64, HandshakeType := 1,
              ClientHello := none },
        some (DecodeError.unableToUnmarshal 1)) :=
  decodeFromBytes_trailing_dot TLSHandshakeRecord.fresh ⟨22, 771, 64⟩ [3, 3]
    (List.replicate 32 7) [] [0, 47] [0] [] []
    [(0, [101, 120, 97, 109, 112, 108, 101, 46, 99, 111, 109, 46])]
    (by decide) (by decide) (by decide) (by decide) (by decide) (by decide)
    (by intro e he; cases he)
    (by
      intro e he
      rw [List.mem_singleton] at he
      subst he
      decide)
    (by decide) (by decide)
    ⟨_, List.mem_singleton.mpr rfl, rfl,
      [101, 120, 97, 109, 112, 108, 101, 46, 99, 111, 109], rfl⟩

/-- Instance of C5: empty session id, one cipher suite, the null compression. -/
theorem decodeFromBytes_no_extensions_witness :
    decodeFromBytes TLSHandshakeRecord.fresh ⟨22, 771, 45⟩
      (encodeHandshake typeClientHello
        (clientHelloBody [3, 3] (List.replicate 32 7) [] [0, 47] [0] [])) =
      some ({ ContentType := 22, Version := 771, Length := 45, HandshakeType := 1,
              ClientHello := some { ServerName := [], Extensions := [] } }, none) :=
  decodeFromBytes_no_extensions TLSHandshakeRecord.fresh ⟨22, 771, 45⟩ [3, 3]
    (List.replicate 32 7) [] [0, 47] [0] (by decide) (by decide) (by decide) (by decide)
    (by decide) (by decide)

/-! ## What the loops keep -/

theorem cryptobyte.Skip_length {s r : cryptobyte.String} {n : Nat} (h : Skip s n = some r) :
    s.length = n + r.length := by
  unfold cryptobyte.Skip at h
  split at h
  · cases h
  · rename_i v rest hr
    simp only [Option.some.injEq] at h
    subst h
    obtain ⟨hn, -, rfl⟩ := cryptobyte.read_eq_some.mp hr
    rw [List.length_drop]
    omega

/-- A property of the receiver and the view that every run of the body keeps
holds, in its final form `F`, of the receiver the loop returns. -/
theorem forLoop_preserves (body : clientHelloMsg → cryptobyte.String → Option LoopStep)
    (Q : clientHelloMsg → cryptobyte.String → Prop) (F : clientHelloMsg → Prop)
    (hQF : ∀ m, Q m [] → F m)
    (hb : ∀ m view, view ≠ [] → Q m view →
      (∀ m1, body m view = some (.returnFalse m1) → F m1) ∧
      (∀ m1 rest, body m view = some (.next m1 rest) → Q m1 rest)) :
    ∀ (fuel : Nat) (m : clientHelloMsg) (view : cryptobyte.String) (m1 : clientHelloMsg)
      (ok : Bool), Q m view → forLoop body fuel m view = some (m1, ok) → F m1 := by
  intro fuel
  induction fuel with
  | zero =>
    intro m view m1 ok hq h
    by_cases hv : view = []
    · subst hv
      rw [forLoop_nil] at h
      simp only [Option.some.injEq, Prod.mk.injEq] at h
      rw [← h.1]
      exact hQF m hq
    · rw [forLoop, if_neg (by simp [cryptobyte.Empty_eq_false.mpr hv])] at h
      cases h
  | succ fuel ih =>
    intro m view m1 ok hq h
    by_cases hv : view = []
    · subst hv
      rw [forLoop_nil] at h
      simp only [Option.some.injEq, Prod.mk.injEq] at h
      rw [← h.1]
      exact hQF m hq
    · rw [forLoop_succ _ _ _ _ hv] at h
      obtain ⟨hf, hn⟩ := hb m view hv hq
      cases hbody : body m view with
      | none => rw [hbody] at h; cases h
      | some st =>
        rw [hbody] at h
        cases st with
        | returnFalse m2 =>
          simp only [Option.some.injEq, Prod.mk.injEq] at h
          rw [← h.1]
          exact hf m2 hbody
        | next m2 rest => exact ih m2 rest m1 ok (hn m2 rest hbody) h

/-- What a run of the name-list body may change: the server name only. -/
theorem nameListBody_msg (m : clientHelloMsg) (nameList : cryptobyte.String) :
    (nameListBody m nameList).msg.raw = m.raw ∧
    (nameListBody m nameList).msg.extensions = m.extensions := by
  unfold nameListBody
  repeat' split
  all_goals first
    | exact ⟨rfl, rfl⟩
    | (simp only []; split <;> exact ⟨rfl, rfl⟩)

theorem nameListBody_fields (m : clientHelloMsg) (nameList : cryptobyte.String) :
    (∀ m1, nameListBody m nameList = .returnFalse m1 →
      m1.raw = m.raw ∧ m1.extensions = m.extensions) ∧
    (∀ m1 rest, nameListBody m nameList = .next m1 rest →
      m1.raw = m.raw ∧ m1.extensions = m.extensions) := by
  have h := nameListBody_msg m nameList
  constructor
  · intro m1 h1
    rw [h1] at h
    exact h
  · intro m1 rest h1
    rw [h1] at h
    exact h

theorem nameListLoop_fields (fuel : Nat) (m : clientHelloMsg) (nameList : cryptobyte.String)
    (m1 : clientHelloMsg) (ok : Bool) (h : nameListLoop fuel m nameList = some (m1, ok)) :
    m1.raw = m.raw ∧ m1.extensions = m.extensions := by
  refine forLoop_preserves _ (fun x _ => x.raw = m.raw ∧ x.extensions = m.extensions)
    (fun x => x.raw = m.raw ∧ x.extensions = m.extensions) (fun _ hx => hx) ?_
    fuel m nameList m1 ok ⟨rfl, rfl⟩ h
  intro x view _ hx
  have hf := nameListBody_fields x view
  constructor
  · intro x1 hb
    simp only [Option.some.injEq] at hb
    obtain ⟨h1, h2⟩ := hf.1 x1 hb
    exact ⟨h1.trans hx.1, h2.trans hx.2⟩
  · intro x1 rest hb
    simp only [Option.some.injEq] at hb
    obtain ⟨h1, h2⟩ := hf.2 x1 rest hb
    exact ⟨h1.trans hx.1, h2.trans hx.2⟩

/-! ## From a successful read back to the bytes -/

theorem byte_of_val (b : Byte) : byte b.val = b := by
  apply Fin.ext
  rw [byte_val]
  exact Nat.mod_eq_of_lt b.isLt

theorem encodeUint16_bytes (b0 b1 : Byte) : encodeUint16 (b0.val * 256 + b1.val) = [b0, b1] := by
  have h0 := b0.isLt
  have h1 := b1.isLt
  unfold encodeUint16
  congr 1
  · apply Fin.ext
    rw [byte_val]
    omega
  · congr 1
    apply Fin.ext
    rw [byte_val]
    omega

theorem lengthValue_pair (b0 b1 : Byte) :
    cryptobyte.lengthValue [b0, b1] = b0.val * 256 + b1.val := by
  have h := lengthValue_encodeUint16 (b0.val * 256 + b1.val)
    (by have h0 := b0.isLt; have h1 := b1.isLt; omega)
  rw [encodeUint16_bytes] at h
  exact h

theorem lengthValue_single (b : Byte) : cryptobyte.lengthValue [b] = b.val := by
  have h := lengthValue_byte b.val b.isLt
  rw [byte_of_val] at h
  exact h

theorem cryptobyte.Skip_decode {s r : cryptobyte.String} {n : Nat} (h : Skip s n = some r) :
    ∃ a : List Byte, a.length = n ∧ s = a ++ r := by
  unfold cryptobyte.Skip at h
  split at h
  · cases h
  · rename_i v rest hr
    simp only [Option.some.injEq] at h
    subst h
    obtain ⟨hn, rfl, rfl⟩ := cryptobyte.read_eq_some.mp hr
    exact ⟨s.take n, by rw [List.length_take]; omega, (List.take_append_drop n s).symm⟩

theorem ReadUint16_decode {s r : cryptobyte.String} {x : Nat} (h : ReadUint16 s = some (x, r)) :
    s = encodeUint16 x ++ r ∧ x < 65536 := by
  match s, h with
  | [], h => simp [ReadUint16, cryptobyte.read] at h
  | [_], h => simp [ReadUint16, cryptobyte.read] at h
  | b0 :: b1 :: t, h =>
    rw [cryptobyte.ReadUint16_cons] at h
    simp only [Option.some.injEq, Prod.mk.injEq] at h
    obtain ⟨hx, rfl⟩ := h
    have h0 := b0.isLt
    have h1 := b1.isLt
    rw [shift_or_eq _ _ h1] at hx
    have hx2 : x = b0.val * 256 + b1.val := by omega
    subst hx2
    rw [encodeUint16_bytes]
    exact ⟨rfl, by omega⟩

theorem ReadUint16LengthPrefixed_decode {s v r : cryptobyte.String}
    (h : ReadUint16LengthPrefixed s = some (v, r)) :
    s = lengthPrefixed16 v ++ r ∧ v.length ≤ 65535 := by
  obtain ⟨h1, h2, h3⟩ := cryptobyte.readLengthPrefixed_eq_some h
  match s, h1, h2, h3 with
  | b0 :: b1 :: t, h1, _, h3 =>
    simp only [List.take_succ_cons, List.take_zero] at h1 h3
    rw [lengthValue_pair] at h3
    have h0 := b0.isLt
    have h1' := b1.isLt
    refine ⟨?_, by omega⟩
    rw [lengthPrefixed16, h3, encodeUint16_bytes]
    exact h1

theorem ReadUint8LengthPrefixed_decode {s v r : cryptobyte.String}
    (h : ReadUint8LengthPrefixed s = some (v, r)) :
    s = lengthPrefixed8 v ++ r ∧ v.length ≤ 255 := by
  obtain ⟨h1, h2, h3⟩ := cryptobyte.readLengthPrefixed_eq_some h
  match s, h1, h2, h3 with
  | b0 :: t, h1, _, h3 =>
    simp only [List.take_succ_cons, List.take_zero] at h1 h3
    rw [lengthValue_single] at h3
    have h0 := b0.isLt
    refine ⟨?_, by omega⟩
    rw [lengthPrefixed8, h3, byte_of_val]
    exact h1

/-! ## The extension loop on arbitrary records -/

theorem encodeRecord_ne_nil (r : Nat × List Byte) (rest : cryptobyte.String) :
    encodeRecord r ++ rest ≠ [] := by
  simp [encodeRecord, encodeUint16]

theorem encodeRecord_length (r : Nat × List Byte) :
    (encodeRecord r).length = 4 + r.2.length := by
  simp only [encodeRecord, encodeUint16, lengthPrefixed16, List.length_append, List.length_cons,
    List.length_nil]
  omega

theorem encodeRecords_append (a b : List (Nat × List Byte)) :
    encodeRecords (a ++ b) = encodeRecords a ++ encodeRecords b := by
  induction a with
  | nil => rfl
  | cons r rs ih => simp [encodeRecords, ih]

/-- What a successful run of the extension body has read and recorded. -/
theorem extensionsBody_next_decode {m m1 : clientHelloMsg} {view rest : cryptobyte.String}
    (h : extensionsBody m view = some (.next m1 rest)) :
    ∃ ty data, view = encodeRecord (ty, data) ++ rest ∧ ty < 65536 ∧ data.length ≤ 65535 ∧
      m1.raw = m.raw ∧ m1.extensions = m.extensions ++ [ty] ∧
      (ty = 0 → ∃ nameList, nameList ≠ [] ∧ data = lengthPrefixed16 nameList ∧
        nameListLoop nameList.length { m with extensions := m.extensions ++ [ty] } nameList =
          some (m1, true)) := by
  unfold extensionsBody at h
  split at h
  · cases h
  · rename_i ty s1 hr
    obtain ⟨hv, hty⟩ := ReadUint16_decode hr
    split at h
    · cases h
    · rename_i data s2 hr2
      obtain ⟨hs1, hd⟩ := ReadUint16LengthPrefixed_decode hr2
      simp only [] at h
      split at h
      · rename_i h0
        split at h
        · cases h
        · rename_i nameList extData1 hr3
          obtain ⟨hdata, -⟩ := ReadUint16LengthPrefixed_decode hr3
          split at h
          · cases h
          · rename_i hne
            split at h
            · cases h
            · cases h
            · rename_i m2 hl
              split at h
              · cases h
              · rename_i hempty
                simp only [Option.some.injEq, LoopStep.next.injEq] at h
                obtain ⟨rfl, rfl⟩ := h
                have hf := nameListLoop_fields _ _ _ _ _ hl
                have he1 : extData1 = [] := by
                  apply cryptobyte.Empty_eq_true.mp
                  simpa using hempty
                subst he1
                rw [List.append_nil] at hdata
                refine ⟨ty, data, ?_, hty, hd, hf.1, hf.2, fun _ => ⟨nameList, ?_, hdata, hl⟩⟩
                · rw [hv, hs1, encodeRecord, List.append_assoc]
                · exact cryptobyte.Empty_eq_false.mp (by simpa using hne)
      · rename_i h0
        simp only [Option.some.injEq, LoopStep.next.injEq] at h
        obtain ⟨rfl, rfl⟩ := h
        refine ⟨ty, data, ?_, hty, hd, rfl, rfl, fun h1 => absurd h1 h0⟩
        rw [hv, hs1, encodeRecord, List.append_assoc]

/-- A run of the extension body keeps `raw` and records at most one more
identifier. -/
theorem extensionsBody_msg {m : clientHelloMsg} {view : cryptobyte.String} {st : LoopStep}
    (h : extensionsBody m view = some st) :
    st.msg.raw = m.raw ∧ st.msg.extensions.length ≤ m.extensions.length + 1 := by
  unfold extensionsBody at h
  split at h
  · simp only [Option.some.injEq] at h; subst h; exact ⟨rfl, Nat.le_succ _⟩
  · split at h
    · simp only [Option.some.injEq] at h; subst h; exact ⟨rfl, Nat.le_succ _⟩
    · simp only [] at h
      split at h
      · split at h
        · simp only [Option.some.injEq] at h; subst h; exact ⟨rfl, by simp [LoopStep.msg]⟩
        · split at h
          · simp only [Option.some.injEq] at h; subst h; exact ⟨rfl, by simp [LoopStep.msg]⟩
          · split at h
            · cases h
            · rename_i m2 hl
              have hf := nameListLoop_fields _ _ _ _ _ hl
              simp only [Option.some.injEq] at h; subst h
              exact ⟨hf.1, by simp [LoopStep.msg, hf.2]⟩
            · rename_i m2 hl
              have hf := nameListLoop_fields _ _ _ _ _ hl
              split at h <;>
                (simp only [Option.some.injEq] at h; subst h
                 exact ⟨hf.1, by simp [LoopStep.msg, hf.2]⟩)
      · simp only [Option.some.injEq] at h; subst h; exact ⟨rfl, by simp [LoopStep.msg]⟩

/-- The extension body reads one record and does not look at what follows it. -/
theorem extensionsBody_record (m : clientHelloMsg) (r : Nat × List Byte)
    (rest : cryptobyte.String) (ht : r.1 < 65536) (hd : r.2.length ≤ 65535) :
    extensionsBody m (encodeRecord r ++ rest) =
      (extensionsBody m (encodeRecord r)).map (LoopStep.withRest rest) := by
  have h1 := ReadUint16LengthPrefixed_append r.2 [] hd
  rw [List.append_nil] at h1
  have h2 := ReadUint16_encodeUint16 r.1 (lengthPrefixed16 r.2) ht
  unfold extensionsBody
  simp only [encodeRecord, List.append_assoc, ReadUint16_encodeUint16 _ _ ht,
    ReadUint16LengthPrefixed_append _ _ hd, h1, h2]
  split
  · split
    · rfl
    · split
      · rfl
      · split
        · rfl
        · rfl
        · split <;> rfl
  · rfl


/-- One step of the extension loop on a record, in terms of what the body does
on the record alone. -/
theorem extensionsLoop_record (fuel : Nat) (m : clientHelloMsg) (r : Nat × List Byte)
    (rest : cryptobyte.String) (ht : r.1 < 65536) (hd : r.2.length ≤ 65535)
    (hf : (encodeRecord r ++ rest).length ≤ fuel) :
    (∀ m2, extensionsBody m (encodeRecord r) = some (.returnFalse m2) →
      extensionsLoop fuel m (encodeRecord r ++ rest) = some (m2, false)) ∧
    (∀ m2 x, extensionsBody m (encodeRecord r) = some (.next m2 x) →
      extensionsLoop fuel m (encodeRecord r ++ rest) = extensionsLoop rest.length m2 rest) := by
  rw [List.length_append, encodeRecord_length] at hf
  obtain ⟨g, rfl⟩ : ∃ g, fuel = g + 1 := ⟨fuel - 1, by omega⟩
  unfold extensionsLoop
  rw [forLoop_succ _ _ _ _ (encodeRecord_ne_nil r rest), extensionsBody_record m r rest ht hd]
  constructor
  · intro m2 hb
    rw [hb]
    rfl
  · intro m2 x hb
    rw [hb]
    exact extensionsLoop_fuel m2 rest g rest.length (by omega) (Nat.le_refl _)

/-- The body always finishes on a record. -/
theorem extensionsBody_record_cases (m : clientHelloMsg) (r : Nat × List Byte) :
    (∃ m2, extensionsBody m (encodeRecord r) = some (.returnFalse m2)) ∨
    (∃ m2 x, extensionsBody m (encodeRecord r) = some (.next m2 x)) := by
  have h := extensionsBody_ok m (encodeRecord r)
    (by have := encodeRecord_ne_nil r []; rwa [List.append_nil] at this)
  rcases h with ⟨m2, h⟩ | ⟨m2, x, h, -⟩
  · exact Or.inl ⟨m2, h⟩
  · exact Or.inr ⟨m2, x, h⟩

/-- A record of a type other than 0 is recorded and skipped, whatever its
data. -/
theorem extensionsBody_record_other (m : clientHelloMsg) (ty : Nat) (data : List Byte)
    (h0 : ty ≠ 0) (ht : ty < 65536) (hd : data.length ≤ 65535) :
    extensionsBody m (encodeRecord (ty, data)) =
      some (.next { m with extensions := m.extensions ++ [ty] } []) := by
  have h := extensionsBody_other m ty data [] h0 ht hd
  simp only [encodeExtension, Extension.typeId, Extension.data, List.append_nil] at h
  exact h

/-- The walk of the extension loop over the records `pre` does not depend on
what follows them: it either returns false or arrives at what follows with a
receiver that depends on `pre` only. -/
theorem extensionsLoop_walk (pre : List (Nat × List Byte)) :
    ∀ (m : clientHelloMsg), RecordsFit pre →
      (∃ m1, ∀ (rest : cryptobyte.String) (fuel : Nat),
        (encodeRecords pre ++ rest).length ≤ fuel →
        extensionsLoop fuel m (encodeRecords pre ++ rest) = some (m1, false)) ∨
      (∃ m1, ∀ (rest : cryptobyte.String) (fuel : Nat),
        (encodeRecords pre ++ rest).length ≤ fuel →
        extensionsLoop fuel m (encodeRecords pre ++ rest) =
          extensionsLoop rest.length m1 rest) := by
  induction pre with
  | nil =>
    intro m _
    refine Or.inr ⟨m, fun rest fuel hf => ?_⟩
    simp only [encodeRecords, List.nil_append] at hf ⊢
    exact extensionsLoop_fuel m rest fuel rest.length hf (Nat.le_refl _)
  | cons r rs ih =>
    intro m hfit
    have hr := hfit r (List.mem_cons_self _ _)
    have hrs : RecordsFit rs := fun x hx => hfit x (List.mem_cons_of_mem _ hx)
    rcases extensionsBody_record_cases m r with ⟨m2, hb⟩ | ⟨m2, x, hb⟩
    · refine Or.inl ⟨m2, fun rest fuel hf => ?_⟩
      simp only [encodeRecords, List.append_assoc] at hf ⊢
      exact (extensionsLoop_record fuel m r _ hr.1 hr.2 hf).1 m2 hb
    · rcases ih m2 hrs with ⟨m3, h3⟩ | ⟨m3, h3⟩
      · refine Or.inl ⟨m3, fun rest fuel hf => ?_⟩
        simp only [encodeRecords, List.append_assoc] at hf ⊢
        rw [(extensionsLoop_record fuel m r _ hr.1 hr.2 hf).2 m2 x hb]
        exact h3 rest _ (Nat.le_refl _)
      · refine Or.inr ⟨m3, fun rest fuel hf => ?_⟩
        simp only [encodeRecords, List.append_assoc] at hf ⊢
        rw [(extensionsLoop_record fuel m r _ hr.1 hr.2 hf).2 m2 x hb]
        rw [h3 rest _ (Nat.le_refl _)]

/-- The extension loop records at most one identifier per byte of its view and
keeps `raw`. -/
theorem extensionsLoop_bound (fuel : Nat) (m : clientHelloMsg) (view : cryptobyte.String)
    (m1 : clientHelloMsg) (ok : Bool) (h : extensionsLoop fuel m view = some (m1, ok)) :
    m1.raw = m.raw ∧ m1.extensions.length ≤ m.extensions.length + view.length := by
  refine forLoop_preserves extensionsBody
    (fun x v => x.raw = m.raw ∧ x.extensions.length + v.length ≤ m.extensions.length + view.length)
    (fun x => x.raw = m.raw ∧ x.extensions.length ≤ m.extensions.length + view.length)
    (fun x hx => ⟨hx.1, by have := hx.2; simp only [List.length_nil] at this; omega⟩) ?_
    fuel m view m1 ok ⟨rfl, Nat.le_refl _⟩ h
  intro x v hv hx
  have hpos : 0 < v.length := List.length_pos.mpr hv
  constructor
  · intro x1 hb
    have := extensionsBody_msg hb
    simp only [LoopStep.msg] at this
    exact ⟨this.1.trans hx.1, by omega⟩
  · intro x1 rest hb
    have := extensionsBody_msg hb
    simp only [LoopStep.msg] at this
    rcases extensionsBody_ok x v hv with ⟨m2, h2⟩ | ⟨m2, rest2, h2, hlt⟩
    · rw [hb] at h2; cases h2
    · rw [hb] at h2
      simp only [Option.some.injEq, LoopStep.next.injEq] at h2
      obtain ⟨-, rfl⟩ := h2
      exact ⟨this.1.trans hx.1, by omega⟩

/-- The receiver `unmarshal` leaves holds at most one identifier per byte of
the input. -/
theorem unmarshal_bound (data : List Byte) (m : clientHelloMsg) (ok : Bool)
    (h : unmarshal data = some (m, ok)) : m.extensions.length ≤ data.length := by
  unfold unmarshal at h
  simp only [] at h
  have h0 : ∀ (b : Bool), some (clientHelloMsg.ofRaw data, b) = some (m, ok) →
      m.extensions.length ≤ data.length := by
    intro b hb
    simp only [Option.some.injEq, Prod.mk.injEq] at hb
    rw [← hb.1]
    exact Nat.zero_le _
  split at h
  · exact h0 _ h
  · rename_i s1 h1
    split at h
    · exact h0 _ h
    · rename_i s2 h2
      split at h
      · exact h0 _ h
      · rename_i _ s3 h3
        split at h
        · exact h0 _ h
        · rename_i _ s4 h4
          split at h
          · exact h0 _ h
          · rename_i _ s5 h5
            split at h
            · exact h0 _ h
            · split at h
              · exact h0 _ h
              · rename_i extensions s6 h6
                split at h
                · exact h0 _ h
                · have hb := (extensionsLoop_bound _ _ _ _ _ h).2
                  have l1 := cryptobyte.Skip_length h1
                  have l2 := cryptobyte.Skip_length h2
                  have l3 := cryptobyte.readLengthPrefixed_length h3
                  have l4 := cryptobyte.readLengthPrefixed_length h4
                  have l5 := cryptobyte.readLengthPrefixed_length h5
                  have l6 := cryptobyte.readLengthPrefixed_length h6
                  simp only [clientHelloMsg.ofRaw, List.length_nil] at hb
                  omega

/-- C18: `unmarshal` terminates on every byte sequence. Every run of the body
of the extension loop and of the name-list loop on a non-empty view finishes,
and either returns false or hands a strictly shorter view to the next
iteration; `unmarshal` returns on every input, and the extension identifiers
it has recorded are at most as many as the input has bytes. -/
theorem unmarshal_terminates_bounded (data : List Byte) :
    BodyOk extensionsBody ∧
    BodyOk (fun m nameList => some (nameListBody m nameList)) ∧
    ∃ m ok, unmarshal data = some (m, ok) ∧ m.extensions.length ≤ data.length := by
  obtain ⟨m, ok, h⟩ := unmarshal_terminates data
  exact ⟨extensionsBody_ok, nameListBody_ok, m, ok, h, unmarshal_bound data m ok h⟩

/-! ## Records of type 0 -/

theorem extensionsBody_zero_none (m : clientHelloMsg) (data : List Byte)
    (hd : data.length ≤ 65535) (hr : ReadUint16LengthPrefixed data = none) :
    extensionsBody m (encodeRecord (0, data)) =
      some (.returnFalse { m with extensions := m.extensions ++ [0] }) := by
  have h1 := ReadUint16LengthPrefixed_append data [] hd
  rw [List.append_nil] at h1
  unfold extensionsBody
  simp only [encodeRecord, ReadUint16_encodeUint16 _ _ (by decide : 0 < 65536), h1, hr,
    extensionServerName, if_true]

theorem extensionsBody_zero_empty (m : clientHelloMsg) (data x : List Byte)
    (hd : data.length ≤ 65535) (hr : ReadUint16LengthPrefixed data = some ([], x)) :
    extensionsBody m (encodeRecord (0, data)) =
      some (.returnFalse { m with extensions := m.extensions ++ [0] }) := by
  have h1 := ReadUint16LengthPrefixed_append data [] hd
  rw [List.append_nil] at h1
  unfold extensionsBody
  simp only [encodeRecord, ReadUint16_encodeUint16 _ _ (by decide : 0 < 65536), h1, hr,
    extensionServerName, if_true, cryptobyte.Empty, List.length_nil, beq_self_eq_true]

theorem extensionsBody_zero_loop (m m2 : clientHelloMsg) (data nameList x : List Byte)
    (ok : Bool) (hd : data.length ≤ 65535)
    (hr : ReadUint16LengthPrefixed data = some (nameList, x)) (hne : nameList ≠ [])
    (hl : nameListLoop nameList.length { m with extensions := m.extensions ++ [0] } nameList =
      some (m2, ok)) :
    extensionsBody m (encodeRecord (0, data)) =
      some (if ok = true ∧ x = [] then .next m2 [] else .returnFalse m2) := by
  have h1 := ReadUint16LengthPrefixed_append data [] hd
  rw [List.append_nil] at h1
  have hne2 : cryptobyte.Empty nameList = false := cryptobyte.Empty_eq_false.mpr hne
  unfold extensionsBody
  simp only [encodeRecord, ReadUint16_encodeUint16 _ _ (by decide : 0 < 65536), h1, hr,
    extensionServerName, if_true, hne2, hl, Bool.false_eq_true, if_false]
  cases ok
  · simp
  · cases x with
    | nil => simp [cryptobyte.Empty]
    | cons a as => simp [cryptobyte.Empty]

/-- `unmarshal` on an encoded ClientHello whose extension block is made of
records. -/
theorem unmarshal_records (version random sessionId cipherSuites compressionMethods : List Byte)
    (recs : List (Nat × List Byte)) (hv : version.length = 2) (hr : random.length = 32)
    (hs : sessionId.length ≤ 255) (hc : cipherSuites.length ≤ 65535)
    (hm : compressionMethods.length ≤ 255) (hb : (encodeRecords recs).length ≤ 65535) :
    unmarshal (encodeHandshake typeClientHello (clientHelloBody version random sessionId
        cipherSuites compressionMethods (lengthPrefixed16 (encodeRecords recs)))) =
      extensionsLoop (encodeRecords recs).length
        (clientHelloMsg.ofRaw (encodeHandshake typeClientHello (clientHelloBody version random
          sessionId cipherSuites compressionMethods (lengthPrefixed16 (encodeRecords recs)))))
        (encodeRecords recs) :=
  unmarshal_encoded_block version random sessionId cipherSuites compressionMethods _
    hv hr hs hc hm hb

/-- The extension loop returns false when it reaches, after the records `pre`,
a record on which the body returns false whatever the receiver is. -/
theorem extensionsLoop_record_fail (pre post : List (Nat × List Byte)) (r : Nat × List Byte)
    (hfit : RecordsFit (pre ++ r :: post))
    (hfail : ∀ m, ∃ m2, extensionsBody m (encodeRecord r) = some (.returnFalse m2))
    (m : clientHelloMsg) :
    ∃ m1, extensionsLoop (encodeRecords (pre ++ r :: post)).length m
      (encodeRecords (pre ++ r :: post)) = some (m1, false) := by
  have hpre : RecordsFit pre := fun x hx => hfit x (List.mem_append_left _ hx)
  have hr := hfit r (List.mem_append_right _ (List.mem_cons_self _ _))
  rw [encodeRecords_append]
  simp only [encodeRecords]
  rcases extensionsLoop_walk pre m hpre with ⟨m1, h1⟩ | ⟨m1, h1⟩
  · exact ⟨m1, h1 _ _ (Nat.le_refl _)⟩
  · rw [h1 _ _ (Nat.le_refl _)]
    obtain ⟨m2, h2⟩ := hfail m1
    exact ⟨m2, (extensionsLoop_record _ m1 r _ hr.1 hr.2 (Nat.le_refl _)).1 m2 h2⟩

theorem nameListLoop_empty_value (entries : List (Byte × List Byte)) :
    ∀ (fuel : Nat) (m : clientHelloMsg), NameListFits entries →
      (∃ e ∈ entries, e.2 = []) →
      (encodeNameList entries).length ≤ fuel →
      ∃ m1, nameListLoop fuel m (encodeNameList entries) = some (m1, false) := by
  induction entries with
  | nil =>
    intro fuel m _ h _
    obtain ⟨e, he, _⟩ := h
    cases he
  | cons e es ih =>
    intro fuel m hfit h hf
    have he := hfit e (List.mem_cons_self _ _)
    have hes : NameListFits es := fun x hx => hfit x (List.mem_cons_of_mem _ hx)
    simp only [encodeNameList] at hf ⊢
    rw [nameListLoop_entry fuel m e _ he hf]
    obtain ⟨x, hx, hxe⟩ := h
    by_cases h1 : e.2 = []
    · rw [if_pos h1]
      exact ⟨_, rfl⟩
    · have hx2 : x ∈ es := by
        rcases List.mem_cons.mp hx with rfl | hx
        · exact absurd hxe h1
        · exact hx
      rw [if_neg h1]
      split
      · exact ih _ _ hes ⟨x, hx2, hxe⟩ (Nat.le_refl _)
      · split
        · exact ⟨_, rfl⟩
        · split
          · exact ⟨_, rfl⟩
          · exact ih _ _ hes ⟨x, hx2, hxe⟩ (Nat.le_refl _)

/-- The body returns false on a type-0 record whose data is a length-prefixed
name list followed by further bytes. -/
theorem extensionsBody_zero_extra (m : clientHelloMsg) (nameList extra : List Byte)
    (hn : nameList.length ≤ 65535) (hd : (lengthPrefixed16 nameList ++ extra).length ≤ 65535)
    (hextra : extra ≠ []) :
    ∃ m2, extensionsBody m (encodeRecord (0, lengthPrefixed16 nameList ++ extra)) =
      some (.returnFalse m2) := by
  have hr := ReadUint16LengthPrefixed_append nameList extra hn
  by_cases hne : nameList = []
  · subst hne
    exact ⟨_, extensionsBody_zero_empty m _ extra hd hr⟩
  · have hsome := nameListLoop_isSome { m with extensions := m.extensions ++ [0] } nameList
      nameList.length (Nat.le_refl _)
    cases hl : nameListLoop nameList.length { m with extensions := m.extensions ++ [0] }
        nameList with
    | none => rw [hl] at hsome; cases hsome
    | some p =>
      obtain ⟨m2, ok⟩ := p
      refine ⟨m2, ?_⟩
      rw [extensionsBody_zero_loop m m2 _ nameList extra ok hd hr hne hl,
        if_neg (fun hh => hextra hh.2)]

/-- The body returns false on a type-0 record whose name list has an entry with
an empty value. -/
theorem extensionsBody_zero_empty_value (m : clientHelloMsg)
    (entries : List (Byte × List Byte)) (extra : List Byte) (hfit : NameListFits entries)
    (hn : (encodeNameList entries).length ≤ 65535)
    (hd : (lengthPrefixed16 (encodeNameList entries) ++ extra).length ≤ 65535)
    (he : ∃ e ∈ entries, e.2 = []) :
    ∃ m2, extensionsBody m (encodeRecord (0, lengthPrefixed16 (encodeNameList entries) ++ extra)) =
      some (.returnFalse m2) := by
  have hr := ReadUint16LengthPrefixed_append (encodeNameList entries) extra hn
  have hne : encodeNameList entries ≠ [] := by
    intro hh
    obtain ⟨e, hmem, -⟩ := he
    rw [encodeNameList_eq_nil.mp hh] at hmem
    cases hmem
  obtain ⟨m2, hl⟩ := nameListLoop_empty_value entries (encodeNameList entries).length
    { m with extensions := m.extensions ++ [0] } hfit he (Nat.le_refl _)
  refine ⟨m2, ?_⟩
  rw [extensionsBody_zero_loop m m2 _ _ extra false hd hr hne hl]
  simp

/-! ## What `unmarshal` rejects -/

theorem lengthPrefixed16_length (b : List Byte) : (lengthPrefixed16 b).length = 2 + b.length := by
  simp only [lengthPrefixed16, encodeUint16, List.length_append, List.length_cons,
    List.length_nil]

theorem ReadUint16LengthPrefixed_short (data : List Byte) (h : data.length < 2) :
    ReadUint16LengthPrefixed data = none := by
  unfold cryptobyte.ReadUint16LengthPrefixed cryptobyte.readLengthPrefixed
  rw [cryptobyte.read_eq_none.mpr h]

/-- `unmarshal` returns false on an encoded ClientHello whose extension block
reaches a record on which the body returns false whatever the receiver is. -/
theorem unmarshal_record_fail (version random sessionId cipherSuites compressionMethods :
    List Byte) (pre post : List (Nat × List Byte)) (r : Nat × List Byte)
    (hv : version.length = 2) (hr : random.length = 32)
    (hs : sessionId.length ≤ 255) (hc : cipherSuites.length ≤ 65535)
    (hm : compressionMethods.length ≤ 255)
    (hfit : RecordsFit (pre ++ r :: post))
    (hblock : (encodeRecords (pre ++ r :: post)).length ≤ 65535)
    (hfail : ∀ m, ∃ m2, extensionsBody m (encodeRecord r) = some (.returnFalse m2)) :
    ∃ m1, unmarshal (encodeHandshake typeClientHello (clientHelloBody version random sessionId
        cipherSuites compressionMethods (lengthPrefixed16 (encodeRecords (pre ++ r :: post))))) =
      some (m1, false) := by
  rw [unmarshal_records version random sessionId cipherSuites compressionMethods _
    hv hr hs hc hm hblock]
  exact extensionsLoop_record_fail pre post r hfit hfail _

/-- C16: in an encoded ClientHello, a type-0 record whose data is too short to
hold the length prefix of a name list, or holds a name list of declared length
0, or holds a name list with an entry (of any name type) whose value is empty,
makes `unmarshal` return false, whatever records come before and after it. -/
theorem unmarshal_empty_name (version random sessionId cipherSuites compressionMethods :
    List Byte) (pre post : List (Nat × List Byte)) (data : List Byte)
    (hv : version.length = 2) (hr : random.length = 32)
    (hs : sessionId.length ≤ 255) (hc : cipherSuites.length ≤ 65535)
    (hm : compressionMethods.length ≤ 255)
    (hfit : RecordsFit (pre ++ (0, data) :: post))
    (hblock : (encodeRecords (pre ++ (0, data) :: post)).length ≤ 65535)
    (hbad : data.length < 2 ∨ (∃ extra, data = lengthPrefixed16 [] ++ extra) ∨
      (∃ entries extra, NameListFits entries ∧ (∃ e ∈ entries, e.2 = []) ∧
        data = lengthPrefixed16 (encodeNameList entries) ++ extra)) :
    ∃ m, unmarshal (encodeHandshake typeClientHello (clientHelloBody version random sessionId
        cipherSuites compressionMethods
        (lengthPrefixed16 (encodeRecords (pre ++ (0, data) :: post))))) = some (m, false) := by
  have hd : data.length ≤ 65535 :=
    (hfit (0, data) (List.mem_append_right _ (List.mem_cons_self _ _))).2
  refine unmarshal_record_fail version random sessionId cipherSuites compressionMethods pre post
    (0, data) hv hr hs hc hm hfit hblock (fun m => ?_)
  rcases hbad with hshort | ⟨extra, rfl⟩ | ⟨entries, extra, hnf, he, rfl⟩
  · exact ⟨_, extensionsBody_zero_none m data hd (ReadUint16LengthPrefixed_short data hshort)⟩
  · exact ⟨_, extensionsBody_zero_empty m _ extra hd
      (ReadUint16LengthPrefixed_append [] extra (by decide))⟩
  · have hn : (encodeNameList entries).length ≤ 65535 := by
      rw [List.length_append, lengthPrefixed16_length] at hd
      omega
    exact extensionsBody_zero_empty_value m entries extra hnf hn hd he

/-- Instance of C16: a `server_name` extension whose only entry is a host_name
with an empty value, after an extension of type 10. -/
theorem unmarshal_empty_name_witness :
    ∃ m, unmarshal (encodeHandshake typeClientHello (clientHelloBody [3, 3]
        (List.replicate 32 7) [] [0, 47] [0]
        (lengthPrefixed16 (encodeRecords ([(10, [0, 23])] ++
          (0, lengthPrefixed16 (encodeNameList [(0, [])]) ++ []) :: []))))) = some (m, false) :=
  unmarshal_empty_name [3, 3] (List.replicate 32 7) [] [0, 47] [0] [(10, [0, 23])] []
    (lengthPrefixed16 (encodeNameList [(0, [])]) ++ [])
    (by decide) (by decide) (by decide) (by decide) (by decide)
    (by unfold RecordsFit; decide) (by decide)
    (Or.inr (Or.inr ⟨[(0, [])], [], by unfold NameListFits; decide,
      ⟨(0, []), List.mem_singleton.mpr rfl, rfl⟩, rfl⟩))

/-- C15: exact consumption of the `server_name` extension. In an encoded
ClientHello, a type-0 record whose data is a 16-bit-length-prefixed name list
followed by at least one further byte makes `unmarshal` return false, whatever
the name list and the other records are; and whenever `unmarshal` returns true,
the data of every type-0 record is exactly one length-prefixed, non-empty name
list. -/
theorem unmarshal_serverName_exact (version random sessionId cipherSuites compressionMethods :
    List Byte) (hv : version.length = 2) (hr : random.length = 32)
    (hs : sessionId.length ≤ 255) (hc : cipherSuites.length ≤ 65535)
    (hm : compressionMethods.length ≤ 255) :
    (∀ (pre post : List (Nat × List Byte)) (nameList extra : List Byte),
      RecordsFit (pre ++ (0, lengthPrefixed16 nameList ++ extra) :: post) →
      (encodeRecords (pre ++ (0, lengthPrefixed16 nameList ++ extra) :: post)).length ≤ 65535 →
      extra ≠ [] →
      ∃ m, unmarshal (encodeHandshake typeClientHello (clientHelloBody version random sessionId
        cipherSuites compressionMethods (lengthPrefixed16
          (encodeRecords (pre ++ (0, lengthPrefixed16 nameList ++ extra) :: post))))) =
        some (m, false)) ∧
    (∀ (recs : List (Nat × List Byte)) (data : List Byte) (m : clientHelloMsg),
      RecordsFit recs → (encodeRecords recs).length ≤ 65535 →
      unmarshal (encodeHandshake typeClientHello (clientHelloBody version random sessionId
        cipherSuites compressionMethods (lengthPrefixed16 (encodeRecords recs)))) =
        some (m, true) →
      (0, data) ∈ recs →
      ∃ nameList, nameList ≠ [] ∧ data = lengthPrefixed16 nameList) := by
  constructor
  · intro pre post nameList extra hfit hblock hextra
    have hd : (lengthPrefixed16 nameList ++ extra).length ≤ 65535 :=
      (hfit _ (List.mem_append_right _ (List.mem_cons_self _ _))).2
    have hn : nameList.length ≤ 65535 := by
      rw [List.length_append, lengthPrefixed16_length] at hd
      omega
    exact unmarshal_record_fail version random sessionId cipherSuites compressionMethods pre post
      _ hv hr hs hc hm hfit hblock (fun m => extensionsBody_zero_extra m nameList extra hn hd hextra)
  · intro recs data m hfit hblock hu hmem
    obtain ⟨pre, post, rfl⟩ := List.append_of_mem hmem
    have hd : data.length ≤ 65535 :=
      (hfit (0, data) (List.mem_append_right _ (List.mem_cons_self _ _))).2
    have hpre : RecordsFit pre := fun x hx => hfit x (List.mem_append_left _ hx)
    rw [unmarshal_records version random sessionId cipherSuites compressionMethods _
      hv hr hs hc hm hblock, encodeRecords_append] at hu
    simp only [encodeRecords] at hu
    rcases extensionsLoop_walk pre _ hpre with ⟨m1, h1⟩ | ⟨m1, h1⟩
    · rw [h1 _ _ (Nat.le_refl _)] at hu
      cases hu
    · rw [h1 _ _ (Nat.le_refl _)] at hu
      have hstep := extensionsLoop_record (encodeRecord (0, data) ++ encodeRecords post).length
        m1 (0, data) (encodeRecords post) (by show (0 : Nat) < 65536; decide) hd (Nat.le_refl _)
      cases hread : ReadUint16LengthPrefixed data with
      | none =>
        rw [hstep.1 _ (extensionsBody_zero_none m1 data hd hread)] at hu
        cases hu
      | some p =>
        obtain ⟨nameList, x⟩ := p
        by_cases hne : nameList = []
        · subst hne
          rw [hstep.1 _ (extensionsBody_zero_empty m1 data x hd hread)] at hu
          cases hu
        · have hsome := nameListLoop_isSome { m1 with extensions := m1.extensions ++ [0] }
            nameList nameList.length (Nat.le_refl _)
          cases hl : nameListLoop nameList.length
              { m1 with extensions := m1.extensions ++ [0] } nameList with
          | none => rw [hl] at hsome; cases hsome
          | some q =>
            obtain ⟨m2, ok⟩ := q
            have hbody := extensionsBody_zero_loop m1 m2 data nameList x ok hd hread hne hl
            by_cases hok : ok = true ∧ x = []
            · obtain ⟨-, hx⟩ := hok
              subst hx
              obtain ⟨hdata, -⟩ := ReadUint16LengthPrefixed_decode hread
              rw [List.append_nil] at hdata
              exact ⟨nameList, hne, hdata⟩
            · rw [if_neg hok] at hbody
              rw [hstep.1 _ hbody] at hu
              cases hu

/-- Instance of C15: a well-formed name list with host "a", followed by one
further byte inside the data of the extension. -/
theorem unmarshal_serverName_exact_witness :
    ∃ m, unmarshal (encodeHandshake typeClientHello (clientHelloBody [3, 3]
        (List.replicate 32 7) [] [0, 47] [0]
        (lengthPrefixed16 (encodeRecords ([] ++
          (0, lengthPrefixed16 (encodeNameList [(0, [97])]) ++ [9]) :: []))))) =
      some (m, false) :=
  (unmarshal_serverName_exact [3, 3] (List.replicate 32 7) [] [0, 47] [0]
    (by decide) (by decide) (by decide) (by decide) (by decide)).1 [] []
    (encodeNameList [(0, [97])]) [9] (by unfold RecordsFit; decide) (by decide) (by decide)

/-- C14, as stated, fails for `decodeFromBytes`: under a header that declares
length zero, a ClientHello whose (empty) extension block is followed by one
more byte is accepted without error, although `unmarshal` returns false on
it. -/
theorem unmarshal_trailing_bytes_counterexample :
    (∃ m, unmarshal (encodeHandshake typeClientHello
        (clientHelloBody [3, 3] (List.replicate 32 7) [] [0, 47] [0]
          (lengthPrefixed16 [] ++ [9]))) = some (m, false)) ∧
    decodeFromBytes TLSHandshakeRecord.fresh ⟨22, 771, 0⟩
      (encodeHandshake typeClientHello
        (clientHelloBody [3, 3] (List.replicate 32 7) [] [0, 47] [0]
          (lengthPrefixed16 [] ++ [9]))) =
      some ({ ContentType := 22, Version := 771, Length := 0, HandshakeType := 0,
              ClientHello := none }, none) :=
  ⟨⟨_, rfl⟩, rfl⟩

/-- C14, amended: on a ClientHello in which the 16-bit-length-prefixed
extension block after the compression methods is followed by at least one
further byte, covered by the 24-bit handshake length, `unmarshal` returns
false without recording anything, whatever the block holds; and under a header
with non-zero declared length `decodeFromBytes` fails with the "unable to
unmarshal" error. -/
theorem unmarshal_trailing_bytes (version random sessionId cipherSuites compressionMethods
    block extra : List Byte) (hv : version.length = 2) (hr : random.length = 32)
    (hs : sessionId.length ≤ 255) (hc : cipherSuites.length ≤ 65535)
    (hm : compressionMethods.length ≤ 255) (hb : block.length ≤ 65535)
    (hextra : extra ≠ [])
    (hlen : (clientHelloBody version random sessionId cipherSuites compressionMethods
      (lengthPrefixed16 block ++ extra)).length < 16777216) :
    unmarshal (encodeHandshake typeClientHello (clientHelloBody version random sessionId
        cipherSuites compressionMethods (lengthPrefixed16 block ++ extra))) =
      some (clientHelloMsg.ofRaw (encodeHandshake typeClientHello (clientHelloBody version
        random sessionId cipherSuites compressionMethods (lengthPrefixed16 block ++ extra))),
        false) ∧
    ∀ (t : TLSHandshakeRecord) (h : TLSRecordHeader), h.Length ≠ 0 →
      decodeFromBytes t h (encodeHandshake typeClientHello (clientHelloBody version random
        sessionId cipherSuites compressionMethods (lengthPrefixed16 block ++ extra))) =
      some ({ t with ContentType := h.ContentType, Version := h.Version, Length := h.Length,
                     HandshakeType := typeClientHello },
        some (DecodeError.unableToUnmarshal typeClientHello)) := by
  have hu := unmarshal_block typeClientHello (encodeUint24 (clientHelloBody version random
    sessionId cipherSuites compressionMethods (lengthPrefixed16 block ++ extra)).length)
    version random sessionId cipherSuites compressionMethods block extra rfl hv hr hs hc hm hb
  rw [if_pos hextra] at hu
  exact ⟨hu, fun t h h0 => decodeFromBytes_encodeHandshake_fail t h _ _ h0 hlen hu⟩

/-- Instance of the amended C14: a well-formed block holding one extension of
type 10, followed by one byte. -/
theorem unmarshal_trailing_bytes_witness :
    decodeFromBytes TLSHandshakeRecord.fresh ⟨22, 771, 54⟩
      (encodeHandshake typeClientHello (clientHelloBody [3, 3] (List.replicate 32 7) []
        [0, 47] [0] (lengthPrefixed16 (encodeRecords [(10, [0, 23])]) ++ [9]))) =
      some ({ ContentType := 22, Version := 771, Length := 54, HandshakeType := 1,
              ClientHello := none }, some (DecodeError.unableToUnmarshal 1)) :=
  (unmarshal_trailing_bytes [3, 3] (List.replicate 32 7) [] [0, 47] [0]
    (encodeRecords [(10, [0, 23])]) [9] (by decide) (by decide) (by decide) (by decide)
    (by decide) (by decide) (by decide) (by decide)).2 TLSHandshakeRecord.fresh ⟨22, 771, 54⟩
    (by decide)

/-! ## What a successful `unmarshal` has read -/

theorem RecordsFit_nil : RecordsFit [] := by
  intro r hr
  cases hr

/-- A view on which the extension loop runs to its end is tiled by records, and
the loop has appended their type identifiers in order. -/
theorem extensionsLoop_tile (fuel : Nat) :
    ∀ (m : clientHelloMsg) (view : cryptobyte.String) (m1 : clientHelloMsg),
      extensionsLoop fuel m view = some (m1, true) →
      ∃ recs, RecordsFit recs ∧ view = encodeRecords recs ∧
        m1.extensions = m.extensions ++ recs.map Prod.fst := by
  induction fuel with
  | zero =>
    intro m view m1 h
    by_cases hv : view = []
    · subst hv
      unfold extensionsLoop at h
      rw [forLoop_nil] at h
      simp only [Option.some.injEq, Prod.mk.injEq, and_true] at h
      subst h
      exact ⟨[], RecordsFit_nil, rfl, by simp⟩
    · unfold extensionsLoop at h
      rw [forLoop, if_neg (by simp [cryptobyte.Empty_eq_false.mpr hv])] at h
      cases h
  | succ fuel ih =>
    intro m view m1 h
    by_cases hv : view = []
    · subst hv
      unfold extensionsLoop at h
      rw [forLoop_nil] at h
      simp only [Option.some.injEq, Prod.mk.injEq, and_true] at h
      subst h
      exact ⟨[], RecordsFit_nil, rfl, by simp⟩
    · unfold extensionsLoop at h
      rw [forLoop_succ _ _ _ _ hv] at h
      cases hbody : extensionsBody m view with
      | none => rw [hbody] at h; cases h
      | some st =>
        rw [hbody] at h
        cases st with
        | returnFalse m2 => cases h
        | next m2 rest =>
          obtain ⟨ty, data, hview, hty, hd, -, hext, -⟩ := extensionsBody_next_decode hbody
          obtain ⟨recs, hfit, hrest, hm1⟩ := ih m2 rest m1 h
          refine ⟨(ty, data) :: recs, ?_, ?_, ?_⟩
          · intro r hr
            rcases List.mem_cons.mp hr with rfl | hr
            · exact ⟨hty, hd⟩
            · exact hfit r hr
          · rw [hview, hrest]
            rfl
          · rw [hm1, hext]
            simp

/-- Records that fit are determined by their encoding. -/
theorem encodeRecords_injective (a : List (Nat × List Byte)) :
    ∀ (b : List (Nat × List Byte)), RecordsFit a → RecordsFit b →
      encodeRecords a = encodeRecords b → a = b := by
  induction a with
  | nil =>
    intro b _ _ h
    cases b with
    | nil => rfl
    | cons r rs =>
      simp only [encodeRecords] at h
      exact absurd h.symm (encodeRecord_ne_nil r _)
  | cons r rs ih =>
    intro b ha hb h
    cases b with
    | nil =>
      simp only [encodeRecords] at h
      exact absurd h (encodeRecord_ne_nil r _)
    | cons q qs =>
      have hr := ha r (List.mem_cons_self _ _)
      have hq := hb q (List.mem_cons_self _ _)
      simp only [encodeRecords, encodeRecord, List.append_assoc] at h
      have h1 := congrArg ReadUint16 h
      rw [ReadUint16_encodeUint16 _ _ hr.1, ReadUint16_encodeUint16 _ _ hq.1] at h1
      simp only [Option.some.injEq, Prod.mk.injEq] at h1
      obtain ⟨ht, h2⟩ := h1
      have h3 := congrArg ReadUint16LengthPrefixed h2
      rw [ReadUint16LengthPrefixed_append _ _ hr.2, ReadUint16LengthPrefixed_append _ _ hq.2] at h3
      simp only [Option.some.injEq, Prod.mk.injEq] at h3
      obtain ⟨hd, h4⟩ := h3
      have hrq : r = q := Prod.ext ht hd
      rw [hrq, ih qs (fun x hx => ha x (List.mem_cons_of_mem _ hx))
        (fun x hx => hb x (List.mem_cons_of_mem _ hx)) h4]

/-- C12: on every payload on which `unmarshal` returns true, the payload is
38 fixed bytes followed by the three length-prefixed fields and a tail; either
the tail is empty and no identifier is recorded, or the tail is a
16-bit-length-prefixed extension block that is tiled, in exactly one way, by
(type, 16-bit-length-prefixed data) records, and the recorded extension list is
the sequence of the type identifiers of these records in wire order. -/
theorem unmarshal_extensions_tile (data : List Byte) (m : clientHelloMsg)
    (h : unmarshal data = some (m, true)) :
    ∃ fixed sessionId cipherSuites compressionMethods tail, fixed.length = 38 ∧
      data = fixed ++ (lengthPrefixed8 sessionId ++ (lengthPrefixed16 cipherSuites ++
        (lengthPrefixed8 compressionMethods ++ tail))) ∧
      ((tail = [] ∧ m.extensions = []) ∨
       (∃ recs, tail = lengthPrefixed16 (encodeRecords recs) ∧ RecordsFit recs ∧
          m.extensions = recs.map Prod.fst ∧
          ∀ recs1, RecordsFit recs1 → encodeRecords recs1 = encodeRecords recs →
            recs1 = recs)) := by
  unfold unmarshal at h
  simp only [] at h
  split at h
  · cases h
  · rename_i s1 h1
    split at h
    · cases h
    · rename_i s2 h2
      split at h
      · cases h
      · rename_i sessionId s3 h3
        split at h
        · cases h
        · rename_i cipherSuites s4 h4
          split at h
          · cases h
          · rename_i compressionMethods s5 h5
            obtain ⟨a1, ha1, hd1⟩ := cryptobyte.Skip_decode h1
            obtain ⟨a2, ha2, hd2⟩ := cryptobyte.Skip_decode h2
            obtain ⟨hd3, -⟩ := ReadUint8LengthPrefixed_decode h3
            obtain ⟨hd4, -⟩ := ReadUint16LengthPrefixed_decode h4
            obtain ⟨hd5, -⟩ := ReadUint8LengthPrefixed_decode h5
            have hdata : data = (a1 ++ a2) ++ (lengthPrefixed8 sessionId ++
                (lengthPrefixed16 cipherSuites ++ (lengthPrefixed8 compressionMethods ++ s5))) := by
              rw [hd1, hd2, hd3, hd4, hd5, List.append_assoc]
            refine ⟨a1 ++ a2, sessionId, cipherSuites, compressionMethods, s5,
              by rw [List.length_append, ha1, ha2], hdata, ?_⟩
            split at h
            · rename_i he
              simp only [Option.some.injEq, Prod.mk.injEq, and_true] at h
              rw [← h]
              exact Or.inl ⟨cryptobyte.Empty_eq_true.mp he, rfl⟩
            · split at h
              · cases h
              · rename_i extensions s6 h6
                split at h
                · cases h
                · rename_i he6
                  obtain ⟨hd6, -⟩ := ReadUint16LengthPrefixed_decode h6
                  have hs6 : s6 = [] := by
                    apply cryptobyte.Empty_eq_true.mp
                    simpa using he6
                  subst hs6
                  rw [List.append_nil] at hd6
                  obtain ⟨recs, hfit, hview, hext⟩ := extensionsLoop_tile _ _ _ _ h
                  refine Or.inr ⟨recs, by rw [hd6, hview], hfit, ?_, ?_⟩
                  · rw [hext]
                    rfl
                  · intro recs1 hfit1 henc
                    exact encodeRecords_injective recs1 recs hfit1 hfit henc

/-- Instance of C12: the identifier 10 occurs twice around a `server_name`
extension and is recorded twice. -/
theorem unmarshal_extensions_tile_witness :
    ∃ fixed sessionId cipherSuites compressionMethods tail, fixed.length = 38 ∧
      encodeHandshake typeClientHello (clientHelloBody [3, 3] (List.replicate 32 7) []
        [0, 47] [0] (lengthPrefixed16 (encodeRecords
          [(10, [0, 23]), (0, lengthPrefixed16 (encodeNameList [(0, [97])])), (10, [])]))) =
        fixed ++ (lengthPrefixed8 sessionId ++ (lengthPrefixed16 cipherSuites ++
          (lengthPrefixed8 compressionMethods ++ tail))) ∧
      ((tail = [] ∧ ([10, 0, 10] : List Nat) = []) ∨
       (∃ recs, tail = lengthPrefixed16 (encodeRecords recs) ∧ RecordsFit recs ∧
          ([10, 0, 10] : List Nat) = recs.map Prod.fst ∧
          ∀ recs1, RecordsFit recs1 → encodeRecords recs1 = encodeRecords recs →
            recs1 = recs)) :=
  unmarshal_extensions_tile
    (encodeHandshake typeClientHello (clientHelloBody [3, 3] (List.replicate 32 7) []
      [0, 47] [0] (lengthPrefixed16 (encodeRecords
        [(10, [0, 23]), (0, lengthPrefixed16 (encodeNameList [(0, [97])])), (10, [])]))))
    { raw := encodeHandshake typeClientHello (clientHelloBody [3, 3] (List.replicate 32 7) []
        [0, 47] [0] (lengthPrefixed16 (encodeRecords
          [(10, [0, 23]), (0, lengthPrefixed16 (encodeNameList [(0, [97])])), (10, [])]))),
      serverName := [97], extensions := [10, 0, 10] }
    rfl

/-! ## `unmarshal` does not read `raw`; runs that agree record by record -/

theorem nameListBody_withRaw (m : clientHelloMsg) (raw : List Byte)
    (nameList : cryptobyte.String) :
    nameListBody (m.withRaw raw) nameList = (nameListBody m nameList).withRaw raw := by
  obtain ⟨r0, sn, ex⟩ := m
  unfold nameListBody
  simp only [clientHelloMsg.withRaw]
  split
  · rfl
  · split
    · rfl
    · split
      · rfl
      · split
        · rfl
        · split
          · rfl
          · split <;> rfl

/-- A loop whose body does not read `raw` does not read it either. -/
theorem forLoop_withRaw (body : clientHelloMsg → cryptobyte.String → Option LoopStep)
    (raw : List Byte)
    (hb : ∀ m view, body (m.withRaw raw) view = (body m view).map (LoopStep.withRaw raw)) :
    ∀ (fuel : Nat) (m : clientHelloMsg) (view : cryptobyte.String),
      forLoop body fuel (m.withRaw raw) view =
        (forLoop body fuel m view).map (fun p => (p.1.withRaw raw, p.2)) := by
  intro fuel
  induction fuel with
  | zero =>
    intro m view
    by_cases hv : view = []
    · subst hv
      rw [forLoop_nil, forLoop_nil]
      rfl
    · rw [forLoop, if_neg (by simp [cryptobyte.Empty_eq_false.mpr hv]),
        forLoop, if_neg (by simp [cryptobyte.Empty_eq_false.mpr hv])]
      rfl
  | succ fuel ih =>
    intro m view
    by_cases hv : view = []
    · subst hv
      rw [forLoop_nil, forLoop_nil]
      rfl
    · rw [forLoop_succ _ _ _ _ hv, forLoop_succ _ _ _ _ hv, hb]
      cases body m view with
      | none => rfl
      | some st =>
        cases st with
        | returnFalse m2 => rfl
        | next m2 rest => exact ih m2 rest

theorem nameListLoop_withRaw (fuel : Nat) (m : clientHelloMsg) (raw : List Byte)
    (nameList : cryptobyte.String) :
    nameListLoop fuel (m.withRaw raw) nameList =
      (nameListLoop fuel m nameList).map (fun p => (p.1.withRaw raw, p.2)) :=
  forLoop_withRaw _ raw (fun m view => by
    simp only [Option.map_some', nameListBody_withRaw]) fuel m nameList

theorem extensionsBody_withRaw (m : clientHelloMsg) (raw : List Byte)
    (view : cryptobyte.String) :
    extensionsBody (m.withRaw raw) view = (extensionsBody m view).map (LoopStep.withRaw raw) := by
  unfold extensionsBody
  split
  · rfl
  · split
    · rfl
    · rename_i extension _ _ _ extData _ _
      simp only []
      split
      · split
        · rfl
        · rename_i nameList _ _
          split
          · rfl
          · have hl := nameListLoop_withRaw nameList.length
              { m with extensions := m.extensions ++ [extension] } raw nameList
            simp only [clientHelloMsg.withRaw] at hl ⊢
            rw [hl]
            cases nameListLoop nameList.length
                { m with extensions := m.extensions ++ [extension] } nameList with
            | none => rfl
            | some p =>
              obtain ⟨m2, ok⟩ := p
              cases ok
              · rfl
              · simp only [Option.map_some']
                split <;> rfl
      · rfl

theorem extensionsLoop_withRaw (fuel : Nat) (m : clientHelloMsg) (raw : List Byte)
    (view : cryptobyte.String) :
    extensionsLoop fuel (m.withRaw raw) view =
      (extensionsLoop fuel m view).map (fun p => (p.1.withRaw raw, p.2)) :=
  forLoop_withRaw _ raw (fun m view => extensionsBody_withRaw m raw view) fuel m view

/-- Two record lists on whose records, taken one by one, the body does the
same, give the same run of the extension loop. -/
theorem extensionsLoop_congr (recs1 recs2 : List (Nat × List Byte))
    (hrel : List.Forall₂ (fun a b => ∀ m, extensionsBody m (encodeRecord a) =
      extensionsBody m (encodeRecord b)) recs1 recs2) :
    RecordsFit recs1 → RecordsFit recs2 → ∀ (m : clientHelloMsg),
      extensionsLoop (encodeRecords recs1).length m (encodeRecords recs1) =
        extensionsLoop (encodeRecords recs2).length m (encodeRecords recs2) := by
  induction hrel with
  | nil => intro _ _ m; rfl
  | @cons a b as bs hab _ ih =>
    intro h1 h2 m
    have ha := h1 a (List.mem_cons_self _ _)
    have hb := h2 b (List.mem_cons_self _ _)
    have hsa := extensionsLoop_record (encodeRecords (a :: as)).length m a (encodeRecords as)
      ha.1 ha.2 (Nat.le_refl _)
    have hsb := extensionsLoop_record (encodeRecords (b :: bs)).length m b (encodeRecords bs)
      hb.1 hb.2 (Nat.le_refl _)
    simp only [encodeRecords] at hsa hsb ⊢
    rcases extensionsBody_record_cases m a with ⟨m2, hbody⟩ | ⟨m2, x, hbody⟩
    · rw [hsa.1 m2 hbody, hsb.1 m2 (by rw [← hab m]; exact hbody)]
    · rw [hsa.2 m2 x hbody, hsb.2 m2 x (by rw [← hab m]; exact hbody)]
      exact ih (fun r hr => h1 r (List.mem_cons_of_mem _ hr))
        (fun r hr => h2 r (List.mem_cons_of_mem _ hr)) m2

/-- Two encoded ClientHellos on whose extension blocks the extension loop runs
alike give the same flag, server name and extension list. -/
theorem unmarshal_congr (version random sessionId cipherSuites compressionMethods : List Byte)
    (recs1 recs2 : List (Nat × List Byte)) (hv : version.length = 2) (hr : random.length = 32)
    (hs : sessionId.length ≤ 255) (hc : cipherSuites.length ≤ 65535)
    (hm : compressionMethods.length ≤ 255)
    (hb1 : (encodeRecords recs1).length ≤ 65535) (hb2 : (encodeRecords recs2).length ≤ 65535)
    (hloop : ∀ m, extensionsLoop (encodeRecords recs1).length m (encodeRecords recs1) =
      extensionsLoop (encodeRecords recs2).length m (encodeRecords recs2)) :
    ∃ m1 m2 ok,
      unmarshal (encodeHandshake typeClientHello (clientHelloBody version random sessionId
        cipherSuites compressionMethods (lengthPrefixed16 (encodeRecords recs1)))) =
        some (m1, ok) ∧
      unmarshal (encodeHandshake typeClientHello (clientHelloBody version random sessionId
        cipherSuites compressionMethods (lengthPrefixed16 (encodeRecords recs2)))) =
        some (m2, ok) ∧
      m1.serverName = m2.serverName ∧ m1.extensions = m2.extensions := by
  rw [unmarshal_records version random sessionId cipherSuites compressionMethods recs1
      hv hr hs hc hm hb1,
    unmarshal_records version random sessionId cipherSuites compressionMethods recs2
      hv hr hs hc hm hb2]
  have e1 := extensionsLoop_withRaw (encodeRecords recs1).length (clientHelloMsg.ofRaw [])
    (encodeHandshake typeClientHello (clientHelloBody version random sessionId
        cipherSuites compressionMethods (lengthPrefixed16 (encodeRecords recs1))))
    (encodeRecords recs1)
  have e2 := extensionsLoop_withRaw (encodeRecords recs2).length (clientHelloMsg.ofRaw [])
    (encodeHandshake typeClientHello (clientHelloBody version random sessionId
        cipherSuites compressionMethods (lengthPrefixed16 (encodeRecords recs2))))
    (encodeRecords recs2)
  have hsome := extensionsLoop_isSome (clientHelloMsg.ofRaw []) (encodeRecords recs1)
    (encodeRecords recs1).length (Nat.le_refl _)
  cases hl : extensionsLoop (encodeRecords recs1).length (clientHelloMsg.ofRaw [])
      (encodeRecords recs1) with
  | none => rw [hl] at hsome; cases hsome
  | some p =>
    obtain ⟨m0, ok⟩ := p
    have hl2 := hl
    rw [hloop] at hl2
    rw [hl] at e1
    rw [hl2] at e2
    exact ⟨_, _, ok, e1, e2, rfl, rfl⟩

/-! ## Extensions of other types are opaque -/

theorem ReadUint16LengthPrefixed_overrun (n : Nat) (bytes : List Byte) (hn : n < 65536)
    (hlt : bytes.length < n) : ReadUint16LengthPrefixed (encodeUint16 n ++ bytes) = none := by
  unfold cryptobyte.ReadUint16LengthPrefixed cryptobyte.readLengthPrefixed
  have h1 := cryptobyte.read_append (encodeUint16 n) bytes
  have h2 : (encodeUint16 n).length = 2 := rfl
  rw [h2] at h1
  rw [h1]
  simp only []
  rw [lengthValue_encodeUint16 n hn, cryptobyte.read_eq_none.mpr hlt]

theorem extensionsBody_overrun (m : clientHelloMsg) (ty n : Nat) (bytes : List Byte)
    (ht : ty < 65536) (hn : n < 65536) (hlt : bytes.length < n) :
    extensionsBody m (encodeUint16 ty ++ (encodeUint16 n ++ bytes)) = some (.returnFalse m) := by
  unfold extensionsBody
  simp only [ReadUint16_encodeUint16 _ _ ht, ReadUint16LengthPrefixed_overrun n bytes hn hlt]

theorem other_types_body_eq (recs1 recs2 : List (Nat × List Byte))
    (hsame : List.Forall₂ (fun a b => a.1 = b.1 ∧ (a.1 = 0 → a.2 = b.2)) recs1 recs2) :
    RecordsFit recs1 → RecordsFit recs2 →
    List.Forall₂ (fun a b => ∀ m, extensionsBody m (encodeRecord a) =
      extensionsBody m (encodeRecord b)) recs1 recs2 := by
  induction hsame with
  | nil => intro _ _; exact List.Forall₂.nil
  | @cons a b as bs hab _ ih =>
    intro h1 h2
    have ha := h1 a (List.mem_cons_self _ _)
    have hb := h2 b (List.mem_cons_self _ _)
    refine List.Forall₂.cons ?_ (ih (fun r hr => h1 r (List.mem_cons_of_mem _ hr))
      (fun r hr => h2 r (List.mem_cons_of_mem _ hr)))
    intro m
    obtain ⟨ta, da⟩ := a
    obtain ⟨tb, db⟩ := b
    obtain ⟨ht, hd⟩ := hab
    simp only at ht hd ha hb
    subst ht
    by_cases h0 : ta = 0
    · rw [hd h0]
    · rw [extensionsBody_record_other m ta da h0 ha.1 ha.2,
        extensionsBody_record_other m ta db h0 hb.1 hb.2]

/-- C13: extensions of a type other than 0 are opaque. Two encoded ClientHellos
with the same fields before the extension block, whose blocks hold records with
the same type identifiers in the same order and the same data in every record
of type 0, make `unmarshal` return the same flag, the same server name and the
same extension list, whatever the data of the other records are. The body of
the extension loop accepts a record of a non-zero type with any data, and
returns false on a record whose 16-bit length prefix states more bytes than
the block has left. -/
theorem unmarshal_other_type_data (version random sessionId cipherSuites compressionMethods :
    List Byte) (hv : version.length = 2) (hr : random.length = 32)
    (hs : sessionId.length ≤ 255) (hc : cipherSuites.length ≤ 65535)
    (hm : compressionMethods.length ≤ 255) :
    (∀ (recs1 recs2 : List (Nat × List Byte)), RecordsFit recs1 → RecordsFit recs2 →
      (encodeRecords recs1).length ≤ 65535 → (encodeRecords recs2).length ≤ 65535 →
      List.Forall₂ (fun a b => a.1 = b.1 ∧ (a.1 = 0 → a.2 = b.2)) recs1 recs2 →
      ∃ m1 m2 ok,
        unmarshal (encodeHandshake typeClientHello (clientHelloBody version random sessionId
          cipherSuites compressionMethods (lengthPrefixed16 (encodeRecords recs1)))) =
          some (m1, ok) ∧
        unmarshal (encodeHandshake typeClientHello (clientHelloBody version random sessionId
          cipherSuites compressionMethods (lengthPrefixed16 (encodeRecords recs2)))) =
          some (m2, ok) ∧
        m1.serverName = m2.serverName ∧ m1.extensions = m2.extensions) ∧
    (∀ (m : clientHelloMsg) (ty : Nat) (data rest : List Byte), ty ≠ 0 → ty < 65536 →
      data.length ≤ 65535 →
      extensionsBody m (encodeRecord (ty, data) ++ rest) =
        some (.next { m with extensions := m.extensions ++ [ty] } rest)) ∧
    (∀ (m : clientHelloMsg) (ty n : Nat) (bytes : List Byte), ty < 65536 → n < 65536 →
      bytes.length < n →
      extensionsBody m (encodeUint16 ty ++ (encodeUint16 n ++ bytes)) =
        some (.returnFalse m)) := by
  refine ⟨?_, ?_, fun m ty n bytes ht hn hlt => extensionsBody_overrun m ty n bytes ht hn hlt⟩
  · intro recs1 recs2 hf1 hf2 hb1 hb2 hsame
    exact unmarshal_congr version random sessionId cipherSuites compressionMethods recs1 recs2
      hv hr hs hc hm hb1 hb2
      (extensionsLoop_congr recs1 recs2 (other_types_body_eq recs1 recs2 hsame hf1 hf2) hf1 hf2)
  · intro m ty data rest h0 ht hd
    rw [extensionsBody_record m (ty, data) rest ht hd,
      extensionsBody_record_other m ty data h0 ht hd]
    rfl

/-- Instance of C13: the data of the extensions of type 10 and 11 differ in
content and length, the `server_name` extension is the same. -/
theorem unmarshal_other_type_data_witness :
    ∃ m1 m2 ok,
      unmarshal (encodeHandshake typeClientHello (clientHelloBody [3, 3] (List.replicate 32 7)
        [] [0, 47] [0] (lengthPrefixed16 (encodeRecords
          [(10, [0, 23]), (0, lengthPrefixed16 (encodeNameList [(0, [97])])), (11, [])])))) =
        some (m1, ok) ∧
      unmarshal (encodeHandshake typeClientHello (clientHelloBody [3, 3] (List.replicate 32 7)
        [] [0, 47] [0] (lengthPrefixed16 (encodeRecords
          [(10, []), (0, lengthPrefixed16 (encodeNameList [(0, [97])])), (11, [1, 2, 3])])))) =
        some (m2, ok) ∧
      m1.serverName = m2.serverName ∧ m1.extensions = m2.extensions :=
  (unmarshal_other_type_data [3, 3] (List.replicate 32 7) [] [0, 47] [0]
    (by decide) (by decide) (by decide) (by decide) (by decide)).1
    [(10, [0, 23]), (0, lengthPrefixed16 (encodeNameList [(0, [97])])), (11, [])]
    [(10, []), (0, lengthPrefixed16 (encodeNameList [(0, [97])])), (11, [1, 2, 3])]
    (by unfold RecordsFit; decide) (by unfold RecordsFit; decide) (by decide) (by decide)
    (List.Forall₂.cons ⟨rfl, fun h => absurd h (by decide)⟩
      (List.Forall₂.cons ⟨rfl, fun _ => rfl⟩
        (List.Forall₂.cons ⟨rfl, fun h => absurd h (by decide)⟩ List.Forall₂.nil)))

/-! ## Host names across entries and extensions -/

/-- On a well-formed name list the name-list loop depends on the host_name
entries only. -/
theorem nameListLoop_hosts (entries : List (Byte × List Byte)) :
    ∀ (m : clientHelloMsg), NameListOk entries →
      nameListLoop (encodeNameList entries).length m (encodeNameList entries) =
        nameListLoop (encodeNameList (hostEntries entries)).length m
          (encodeNameList (hostEntries entries)) := by
  induction entries with
  | nil => intro m _; rfl
  | cons e es ih =>
    intro m hok
    have he := hok e (List.mem_cons_self _ _)
    have hes : NameListOk es := fun x hx => hok x (List.mem_cons_of_mem _ hx)
    by_cases h0 : e.1 = 0
    · have hh : hostEntries (e :: es) = (0, e.2) :: hostEntries es := by
        simp [hostEntries, hostNamesOfEntries, h0]
      rw [hh]
      simp only [encodeNameList]
      rw [nameListLoop_entry _ m e _ he.2 (Nat.le_refl _),
        nameListLoop_entry _ m (0, e.2) _ he.2 (Nat.le_refl _)]
      simp only [if_neg he.1, h0, ne_eq, not_true_eq_false, if_false]
      split
      · rfl
      · split
        · rfl
        · exact ih _ hes
    · have hh : hostEntries (e :: es) = hostEntries es := by
        simp [hostEntries, hostNamesOfEntries, h0]
      rw [hh]
      simp only [encodeNameList]
      rw [nameListLoop_entry _ m e _ he.2 (Nat.le_refl _), if_neg he.1, if_pos h0]
      exact ih m hes

/-- Two well-formed, non-empty name lists with the same host_name values make
the body of the extension loop do the same on their `server_name` records. -/
theorem extensionsBody_same_hosts (entries1 entries2 : List (Byte × List Byte))
    (h1 : NameListOk entries1) (h2 : NameListOk entries2)
    (hne1 : entries1 ≠ []) (hne2 : entries2 ≠ [])
    (hn1 : (encodeNameList entries1).length ≤ 65533)
    (hn2 : (encodeNameList entries2).length ≤ 65533)
    (hhosts : hostNamesOfEntries entries1 = hostNamesOfEntries entries2) (m : clientHelloMsg) :
    extensionsBody m (encodeRecord (0, lengthPrefixed16 (encodeNameList entries1))) =
      extensionsBody m (encodeRecord (0, lengthPrefixed16 (encodeNameList entries2))) := by
  have hr1 := ReadUint16LengthPrefixed_append (encodeNameList entries1) [] (by omega)
  have hr2 := ReadUint16LengthPrefixed_append (encodeNameList entries2) [] (by omega)
  rw [List.append_nil] at hr1 hr2
  have hd1 : (lengthPrefixed16 (encodeNameList entries1)).length ≤ 65535 := by
    rw [lengthPrefixed16_length]; omega
  have hd2 : (lengthPrefixed16 (encodeNameList entries2)).length ≤ 65535 := by
    rw [lengthPrefixed16_length]; omega
  have hnl1 : encodeNameList entries1 ≠ [] := fun hh => hne1 (encodeNameList_eq_nil.mp hh)
  have hnl2 : encodeNameList entries2 ≠ [] := fun hh => hne2 (encodeNameList_eq_nil.mp hh)
  have hsome := nameListLoop_isSome { m with extensions := m.extensions ++ [0] }
    (encodeNameList entries1) _ (Nat.le_refl _)
  cases hl : nameListLoop (encodeNameList entries1).length
      { m with extensions := m.extensions ++ [0] } (encodeNameList entries1) with
  | none => rw [hl] at hsome; cases hsome
  | some p =>
    obtain ⟨m2, ok⟩ := p
    have hl2 := hl
    rw [nameListLoop_hosts entries1 _ h1, hostEntries, hhosts, ← hostEntries,
      ← nameListLoop_hosts entries2 _ h2] at hl2
    rw [extensionsBody_zero_loop m m2 _ _ [] ok hd1 hr1 hnl1 hl,
      extensionsBody_zero_loop m m2 _ _ [] ok hd2 hr2 hnl2 hl2]

/-- `unmarshal` on an encoded ClientHello whose extensions are well formed and
carry at most one host name, without a trailing dot. -/
theorem unmarshal_encoded_ok (version random sessionId cipherSuites compressionMethods :
    List Byte) (exts : List Extension) (hv : version.length = 2) (hr : random.length = 32)
    (hs : sessionId.length ≤ 255) (hc : cipherSuites.length ≤ 65535)
    (hm : compressionMethods.length ≤ 255)
    (hexts : ∀ e ∈ exts, ExtensionOk e)
    (hblock : (encodeExtensions exts).length ≤ 65535)
    (hle : (hostNames exts).length ≤ 1)
    (hdot : ∀ name ∈ hostNames exts, hasSuffixDot name = false) :
    ∃ m, unmarshal (encodeHandshake typeClientHello (clientHelloBody version random sessionId
        cipherSuites compressionMethods (lengthPrefixed16 (encodeExtensions exts)))) =
        some (m, true) ∧
      m.serverName = encodedHostName exts ∧ m.extensions = exts.map Extension.typeId := by
  have hu := unmarshal_encoded_block version random sessionId cipherSuites compressionMethods
    (encodeExtensions exts) hv hr hs hc hm hblock
  rw [extensionsLoop_ok exts _ _ hexts hdot hle (Or.inl rfl) (Nat.le_refl _)] at hu
  exact ⟨_, hu, rfl, rfl⟩

theorem encodeExtensions_eq_records (exts : List Extension) :
    encodeExtensions exts = encodeRecords (exts.map (fun e => (e.typeId, e.data))) := by
  induction exts with
  | nil => rfl
  | cons e es ih =>
    simp only [encodeExtensions, List.map_cons, encodeRecords, ih]
    rfl

theorem body_eq_refl (recs : List (Nat × List Byte)) :
    List.Forall₂ (fun a b => ∀ m, extensionsBody m (encodeRecord a) =
      extensionsBody m (encodeRecord b)) recs recs := by
  induction recs with
  | nil => exact List.Forall₂.nil
  | cons r rs ih => exact List.Forall₂.cons (fun _ => rfl) ih

theorem body_eq_around (pre post : List (Nat × List Byte)) (a b : Nat × List Byte)
    (hab : ∀ m, extensionsBody m (encodeRecord a) = extensionsBody m (encodeRecord b)) :
    List.Forall₂ (fun a b => ∀ m, extensionsBody m (encodeRecord a) =
      extensionsBody m (encodeRecord b)) (pre ++ a :: post) (pre ++ b :: post) := by
  induction pre with
  | nil => exact List.Forall₂.cons hab (body_eq_refl post)
  | cons r rs ih => exact List.Forall₂.cons (fun _ => rfl) ih

/-- C17: name-list entries whose name type is not 0 are checked but never
stored. An encoded ClientHello whose extensions are well formed and whose
`server_name` extensions hold no entry of name type 0 (every value non-empty,
otherwise arbitrary) makes `unmarshal` return true with an empty server name;
and two encoded ClientHellos that differ only in the well-formed non-zero-type
entries placed around the single host_name entry of one `server_name`
extension give the same flag, server name and extension list. -/
theorem unmarshal_other_name_types (version random sessionId cipherSuites compressionMethods :
    List Byte) (hv : version.length = 2) (hr : random.length = 32)
    (hs : sessionId.length ≤ 255) (hc : cipherSuites.length ≤ 65535)
    (hm : compressionMethods.length ≤ 255) :
    (∀ (exts : List Extension), (∀ e ∈ exts, ExtensionOk e) →
      (encodeExtensions exts).length ≤ 65535 → hostNames exts = [] →
      ∃ m, unmarshal (encodeHandshake typeClientHello (clientHelloBody version random sessionId
          cipherSuites compressionMethods (lengthPrefixed16 (encodeExtensions exts)))) =
          some (m, true) ∧
        m.serverName = [] ∧ m.extensions = exts.map Extension.typeId) ∧
    (∀ (pre post : List (Nat × List Byte)) (entries1 entries2 : List (Byte × List Byte))
      (host : List Byte),
      NameListOk entries1 → NameListOk entries2 →
      hostNamesOfEntries entries1 = [host] → hostNamesOfEntries entries2 = [host] →
      RecordsFit (pre ++ (0, lengthPrefixed16 (encodeNameList entries1)) :: post) →
      RecordsFit (pre ++ (0, lengthPrefixed16 (encodeNameList entries2)) :: post) →
      (encodeRecords (pre ++ (0, lengthPrefixed16 (encodeNameList entries1)) :: post)).length
        ≤ 65535 →
      (encodeRecords (pre ++ (0, lengthPrefixed16 (encodeNameList entries2)) :: post)).length
        ≤ 65535 →
      ∃ m1 m2 ok,
        unmarshal (encodeHandshake typeClientHello (clientHelloBody version random sessionId
          cipherSuites compressionMethods (lengthPrefixed16 (encodeRecords
            (pre ++ (0, lengthPrefixed16 (encodeNameList entries1)) :: post))))) =
          some (m1, ok) ∧
        unmarshal (encodeHandshake typeClientHello (clientHelloBody version random sessionId
          cipherSuites compressionMethods (lengthPrefixed16 (encodeRecords
            (pre ++ (0, lengthPrefixed16 (encodeNameList entries2)) :: post))))) =
          some (m2, ok) ∧
        m1.serverName = m2.serverName ∧ m1.extensions = m2.extensions) := by
  constructor
  · intro exts hexts hblock hnone
    obtain ⟨m, hu, hsn, hext⟩ := unmarshal_encoded_ok version random sessionId cipherSuites
      compressionMethods exts hv hr hs hc hm hexts hblock (by rw [hnone]; exact Nat.zero_le _)
      (by rw [hnone]; intro name hname; cases hname)
    refine ⟨m, hu, ?_, hext⟩
    rw [hsn, encodedHostName, hnone]
    rfl
  · intro pre post entries1 entries2 host hok1 hok2 hh1 hh2 hf1 hf2 hb1 hb2
    have hd1 := (hf1 _ (List.mem_append_right _ (List.mem_cons_self _ _))).2
    have hd2 := (hf2 _ (List.mem_append_right _ (List.mem_cons_self _ _))).2
    simp only [lengthPrefixed16_length] at hd1 hd2
    have hne1 : entries1 ≠ [] := by
      rintro rfl
      cases hh1
    have hne2 : entries2 ≠ [] := by
      rintro rfl
      cases hh2
    exact unmarshal_congr version random sessionId cipherSuites compressionMethods _ _
      hv hr hs hc hm hb1 hb2
      (extensionsLoop_congr _ _ (body_eq_around pre post _ _
        (extensionsBody_same_hosts entries1 entries2 hok1 hok2 hne1 hne2 (by omega) (by omega)
          (hh1.trans hh2.symm))) hf1 hf2)

/-- Instance of C17: the host "a" alone, and the same host among entries of
name types 1 and 2, one of them ending in '.'. -/
theorem unmarshal_other_name_types_witness :
    ∃ m1 m2 ok,
      unmarshal (encodeHandshake typeClientHello (clientHelloBody [3, 3] (List.replicate 32 7)
        [] [0, 47] [0] (lengthPrefixed16 (encodeRecords
          ([(10, [0, 23])] ++ (0, lengthPrefixed16 (encodeNameList [(0, [97])])) :: []))))) =
        some (m1, ok) ∧
      unmarshal (encodeHandshake typeClientHello (clientHelloBody [3, 3] (List.replicate 32 7)
        [] [0, 47] [0] (lengthPrefixed16 (encodeRecords
          ([(10, [0, 23])] ++ (0, lengthPrefixed16 (encodeNameList
            [(1, [120, 46]), (0, [97]), (1, [121]), (2, [122])])) :: []))))) =
        some (m2, ok) ∧
      m1.serverName = m2.serverName ∧ m1.extensions = m2.extensions :=
  (unmarshal_other_name_types [3, 3] (List.replicate 32 7) [] [0, 47] [0]
    (by decide) (by decide) (by decide) (by decide) (by decide)).2
    [(10, [0, 23])] [] [(0, [97])] [(1, [120, 46]), (0, [97]), (1, [121]), (2, [122])] [97]
    (by unfold NameListOk; decide) (by unfold NameListOk; decide) rfl rfl
    (by unfold RecordsFit; decide) (by unfold RecordsFit; decide) (by decide) (by decide)

theorem hostNames_append (a b : List Extension) :
    hostNames (a ++ b) = hostNames a ++ hostNames b := by
  induction a with
  | nil => rfl
  | cons e es ih =>
    cases e with
    | serverName entries => simp [hostNames, ih]
    | other typeId data => simp [hostNames, ih]

theorem hostNames_others (l : List Extension) (h : ∀ e ∈ l, e.typeId ≠ 0) :
    hostNames l = [] := by
  induction l with
  | nil => rfl
  | cons e es ih =>
    have he := h e (List.mem_cons_self _ _)
    cases e with
    | serverName entries => exact absurd rfl he
    | other typeId data =>
      simp only [hostNames]
      exact ih (fun x hx => h x (List.mem_cons_of_mem _ hx))

theorem hostNamesOfEntries_ne_nil (entries : List (Byte × List Byte)) (hok : NameListOk entries)
    (x : List Byte) (hx : x ∈ hostNamesOfEntries entries) : x ≠ [] := by
  induction entries with
  | nil => cases hx
  | cons q qs ih =>
    have hqs : NameListOk qs := fun y hy => hok y (List.mem_cons_of_mem _ hy)
    by_cases hq : q.1 = 0
    · simp only [hostNamesOfEntries, hq, if_true, List.mem_cons] at hx
      rcases hx with rfl | hx
      · exact (hok q (List.mem_cons_self _ _)).1
      · exact ih hqs hx
    · simp only [hostNamesOfEntries, hq, if_false] at hx
      exact ih hqs hx

/-- When the name-list loop runs to its end on a well-formed name list, the
server name is the host name of the list, or the one it had if the list has
none. -/
theorem nameListLoop_true_serverName (entries : List (Byte × List Byte)) :
    ∀ (fuel : Nat) (m m2 : clientHelloMsg), NameListOk entries →
      (encodeNameList entries).length ≤ fuel →
      nameListLoop fuel m (encodeNameList entries) = some (m2, true) →
      m2.serverName = (hostNamesOfEntries entries).headD m.serverName := by
  induction entries with
  | nil =>
    intro fuel m m2 _ _ h
    simp only [encodeNameList, nameListLoop] at h
    rw [forLoop_nil] at h
    simp only [Option.some.injEq, Prod.mk.injEq, and_true] at h
    rw [← h]
    rfl
  | cons e es ih =>
    intro fuel m m2 hok hf h
    have he := hok e (List.mem_cons_self _ _)
    have hes : NameListOk es := fun x hx => hok x (List.mem_cons_of_mem _ hx)
    simp only [encodeNameList] at hf h
    rw [nameListLoop_entry fuel m e _ he.2 hf, if_neg he.1] at h
    by_cases h0 : e.1 = 0
    · rw [if_neg (by simpa using h0)] at h
      simp only [hostNamesOfEntries, h0, if_true, List.headD_cons]
      split at h
      · cases h
      · split at h
        · cases h
        · have hnil : hostNamesOfEntries es = [] := by
            cases hh : hostNamesOfEntries es with
            | nil => rfl
            | cons x xs =>
              obtain ⟨m3, h3⟩ := nameListLoop_duplicate es (encodeNameList es).length
                { m with serverName := e.2 } hes.fits
                (by rw [if_neg he.1, hh]; simp) (Nat.le_refl _)
              rw [h3] at h
              cases h
          have := ih _ _ m2 hes (Nat.le_refl _) h
          rw [this, hnil]
          rfl
    · rw [if_pos h0] at h
      simp only [hostNamesOfEntries, h0, if_false]
      exact ih _ m m2 hes (Nat.le_refl _) h

/-- The extension loop returns false on well-formed extensions that carry, with
the server name already held, two host names or more. -/
theorem extensionsLoop_two_hosts (exts : List Extension) :
    ∀ (m : clientHelloMsg), (∀ e ∈ exts, ExtensionOk e) →
      (if m.serverName = [] then 2 else 1) ≤ (hostNames exts).length →
      ∃ m1, extensionsLoop (encodeExtensions exts).length m (encodeExtensions exts) =
        some (m1, false) := by
  induction exts with
  | nil =>
    intro m _ h
    simp only [hostNames, List.length_nil] at h
    split at h <;> omega
  | cons e es ih =>
    intro m hok h
    have he := hok e (List.mem_cons_self _ _)
    have hes : ∀ x ∈ es, ExtensionOk x := fun x hx => hok x (List.mem_cons_of_mem _ hx)
    cases e with
    | other typeId data =>
      obtain ⟨h0, ht, hd⟩ := he
      simp only [hostNames] at h
      simp only [encodeExtensions]
      rw [extensionsLoop_other _ m typeId data _ h0 ht hd (Nat.le_refl _)]
      exact ih { m with extensions := m.extensions ++ [typeId] } hes h
    | serverName entries =>
      obtain ⟨hne, hnl, hn⟩ := he
      simp only [hostNames, List.length_append] at h
      simp only [encodeExtensions]
      have hsome := nameListLoop_isSome
        { m with extensions := m.extensions ++ [extensionServerName] }
        (encodeNameList entries) _ (Nat.le_refl _)
      cases hl : nameListLoop (encodeNameList entries).length
          { m with extensions := m.extensions ++ [extensionServerName] }
          (encodeNameList entries) with
      | none => rw [hl] at hsome; cases hsome
      | some p =>
        obtain ⟨m2, ok⟩ := p
        rw [extensionsLoop_serverName _ m entries _ hn m2 ok hne hl (Nat.le_refl _)]
        cases ok
        · exact ⟨m2, rfl⟩
        · rw [if_pos rfl]
          apply ih m2 hes
          have hsn := nameListLoop_true_serverName entries _ _ m2 hnl (Nat.le_refl _) hl
          simp only at hsn
          cases hh : hostNamesOfEntries entries with
          | nil =>
            rw [hh] at hsn h
            simp only [List.headD_nil] at hsn
            simp only [List.length_nil, Nat.zero_add] at h
            rw [hsn]
            exact h
          | cons x xs =>
            rw [hh] at hsn h
            simp only [List.headD_cons] at hsn
            have hx : x ∈ hostNamesOfEntries entries := by rw [hh]; exact List.mem_cons_self _ _
            have hxne : x ≠ [] := hostNamesOfEntries_ne_nil entries hnl x hx
            rw [hsn, if_neg hxne]
            by_cases hm : m.serverName = []
            · rw [if_pos hm] at h
              simp only [List.length_cons] at h
              by_cases hxs : xs = []
              · subst hxs
                simp only [List.length_nil] at h
                omega
              · obtain ⟨m3, h3⟩ := nameListLoop_duplicate entries (encodeNameList entries).length
                  { m with extensions := m.extensions ++ [extensionServerName] } hnl.fits
                  (by
                    rw [hh]
                    simp only [hm, if_true, List.length_cons]
                    have := List.length_pos.mpr hxs
                    omega) (Nat.le_refl _)
                rw [h3] at hl
                cases hl
            · obtain ⟨m3, h3⟩ := nameListLoop_duplicate entries (encodeNameList entries).length
                { m with extensions := m.extensions ++ [extensionServerName] } hnl.fits
                (by
                  rw [hh]
                  simp only [hm, if_false, List.length_cons]
                  omega) (Nat.le_refl _)
              rw [h3] at hl
              cases hl


/-- `unmarshal` returns false on an encoded ClientHello whose well-formed
extensions carry two host names or more. -/
theorem unmarshal_two_hosts (version random sessionId cipherSuites compressionMethods :
    List Byte) (exts : List Extension) (hv : version.length = 2) (hr : random.length = 32)
    (hs : sessionId.length ≤ 255) (hc : cipherSuites.length ≤ 65535)
    (hm : compressionMethods.length ≤ 255)
    (hexts : ∀ e ∈ exts, ExtensionOk e)
    (hblock : (encodeExtensions exts).length ≤ 65535)
    (htwo : 2 ≤ (hostNames exts).length) :
    ∃ m, unmarshal (encodeHandshake typeClientHello (clientHelloBody version random sessionId
        cipherSuites compressionMethods (lengthPrefixed16 (encodeExtensions exts)))) =
        some (m, false) := by
  rw [unmarshal_encoded_block version random sessionId cipherSuites compressionMethods
    (encodeExtensions exts) hv hr hs hc hm hblock]
  exact extensionsLoop_two_hosts exts _ hexts (by
    simp only [clientHelloMsg.ofRaw, if_true]
    exact htwo)

/-- C20: the duplicate-host-name check spans the whole message. An encoded
ClientHello whose well-formed extensions include two `server_name` extensions
with one host_name entry each makes `unmarshal` return false; whenever
`unmarshal` returns true on well-formed extensions, all their `server_name`
extensions together carry at most one host_name entry; and a second
`server_name` extension with entries of non-zero name type only is accepted,
the extension list then holding the identifier 0 twice. -/
theorem unmarshal_host_name_across_extensions (version random sessionId cipherSuites
    compressionMethods : List Byte) (hv : version.length = 2) (hr : random.length = 32)
    (hs : sessionId.length ≤ 255) (hc : cipherSuites.length ≤ 65535)
    (hm : compressionMethods.length ≤ 255) :
    (∀ (pre mid post : List Extension) (entries1 entries2 : List (Byte × List Byte))
      (host1 host2 : List Byte),
      (∀ e ∈ pre ++ Extension.serverName entries1 ::
        (mid ++ Extension.serverName entries2 :: post), ExtensionOk e) →
      (encodeExtensions (pre ++ Extension.serverName entries1 ::
        (mid ++ Extension.serverName entries2 :: post))).length ≤ 65535 →
      hostNamesOfEntries entries1 = [host1] → hostNamesOfEntries entries2 = [host2] →
      ∃ m, unmarshal (encodeHandshake typeClientHello (clientHelloBody version random sessionId
        cipherSuites compressionMethods (lengthPrefixed16 (encodeExtensions
          (pre ++ Extension.serverName entries1 ::
            (mid ++ Extension.serverName entries2 :: post)))))) = some (m, false)) ∧
    (∀ (exts : List Extension) (m : clientHelloMsg), (∀ e ∈ exts, ExtensionOk e) →
      (encodeExtensions exts).length ≤ 65535 →
      unmarshal (encodeHandshake typeClientHello (clientHelloBody version random sessionId
        cipherSuites compressionMethods (lengthPrefixed16 (encodeExtensions exts)))) =
        some (m, true) →
      (hostNames exts).length ≤ 1) ∧
    (∀ (pre mid post : List Extension) (entries1 entries2 : List (Byte × List Byte))
      (host : List Byte),
      (∀ e ∈ pre ++ Extension.serverName entries1 ::
        (mid ++ Extension.serverName entries2 :: post), ExtensionOk e) →
      (encodeExtensions (pre ++ Extension.serverName entries1 ::
        (mid ++ Extension.serverName entries2 :: post))).length ≤ 65535 →
      (∀ e ∈ pre, e.typeId ≠ 0) → (∀ e ∈ mid, e.typeId ≠ 0) → (∀ e ∈ post, e.typeId ≠ 0) →
      hostNamesOfEntries entries1 = [host] → host.getLast? ≠ some 46 →
      hostNamesOfEntries entries2 = [] →
      ∃ m, unmarshal (encodeHandshake typeClientHello (clientHelloBody version random sessionId
          cipherSuites compressionMethods (lengthPrefixed16 (encodeExtensions
            (pre ++ Extension.serverName entries1 ::
              (mid ++ Extension.serverName entries2 :: post)))))) = some (m, true) ∧
        m.serverName = host ∧
        m.extensions = pre.map Extension.typeId ++ 0 ::
          (mid.map Extension.typeId ++ 0 :: post.map Extension.typeId)) := by
  refine ⟨?_, ?_, ?_⟩
  · intro pre mid post entries1 entries2 host1 host2 hexts hblock hh1 hh2
    refine unmarshal_two_hosts version random sessionId cipherSuites compressionMethods _
      hv hr hs hc hm hexts hblock ?_
    simp only [hostNames_append, hostNames, hh1, hh2, List.length_append, List.length_cons,
      List.length_nil]
    omega
  · intro exts m hexts hblock hu
    by_cases htwo : 2 ≤ (hostNames exts).length
    · obtain ⟨m1, h1⟩ := unmarshal_two_hosts version random sessionId cipherSuites
        compressionMethods exts hv hr hs hc hm hexts hblock htwo
      rw [h1] at hu
      cases hu
    · omega
  · intro pre mid post entries1 entries2 host hexts hblock hpre hmid hpost hh1 hdot hh2
    have hhosts : hostNames (pre ++ Extension.serverName entries1 ::
        (mid ++ Extension.serverName entries2 :: post)) = [host] := by
      simp only [hostNames_append, hostNames, hh1, hh2, hostNames_others pre hpre,
        hostNames_others mid hmid, hostNames_others post hpost, List.nil_append,
        List.append_nil, List.singleton_append]
    obtain ⟨m, hu, hsn, hext⟩ := unmarshal_encoded_ok version random sessionId cipherSuites
      compressionMethods _ hv hr hs hc hm hexts hblock (by rw [hhosts]; exact Nat.le_refl _)
      (by
        rw [hhosts]
        intro name hname
        rw [List.mem_singleton] at hname
        rw [hname]
        exact hasSuffixDot_eq_false.mpr hdot)
    refine ⟨m, hu, ?_, ?_⟩
    · rw [hsn, encodedHostName, hhosts]
      rfl
    · rw [hext]
      simp [Extension.typeId, extensionServerName]

/-- Instance of C20: host "a" in one `server_name` extension and host "b" in a
second one, with an extension of type 10 between them. -/
theorem unmarshal_host_name_across_extensions_witness :
    ∃ m, unmarshal (encodeHandshake typeClientHello (clientHelloBody [3, 3]
        (List.replicate 32 7) [] [0, 47] [0] (lengthPrefixed16 (encodeExtensions
          ([] ++ Extension.serverName [(0, [97])] ::
            ([Extension.other 10 [0, 23]] ++ Extension.serverName [(0, [98])] :: [])))))) =
      some (m, false) :=
  (unmarshal_host_name_across_extensions [3, 3] (List.replicate 32 7) [] [0, 47] [0]
    (by decide) (by decide) (by decide) (by decide) (by decide)).1
    [] [Extension.other 10 [0, 23]] [] [(0, [97])] [(0, [98])] [97] [98]
    (List.forall_mem_cons.mpr ⟨⟨by decide, by unfold NameListOk; decide, by decide⟩,
      List.forall_mem_cons.mpr ⟨⟨by decide, by decide, by decide⟩,
        List.forall_mem_cons.mpr ⟨⟨by decide, by unfold NameListOk; decide, by decide⟩,
          fun _ h => nomatch h⟩⟩⟩)
    (by decide) rfl rfl

/-! ## Results and repetition of `decodeFromBytes` -/

/-- C11: no partial results on failure. Whatever `decodeFromBytes` returns on a
fresh record: if the error is the "unable to unmarshal" one the record has no
ClientHello, and if the record has a ClientHello then `unmarshal` returned true
on the payload, there is no error, and the ClientHello holds the server name
and the extension list of that successful `unmarshal`. -/
theorem decodeFromBytes_no_partial_result (h : TLSRecordHeader) (data : List Byte)
    (t1 : TLSHandshakeRecord) (e : Option DecodeError)
    (hdec : decodeFromBytes TLSHandshakeRecord.fresh h data = some (t1, e)) :
    ((∃ ty, e = some (DecodeError.unableToUnmarshal ty)) → t1.ClientHello = none) ∧
    (∀ hello, t1.ClientHello = some hello →
      e = none ∧ ∃ m, unmarshal data = some (m, true) ∧
        hello = { ServerName := m.serverName, Extensions := m.extensions }) := by
  have key : ∀ t2 e2, decodeFromBytes TLSHandshakeRecord.fresh h data = some (t2, e2) →
      t2.ClientHello = none → t1.ClientHello = none ∧ e = e2 := by
    intro t2 e2 h2 hn
    rw [h2] at hdec
    simp only [Option.some.injEq, Prod.mk.injEq] at hdec
    rw [← hdec.1, ← hdec.2]
    exact ⟨hn, rfl⟩
  have none_case : t1.ClientHello = none →
      ((∃ ty, e = some (DecodeError.unableToUnmarshal ty)) → t1.ClientHello = none) ∧
      (∀ hello, t1.ClientHello = some hello →
        e = none ∧ ∃ m, unmarshal data = some (m, true) ∧
          hello = { ServerName := m.serverName, Extensions := m.extensions }) := by
    intro hn
    refine ⟨fun _ => hn, fun hello hh => ?_⟩
    rw [hn] at hh
    cases hh
  by_cases h0 : h.Length = 0
  · exact none_case (key _ _ (decodeFromBytes_zero _ h data h0) rfl).1
  by_cases hlen : data.length < 4
  · exact none_case (key _ _ (decodeFromBytes_short _ h data h0 hlen) rfl).1
  have h4 : 4 ≤ data.length := by omega
  by_cases heq : data.length =
      4 + ((data.getD 1 0).val * 65536 + (data.getD 2 0).val * 256 + (data.getD 3 0).val)
  · by_cases hty : data.getD 0 0 = typeClientHello
    · obtain ⟨m, ok, hu⟩ := unmarshal_terminates data
      cases ok
      · exact none_case
          (key _ _ (decodeFromBytes_clientHello_fail _ h data h0 h4 heq hty m hu) rfl).1
      · have h2 := decodeFromBytes_clientHello_ok TLSHandshakeRecord.fresh h data h0 h4 heq
          hty m hu
        rw [h2] at hdec
        simp only [Option.some.injEq, Prod.mk.injEq] at hdec
        obtain ⟨ht, he⟩ := hdec
        subst ht
        subst he
        refine ⟨(fun ⟨_, hh⟩ => nomatch hh), fun hello hh => ⟨rfl, m, hu, ?_⟩⟩
        simp only [Option.some.injEq] at hh
        exact hh.symm
    · exact none_case (key _ _ (decodeFromBytes_other _ h data h0 h4 heq hty) rfl).1
  · exact none_case (key _ _ (decodeFromBytes_mismatch _ h data h0 h4 heq) rfl).1

/-- Instance of C11: the host name "example.com." after an extension of type
10. `unmarshal` has recorded both extension identifiers and the server name
when it returns false, and the record has no ClientHello. -/
theorem decodeFromBytes_no_partial_result_witness :
    (∃ m, unmarshal (encodeHandshake typeClientHello
        (clientHelloBody [3, 3] (List.replicate 32 7) [] [0, 47] [0]
          (lengthPrefixed16 (encodeExtensions
            [Extension.other 10 [0, 23], Extension.serverName
              [(0, [101, 120, 97, 109, 112, 108, 101, 46, 99, 111, 109, 46])]])))) =
        some (m, false) ∧
      m.serverName = [101, 120, 97, 109, 112, 108, 101, 46, 99, 111, 109, 46] ∧
      m.extensions = [10, 0]) ∧
    decodeFromBytes TLSHandshakeRecord.fresh ⟨22, 771, 70⟩
      (encodeHandshake typeClientHello
        (clientHelloBody [3, 3] (List.replicate 32 7) [] [0, 47] [0]
          (lengthPrefixed16 (encodeExtensions
            [Extension.other 10 [0, 23], Extension.serverName
              [(0, [101, 120, 97, 109, 112, 108, 101, 46, 99, 111, 109, 46])]])))) =
      some ({ ContentType := 22, Version := 771, Length := 70, HandshakeType := 1,
              ClientHello := none }, some (DecodeError.unableToUnmarshal 1)) ∧
    (({ ContentType := 22, Version := 771, Length := 70, HandshakeType := 1,
        ClientHello := none } : TLSHandshakeRecord).ClientHello = none) :=
  ⟨⟨_, rfl, rfl, rfl⟩, rfl,
    (decodeFromBytes_no_partial_result ⟨22, 771, 70⟩
      (encodeHandshake typeClientHello
        (clientHelloBody [3, 3] (List.replicate 32 7) [] [0, 47] [0]
          (lengthPrefixed16 (encodeExtensions
            [Extension.other 10 [0, 23], Extension.serverName
              [(0, [101, 120, 97, 109, 112, 108, 101, 46, 99, 111, 109, 46])]]))))
      { ContentType := 22, Version := 771, Length := 70, HandshakeType := 1,
        ClientHello := none }
      (some (DecodeError.unableToUnmarshal 1)) rfl).1 ⟨_, rfl⟩⟩

/-- C19: idempotence. `decodeFromBytes` returns on every record, header and
payload, and decoding the same header and payload again into the record it
left returns the same error (or none) and leaves that record unchanged. -/
theorem decodeFromBytes_idempotent (t : TLSHandshakeRecord) (h : TLSRecordHeader)
    (data : List Byte) :
    ∃ t1 e, decodeFromBytes t h data = some (t1, e) ∧
      decodeFromBytes t1 h data = some (t1, e) := by
  by_cases h0 : h.Length = 0
  · exact ⟨_, _, decodeFromBytes_zero t h data h0, decodeFromBytes_zero _ h data h0⟩
  by_cases hlen : data.length < 4
  · exact ⟨_, _, decodeFromBytes_short t h data h0 hlen, decodeFromBytes_short _ h data h0 hlen⟩
  have h4 : 4 ≤ data.length := by omega
  by_cases heq : data.length =
      4 + ((data.getD 1 0).val * 65536 + (data.getD 2 0).val * 256 + (data.getD 3 0).val)
  · by_cases hty : data.getD 0 0 = typeClientHello
    · obtain ⟨m, ok, hu⟩ := unmarshal_terminates data
      cases ok
      · exact ⟨_, _, decodeFromBytes_clientHello_fail t h data h0 h4 heq hty m hu,
          decodeFromBytes_clientHello_fail _ h data h0 h4 heq hty m hu⟩
      · exact ⟨_, _, decodeFromBytes_clientHello_ok t h data h0 h4 heq hty m hu,
          decodeFromBytes_clientHello_ok _ h data h0 h4 heq hty m hu⟩
    · exact ⟨_, _, decodeFromBytes_other t h data h0 h4 heq hty,
        decodeFromBytes_other _ h data h0 h4 heq hty⟩
  · exact ⟨_, _, decodeFromBytes_mismatch t h data h0 h4 heq,
      decodeFromBytes_mismatch _ h data h0 h4 heq⟩

end layers
